import Mathlib

/-!
The ledger engine of js-blockchain: a shallow embedding

The development follows the JavaScript sources

* `src/helper/generate-keys.js` (base-62 addresses, mnemonic seed codec),
* `src/class/transaction.js` (pair kinds, validation),
* `src/class/block.js` (header hash, one proof-of-work step),
* `src/class/blockchain.js` (admission, batching, mining, balances, integrity).

Conventions of the embedding.

* Strings are Lean strings; `length` is compared with the JavaScript `length`
  (the two agree on the ASCII strings the program produces and accepts).
* A JavaScript number that holds money is a rational. The ledger operations
  add amounts exactly and round only where the program asks for it (`toFixed`);
  the binary64 rounding of every sum is modelled for the balances that the
  conservation law compares (`roundDouble`, `getBalanceDouble`).
* `Date.now()` is an argument `now` of the operation that reads the clock.
* An operation that can throw returns `Except String α` together with the
  ledger as the call leaves it, so that the state after a throw can be
  inspected.
* SHA-256, RIPEMD-160 and the secp256k1 primitives are the fields of a
  `Crypto` record; nothing is assumed about them beyond the digest sizes.
-/

namespace JsBlockchain

/-! ## Digits, hexadecimal strings and byte buffers -/

/-- Value of one hexadecimal digit. `BigInt("0x" + s)` and `Buffer.from(s, "hex")`
accept both letter cases. -/
def hexDigitVal (ch : Char) : Option Nat :=
  if 48 ≤ ch.toNat ∧ ch.toNat ≤ 57 then some (ch.toNat - 48)
  else if 97 ≤ ch.toNat ∧ ch.toNat ≤ 102 then some (ch.toNat - 87)
  else if 65 ≤ ch.toNat ∧ ch.toNat ≤ 70 then some (ch.toNat - 55)
  else none

/-- Value of one binary digit. -/
def binDigitVal (ch : Char) : Option Nat :=
  if ch = '0' then some 0 else if ch = '1' then some 1 else none

/-- Left-to-right positional reading of a digit string in base `b`; `none` when a
character is not a digit (JavaScript raises `SyntaxError`). -/
def parseDigits (b : Nat) (digit : Char → Option Nat) : List Char → Nat → Option Nat
  | [], acc => some acc
  | ch :: rest, acc =>
    match digit ch with
    | some d => parseDigits b digit rest (acc * b + d)
    | none => none

/-- The JavaScript `BigInt("0x" + s)`: `none` stands for the `SyntaxError` raised on
an empty or malformed digit string. -/
def bigIntOfHex (s : List Char) : Option Nat :=
  if s = [] then none else parseDigits 16 hexDigitVal s 0

/-- The JavaScript `BigInt("0b" + s)`. -/
def bigIntOfBin (s : List Char) : Option Nat :=
  if s = [] then none else parseDigits 2 binDigitVal s 0

/-- The JavaScript `parseInt(s, 2)` on a string of binary digits: the value of the
longest leading run of binary digits, `none` (NaN) when that run is empty. -/
def parseIntBin : List Char → Option Nat → Option Nat
  | [], acc => acc
  | ch :: rest, acc =>
    match binDigitVal ch with
    | some d => parseIntBin rest (some (acc.getD 0 * 2 + d))
    | none => acc

/-- The JavaScript `s.padStart(w, "0")`. -/
def padStart (w : Nat) (s : List Char) : List Char :=
  List.replicate (w - s.length) '0' ++ s

/-- The JavaScript `n.toString(radix)` of a non-negative integer. -/
def toStringRadix (radix n : Nat) : List Char := Nat.toDigits radix n

/-- The JavaScript `Buffer.from(s, "hex")`: decoding stops at the first pair that is not
two hexadecimal digits, and a trailing single digit is dropped. -/
def hexToBytes : List Char → List Nat
  | hi :: lo :: rest =>
    match hexDigitVal hi, hexDigitVal lo with
    | some h, some l => (h * 16 + l) :: hexToBytes rest
    | _, _ => []
  | _ => []

/-- Two lower-case hexadecimal digits of one byte of a buffer. -/
def byteToHex (b : Nat) : List Char :=
  [Nat.digitChar (b / 16 % 16), Nat.digitChar (b % 16)]

/-- The JavaScript `buffer.toString("hex")` (also `digest("hex")`). -/
def bytesToHex : List Nat → List Char
  | [] => []
  | b :: rest => byteToHex b ++ bytesToHex rest

/-- UTF-8 bytes of a string, as `hash.update(string)` reads them. -/
def utf8Bytes (s : String) : List Nat :=
  s.toUTF8.data.toList.map (fun b => b.toNat)

/-! ## The cryptographic provider -/

/-- The external cryptographic provider. Digests are byte lists of the standard
sizes. `keyFromPublic` tells whether `ec.keyFromPublic(hex, "hex")` returns a key
(`false`: it throws); `verify pub digest sig` is the result of
`ec.keyFromPublic(pub, "hex").verify(digest, sig)`, `none` when it throws.
`showNumber` is the JavaScript conversion of a number to a string. -/
structure Crypto where
  sha256 : List Nat → List Nat
  ripemd160 : List Nat → List Nat
  keyFromPublic : String → Bool
  verify : String → String → String → Option Bool
  showNumber : ℚ → String
  sha256_length : ∀ bs, (sha256 bs).length = 32
  ripemd160_length : ∀ bs, (ripemd160 bs).length = 20

/-- The JavaScript `crypto.createHash("sha256").update(s).digest("hex")` for a string `s`. -/
def sha256Hex (c : Crypto) (s : String) : String :=
  String.mk (bytesToHex (c.sha256 (utf8Bytes s)))

/-! ## generate-keys.js: addresses -/

/-- The alphabet of `to62base`. -/
def base62dictionary : List Char :=
  "0123456789abcdefghijklmnopqrstuvwxyzABCDEFGHIJKLMNOPQRSTUVWXYZ".data

/-- The `while (bigint > 0)` loop of `to62base`, bounded by `fuel` iterations. -/
def to62baseLoop : Nat → Nat → List Char → List Char
  | 0, _, base62 => base62
  | fuel + 1, bigint, base62 =>
    if bigint > 0 then
      to62baseLoop fuel (bigint / 62) (base62dictionary.getD (bigint % 62) '0' :: base62)
    else base62

/-- The loop of `to62base` run on a number; `bigint` iterations always suffice,
see `to62baseLoop_fuel`. -/
def to62baseNat (bigint : Nat) : List Char := to62baseLoop bigint bigint []

/-- The function `to62base(hex)`; `none` when `BigInt("0x" + hex)` throws. -/
def to62base (hex : List Char) : Option (List Char) :=
  (bigIntOfHex hex).map to62baseNat

/-- The string `rawAddress` of `generateAddress`: version byte, hash160, checksum. -/
def rawAddress (c : Crypto) (publicKey : String) : List Char :=
  let sha256 := c.sha256 (hexToBytes publicKey.data)
  let hash160 := bytesToHex (c.ripemd160 sha256)
  let checkSum := bytesToHex (c.sha256 sha256)
  "38".data ++ hash160 ++ checkSum.take 8

theorem hexDigitVal_digitChar (d : Nat) (h : d < 16) :
    hexDigitVal (Nat.digitChar d) = some d := by
  interval_cases d <;> rfl

theorem parseDigits_hex_isSome (s : List Char) (acc : Nat)
    (h : ∀ ch ∈ s, (hexDigitVal ch).isSome = true) :
    (parseDigits 16 hexDigitVal s acc).isSome = true := by
  induction s generalizing acc with
  | nil => rfl
  | cons ch rest ih =>
    have h1 := h ch (List.mem_cons_self _ _)
    obtain ⟨d, hd⟩ := Option.isSome_iff_exists.mp h1
    simp only [parseDigits, hd]
    exact ih _ (fun x hx => h x (List.mem_cons_of_mem _ hx))

theorem bytesToHex_hex (bs : List Nat) :
    ∀ ch ∈ bytesToHex bs, (hexDigitVal ch).isSome = true := by
  induction bs with
  | nil => intro ch h; simp [bytesToHex] at h
  | cons b rest ih =>
    intro ch h
    simp only [bytesToHex, byteToHex, List.cons_append, List.nil_append, List.mem_cons] at h
    rcases h with h | h | h
    · rw [h, hexDigitVal_digitChar _ (Nat.mod_lt _ (by decide))]; rfl
    · rw [h, hexDigitVal_digitChar _ (Nat.mod_lt _ (by decide))]; rfl
    · exact ih ch h

theorem rawAddress_hex (c : Crypto) (publicKey : String) :
    ∀ ch ∈ rawAddress c publicKey, (hexDigitVal ch).isSome = true := by
  intro ch h
  simp only [rawAddress, List.mem_append] at h
  rcases h with (h | h) | h
  · have : ch = '3' ∨ ch = '8' := by simpa using h
    rcases this with h | h <;> rw [h] <;> rfl
  · exact bytesToHex_hex _ ch h
  · exact bytesToHex_hex _ ch (List.mem_of_mem_take h)

theorem to62base_rawAddress_isSome (c : Crypto) (publicKey : String) :
    (to62base (rawAddress c publicKey)).isSome = true := by
  have hne : rawAddress c publicKey ≠ [] := by simp [rawAddress]
  simp only [to62base, bigIntOfHex, hne, if_false, Option.isSome_map']
  exact parseDigits_hex_isSome _ _ (rawAddress_hex c publicKey)

/-- The function `generateAddress(publicKey)`. The hexadecimal string handed to `to62base`
is built from digests, so `BigInt` never throws on it. -/
def generateAddress (c : Crypto) (publicKey : String) : String :=
  String.mk ((to62base (rawAddress c publicKey)).get (to62base_rawAddress_isSome c publicKey))

/-! ## transaction.js -/

/-- A transaction object. `fromAddress = none` is the JavaScript `null` of a mint
(coinbase) transaction; `nonce`, `signature` and `publicKey` are `null` until set. -/
structure Transaction where
  fromAddress : Option String
  toAddress : String
  pair : Nat
  amount : ℚ
  timestamp : Nat
  hash : String
  nonce : Option Int
  signature : Option String
  publicKey : Option String
  deriving DecidableEq

/-- String conversion of a field that holds `null` or a string. -/
def showOptString : Option String → String
  | none => "null"
  | some s => s

/-- String conversion of the `nonce` field. -/
def showNonce : Option Int → String
  | none => "null"
  | some n => toString n

/-- The method `checkPair()`: 0 key to key, 1 address to address, 2 mint to key,
3 mint to address. Reading `length` of a `null` sender throws. -/
def checkPair (fromAddress : Option String) (toAddress : String) : Except String Nat :=
  if fromAddress = none ∧ toAddress.length = 130 then .ok 2
  else if fromAddress = none ∧ toAddress.length = 34 then .ok 3
  else
    match fromAddress with
    | none => .error "TypeError: fromAddress is null"
    | some f =>
      if f.length = 130 ∧ toAddress.length = 130 then .ok 0
      else if f.length = 34 ∧ toAddress.length = 34 then .ok 1
      else .error "Invalid addresses pair"

/-- The method `calcHash()` (identity hash); `nonceText` is the string form of the
`nonce` property at the time of the call. -/
def Transaction.calcHash (c : Crypto) (t : Transaction) (nonceText : String) : String :=
  sha256Hex c (showOptString t.fromAddress ++ t.toAddress ++ c.showNumber t.amount
    ++ toString t.timestamp ++ toString t.pair ++ nonceText)

/-- The method `calculateHash()` (signing digest). -/
def Transaction.calculateHash (c : Crypto) (t : Transaction) : String :=
  sha256Hex c (showOptString t.fromAddress ++ t.toAddress ++ c.showNumber t.amount
    ++ toString t.timestamp ++ showNonce t.nonce ++ toString t.pair)

/-- The constructor `new Transaction(fromAddress, toAddress, amount)`. The identity hash is
taken before `nonce` is assigned, when the property still reads `undefined`. -/
def Transaction.new (c : Crypto) (fromAddress : Option String) (toAddress : String)
    (amount : ℚ) (now : Nat) : Except String Transaction :=
  match checkPair fromAddress toAddress with
  | .error e => .error e
  | .ok p =>
    let t : Transaction :=
      { fromAddress := fromAddress, toAddress := toAddress, pair := p, amount := amount,
        timestamp := now, hash := "", nonce := none, signature := none, publicKey := none }
    .ok { t with hash := t.calcHash c "undefined" }

/-- The test `this.nonce >= 0 && this.nonce < Infinity`; `null` compares as 0. -/
def nonceInRange : Option Int → Bool
  | none => true
  | some n => decide (0 ≤ n)

/-- The method `isValid()`. `.error` is a throw of the elliptic library (no key to
verify with, undecodable key or signature). -/
def Transaction.isValid (c : Crypto) (t : Transaction) : Except String Bool :=
  if t.pair = 2 ∨ t.pair = 3 then
    if t.amount ≤ 0 then .ok false
    else if t.hash = "" then .ok false
    else if nonceInRange t.nonce = false then .ok false
    else .ok true
  else
    match t.signature with
    | none => .ok false
    | some sig =>
      if sig.length = 0 then .ok false
      else if t.amount ≤ 0 then .ok false
      else if t.hash = "" then .ok false
      else
        let verifyWith (publicKeyHex : Option String) : Except String Bool :=
          match publicKeyHex with
          | none => .error "TypeError: no public key"
          | some pk =>
            if c.keyFromPublic pk = false then .error "Unknown point format"
            else
              match c.verify pk (t.calculateHash c) sig with
              | none => .error "Signature without r or s"
              | some v => .ok v
        if t.pair = 0 then verifyWith t.fromAddress
        else if t.pair = 1 then
          match t.publicKey with
          | none => .ok false
          | some pk =>
            if pk = "" then .ok false
            else if some (generateAddress c pk) ≠ t.fromAddress then .ok false
            else verifyWith (some pk)
        else .ok false

/-- One character of the class `[0-9a-zA-Z]`. -/
def isBase62Char (ch : Char) : Bool :=
  decide ((48 ≤ ch.toNat ∧ ch.toNat ≤ 57) ∨ (97 ≤ ch.toNat ∧ ch.toNat ≤ 122)
    ∨ (65 ≤ ch.toNat ∧ ch.toNat ≤ 90))

/-- The test `/^[0-9a-zA-Z]{34}$/.test(s)`. -/
def isAddressShape (s : String) : Bool :=
  decide (s.length = 34) && s.data.all isBase62Char

/-- The test `s.startsWith("04")`. -/
def startsWith04 (s : String) : Bool :=
  decide (s.data.take 2 = ['0', '4'])

/-- The method `isValidAddress()` (its argument is ignored by the source). For pair
0 a throw inside the `try` block yields `false`; for pair 2 the call of
`ec.keyFromPublic` is not guarded, and a recipient of the wrong shape falls through
to the final `throw`. -/
def Transaction.isValidAddress (c : Crypto) (t : Transaction) : Except String Bool :=
  if t.pair = 0 then
    match t.fromAddress with
    | none => .ok false
    | some f =>
      if f.length = 130 ∧ startsWith04 f = true ∧ t.toAddress.length = 130
          ∧ startsWith04 t.toAddress = true then
        if c.keyFromPublic f = true ∧ c.keyFromPublic t.toAddress = true then .ok true
        else .ok false
      else .ok false
  else if t.pair = 1 then
    match t.fromAddress with
    | none => .ok false
    | some f => .ok (isAddressShape f && isAddressShape t.toAddress)
  else if t.pair = 2 ∧ t.fromAddress = none ∧ t.toAddress.length = 130
      ∧ startsWith04 t.toAddress = true then
    if c.keyFromPublic t.toAddress = true then .ok true else .error "Unknown point format"
  else if t.pair = 3 then
    .ok (decide (t.fromAddress = none) && isAddressShape t.toAddress)
  else .error "Invalid addresses pair"

/-! ## block.js -/

/-- A block object. -/
structure Block where
  timestamp : Nat
  transactions : List Transaction
  prevHash : String
  nonce : Nat
  hash : String
  mined : Bool
  deriving DecidableEq

/-- The method `calcHash()`: SHA-256 of `timestamp + prevHash + nonce`. -/
def Block.calcHash (c : Crypto) (b : Block) : String :=
  sha256Hex c (toString b.timestamp ++ b.prevHash ++ toString b.nonce)

/-- The method `validTransactions(transactions)`: keeps the transactions whose `isValid()`
is true; a throw of `isValid()` leaves the loop. -/
def validTransactions (c : Crypto) : List Transaction → Except String (List Transaction)
  | [] => .ok []
  | tx :: rest =>
    match tx.isValid c with
    | .error e => .error e
    | .ok v =>
      match validTransactions c rest with
      | .error e => .error e
      | .ok arr => .ok (if v then tx :: arr else arr)

/-- The assignments of the constructor of `Block` once the transactions are filtered:
nonce 0, the hash of the header, `mined = false`. -/
def Block.assemble (c : Crypto) (timestamp : Nat) (arr : List Transaction) (prevHash : String) :
    Block :=
  let b : Block :=
    { timestamp := timestamp, transactions := arr, prevHash := prevHash, nonce := 0,
      hash := "", mined := false }
  { b with hash := b.calcHash c }

/-- The constructor `new Block(timestamp, transactions, prevHash)`. -/
def Block.new (c : Crypto) (timestamp : Nat) (transactions : List Transaction)
    (prevHash : String) : Except String Block :=
  match validTransactions c transactions with
  | .error e => .error e
  | .ok arr => .ok (Block.assemble c timestamp arr prevHash)

/-- The test of `mineBlock`: `hash.substring(0, difficulty) === Array(difficulty + 1).join("0")`. -/
def Block.meetsDifficulty (b : Block) (difficulty : Nat) : Bool :=
  decide (b.hash.data.take difficulty = List.replicate difficulty '0')

/-- The method `mineBlock(difficulty)`: the returned boolean and the block afterwards. -/
def Block.mineBlock (c : Crypto) (b : Block) (difficulty : Nat) : Bool × Block :=
  if b.mined = true then (false, b)
  else if b.meetsDifficulty difficulty = false then
    let b1 : Block := { b with nonce := b.nonce + 1 }
    (false, { b1 with hash := b1.calcHash c })
  else (true, { b with mined := true })

/-! ## blockchain.js -/

/-- The ledger object. `nonces` is the object used as a table from sender address to
next expected nonce, in insertion order. -/
structure Blockchain where
  chain : List Block
  pendingTransactions : List Transaction
  nonces : List (String × Int)
  difficulty : Nat
  adjustDifficultyAfterNBlocks : Nat
  targetTimeForBlock : ℚ
  miningReward : ℚ
  maxSupply : ℚ
  currentMoney : ℚ
  nextHalving : ℚ
  maxTransactionsPerBlock : Nat
  minTxAmount : ℚ
  maxTxAmount : ℚ
  maxSymbolsAfterPeriod : Nat
  deriving DecidableEq

/-- The method `createGenesisBlock()` followed by the constructor of `Blockchain`. The
genesis block has no transactions, so its construction does not throw. -/
def Blockchain.new (c : Crypto) (now : Nat) : Blockchain :=
  { chain := [Block.assemble c now [] ""],
    pendingTransactions := [],
    nonces := [],
    difficulty := 1,
    adjustDifficultyAfterNBlocks := 5,
    targetTimeForBlock := 500,
    miningReward := 10,
    maxSupply := 1000000,
    currentMoney := 1000000,
    nextHalving := 500000,
    maxTransactionsPerBlock := 5000,
    minTxAmount := 1 / 100000,
    maxTxAmount := 100000,
    maxSymbolsAfterPeriod := 10 }

/-- The method `getLatestBlock()`; `none` is `undefined` (empty chain). -/
def Blockchain.getLatestBlock (s : Blockchain) : Option Block := s.chain.getLast?

/-- The read `this.nonces[address]`. -/
def lookupNonce (nonces : List (String × Int)) (address : String) : Option Int :=
  match nonces with
  | [] => none
  | (k, v) :: rest => if k = address then some v else lookupNonce rest address

/-- The write `this.nonces[address] = value`. -/
def setNonce (nonces : List (String × Int)) (address : String) (value : Int) :
    List (String × Int) :=
  match nonces with
  | [] => [(address, value)]
  | (k, v) :: rest =>
    if k = address then (k, value) :: rest else (k, v) :: setNonce rest address value

/-- The expression `this.nonces[address] || 0`. -/
def expectedNonce (nonces : List (String × Int)) (address : String) : Int :=
  (lookupNonce nonces address).getD 0

/-- The JavaScript `parseFloat(x.toFixed(digits))`: rounding to `digits` decimals, a tie
going away from zero. -/
def toFixedNumber (digits : Nat) (x : ℚ) : ℚ :=
  if 0 ≤ x then (Rat.floor (x * 10 ^ digits + 1 / 2) : ℚ) / 10 ^ digits
  else -((Rat.floor (-x * 10 ^ digits + 1 / 2) : ℚ) / 10 ^ digits)

/-- The constant `Number.MAX_SAFE_INTEGER`. -/
def maxSafeInteger : ℚ := 9007199254740991

/-- The argument of `getBalance`: `null`, a string, or a key pair object whose
`getPublic("hex")` is `publicHex`. -/
inductive Key where
  | null
  | str (key : String)
  | keyPair (publicHex : String)
  deriving DecidableEq

/-- The pair `(publicKey, address)` that `getBalance` resolves its argument to. -/
def resolveKey (c : Crypto) : Key → Option String × Option String
  | .null => (none, none)
  | .str key =>
    if key.length = 130 then (some key, some (generateAddress c key))
    else if key.length = 34 then (none, some key)
    else (none, none)
  | .keyPair publicHex =>
    if publicHex ≠ "" ∧ generateAddress c publicHex ≠ "" then
      (some publicHex, some (generateAddress c publicHex))
    else (none, none)

/-- The body of the inner loop of `getBalance` for one transaction, the sum and the
difference taken exactly. -/
def balanceStep (publicKey address : Option String) (balance : ℚ) (t : Transaction) : ℚ :=
  let balance1 :=
    if (t.fromAddress ≠ none ∧ t.fromAddress ≠ some "")
        ∧ (t.fromAddress = publicKey ∨ t.fromAddress = address) then
      balance - t.amount
    else balance
  if some t.toAddress = publicKey ∨ some t.toAddress = address then balance1 + t.amount
  else balance1

/-- The two nested loops of `getBalance`, in exact arithmetic. -/
def scanBalance (publicKey address : Option String) (chain : List Block) : ℚ :=
  chain.foldl (fun balance block => block.transactions.foldl (balanceStep publicKey address) balance) 0

/-- The method `getBalance(key)`, in exact arithmetic. -/
def Blockchain.getBalance (c : Crypto) (s : Blockchain) (key : Key) : ℚ :=
  if key = .null then s.currentMoney
  else if key = .str "" then 0
  else scanBalance (resolveKey c key).1 (resolveKey c key).2 s.chain

/-! ### getBalance in binary64 arithmetic

The amounts are JavaScript numbers and `getBalance` adds them with the rounding of
IEEE 754 binary64. Here a number is `some q`, with `q` the value of a finite binary64 number,
or `none` for `Infinity`, `-Infinity` and `NaN`; a sum or a difference with one of these three
is again one of them. -/

/-- The power of two `2^e` as a rational number. -/
def pow2 (e : Int) : ℚ :=
  if 0 ≤ e then ((2 ^ e.toNat : Nat) : ℚ) else 1 / ((2 ^ (-e).toNat : Nat) : ℚ)

/-- The loop that counts how often `n` can be halved before it drops below 2. -/
def floorLog2Loop : Nat → Nat → Nat
  | 0, _ => 0
  | fuel + 1, n => if 2 ≤ n then floorLog2Loop fuel (n / 2) + 1 else 0

/-- The position of the leading binary digit of `n`. -/
def floorLog2 (n : Nat) : Nat := floorLog2Loop n n

/-- The exponent of the last binary place that a binary64 number near the magnitude `a` has:
the `e` with `2^52 * 2^e ≤ a < 2^53 * 2^e`, and `-1074` below the normal range. The digit
positions of numerator and denominator give it up to one, the comparison settles it. -/
def ulpExponent (a : ℚ) : Int :=
  let e := (floorLog2 a.num.toNat : Int) - (floorLog2 a.den : Int) - 53
  max (if a < 9007199254740992 * pow2 e then e else e + 1) (-1074)

/-- Rounding to the nearest integer, a tie to the even one. -/
def roundHalfEven (x : ℚ) : Int :=
  if x - Rat.floor x < 1 / 2 then Rat.floor x
  else if 1 / 2 < x - Rat.floor x then Rat.floor x + 1
  else if Rat.floor x % 2 = 0 then Rat.floor x
  else Rat.floor x + 1

/-- The binary64 number nearest to the magnitude `a ≥ 0`, a tie to the even significand;
`none` when the rounded value reaches `2^1024`, which is `Infinity`. -/
def roundMagnitude (a : ℚ) : Option ℚ :=
  let e := ulpExponent a
  let r := (roundHalfEven (a / pow2 e) : ℚ) * pow2 e
  if r < pow2 1024 then some r else none

/-- The JavaScript number nearest to the real number `q`. -/
def roundDouble (q : ℚ) : Option ℚ :=
  if 0 ≤ q then roundMagnitude q else (roundMagnitude (-q)).map (fun r => -r)

/-- The sum `x + y` of two JavaScript numbers. -/
def doubleAdd (x y : Option ℚ) : Option ℚ :=
  match x, y with
  | some a, some b => roundDouble (a + b)
  | _, _ => none

/-- The difference `x - y` of two JavaScript numbers. -/
def doubleSub (x y : Option ℚ) : Option ℚ :=
  match x, y with
  | some a, some b => roundDouble (a - b)
  | _, _ => none

/-- The body of the inner loop of `getBalance` for one transaction, as the engine computes
it: the amount is the JavaScript number nearest to the stored value, `balance -= amount` and
`balance += amount` round their results. -/
def balanceStepDouble (publicKey address : Option String) (balance : Option ℚ)
    (t : Transaction) : Option ℚ :=
  let balance1 :=
    if (t.fromAddress ≠ none ∧ t.fromAddress ≠ some "")
        ∧ (t.fromAddress = publicKey ∨ t.fromAddress = address) then
      doubleSub balance (roundDouble t.amount)
    else balance
  if some t.toAddress = publicKey ∨ some t.toAddress = address then
    doubleAdd balance1 (roundDouble t.amount)
  else balance1

/-- The two nested loops of `getBalance`, as the engine computes them. -/
def scanBalanceDouble (publicKey address : Option String) (chain : List Block) : Option ℚ :=
  chain.foldl
    (fun balance block => block.transactions.foldl (balanceStepDouble publicKey address) balance)
    (some 0)

/-- The method `getBalance(key)`, as the engine computes it. -/
def Blockchain.getBalanceDouble (c : Crypto) (s : Blockchain) (key : Key) : Option ℚ :=
  if key = .null then roundDouble s.currentMoney
  else if key = .str "" then some 0
  else scanBalanceDouble (resolveKey c key).1 (resolveKey c key).2 s.chain

/-- The argument `transaction.publicKey` as `addTransaction` hands it to `getBalance`. -/
def keyOfPublicKey : Option String → Key
  | none => .null
  | some k => .str k

/-- The variable `senderAddress` of `addTransaction`: the address derived from a raw public
key (130 characters), the sender string itself otherwise. -/
def senderAddressOf (c : Crypto) (fromAddress : String) : String :=
  if fromAddress.length = 130 then generateAddress c fromAddress else fromAddress

/-- The method `addTransaction(transaction)`: the outcome and the ledger afterwards. -/
def Blockchain.addTransaction (c : Crypto) (transaction : Transaction) (s : Blockchain) :
    Except String Unit × Blockchain :=
  if transaction.fromAddress = none
      ∧ s.pendingTransactions.any (fun tx => decide (tx.fromAddress = none)) = true then
    (.error "A coinbase transaction is already pending.", s)
  else
    match transaction.isValid c with
    | .error e => (.error e, s)
    | .ok false => (.error "Invalid Transaction", s)
    | .ok true =>
      match transaction.isValidAddress c with
      | .error e => (.error e, s)
      | .ok false => (.error "Invalid address", s)
      | .ok true =>
        if transaction.amount ≤ s.minTxAmount ∨ transaction.amount ≥ s.maxTxAmount
            ∨ transaction.amount > maxSafeInteger ∨ transaction.amount < 0 then
          (.error "Invalid transaction amount (overflow, NaN, or out of bounds)", s)
        else
          let tx : Transaction :=
            { transaction with amount := toFixedNumber s.maxSymbolsAfterPeriod transaction.amount }
          let balance := s.getBalance c (keyOfPublicKey tx.publicKey)
          if balance < tx.amount then (.error "Not enough funds", s)
          else
            match tx.fromAddress with
            | none => (.ok (), { s with pendingTransactions := s.pendingTransactions ++ [tx] })
            | some fromAddress =>
              let senderAddress := senderAddressOf c fromAddress
              let expected := expectedNonce s.nonces senderAddress
              if tx.nonce ≠ some expected then (.error "Invalid nonce", s)
              else
                (.ok (), { s with
                  nonces := setNonce s.nonces senderAddress (expected + 1),
                  pendingTransactions := s.pendingTransactions ++ [tx] })

/-- The validation loop of `commitTransactions`: throws on the first invalid transaction,
otherwise counts the mint transactions. -/
def countCoinbase (c : Crypto) : List Transaction → Nat → Except String Nat
  | [], coinbaseCount => .ok coinbaseCount
  | tx :: rest, coinbaseCount =>
    match tx.isValid c with
    | .error e => .error e
    | .ok false => .error "Invalid transaction in pending pool"
    | .ok true =>
      countCoinbase c rest (if tx.fromAddress = none then coinbaseCount + 1 else coinbaseCount)

/-- The part of `commitTransactions()` after the batch `txs` is chosen: validation, the
coinbase count, the new block and, when `flag` is set, the emptying of the queue. -/
def Blockchain.commitBatch (c : Crypto) (now : Nat) (txs : List Transaction) (flag : Bool)
    (s : Blockchain) : Except String Unit × Blockchain :=
  match countCoinbase c txs 0 with
  | .error e => (.error e, s)
  | .ok coinbaseCount =>
    if coinbaseCount > 1 then
      (.error "Block cannot contain more than one coinbase (mining reward) transaction.", s)
    else
      match s.getLatestBlock with
      | none => (.error "TypeError: latest block is undefined", s)
      | some latest =>
        match Block.new c now txs latest.hash with
        | .error e => (.error e, s)
        | .ok block =>
          (.ok (), { s with
            chain := s.chain ++ [block],
            pendingTransactions := if flag = true then [] else s.pendingTransactions })

/-- The method `commitTransactions()`: the outcome and the ledger afterwards. When the
queue is longer than a block, the queue is cut before the batch is validated. -/
def Blockchain.commitTransactions (c : Crypto) (now : Nat) (s : Blockchain) :
    Except String Unit × Blockchain :=
  if s.pendingTransactions.length > s.maxTransactionsPerBlock then
    Blockchain.commitBatch c now (s.pendingTransactions.take s.maxTransactionsPerBlock) false
      { s with pendingTransactions := s.pendingTransactions.drop s.maxTransactionsPerBlock }
  else Blockchain.commitBatch c now s.pendingTransactions true s

/-- The method `adjustDifficulty()`. -/
def Blockchain.adjustDifficulty (s : Blockchain) : Blockchain :=
  let n := s.adjustDifficultyAfterNBlocks
  let targetTime := s.targetTimeForBlock
  if s.chain.length > n then
    match s.getLatestBlock, s.chain.get? (s.chain.length - 1 - n) with
    | some lastBlock, some prevAdjustBlock =>
      let actualTime : ℚ := ((lastBlock.timestamp : ℚ) - (prevAdjustBlock.timestamp : ℚ)) / 1000
      if actualTime < (n : ℚ) * targetTime * (9 / 10) then
        { s with difficulty := s.difficulty + 1 }
      else if actualTime > (n : ℚ) * targetTime * (11 / 10) ∧ s.difficulty > 1 then
        { s with difficulty := s.difficulty - 1 }
      else s
    | _, _ => s
  else s

/-- The part of `commitMining` that follows a successful mining step: the halving rule,
the supply test, the debit, the reward transaction and the retargeting. -/
def Blockchain.payReward (c : Crypto) (minerAddress : String) (now : Nat) (s1 : Blockchain) :
    Except String (Option Bool) × Blockchain :=
  let s2 : Blockchain :=
    if s1.nextHalving ≥ s1.currentMoney ∧ s1.miningReward ≥ s1.minTxAmount then
      { s1 with
        nextHalving := s1.nextHalving / 2,
        miningReward := toFixedNumber s1.maxSymbolsAfterPeriod (s1.miningReward / 2) }
    else s1
  if s2.miningReward > s2.currentMoney then (.ok (some false), s2)
  else
    let s3 : Blockchain := { s2 with currentMoney := s2.currentMoney - s2.miningReward }
    match Transaction.new c none minerAddress s3.miningReward now with
    | .error e => (.error e, s3)
    | .ok rewardTx =>
      match s3.addTransaction c rewardTx with
      | (.error e, s4) => (.error e, s4)
      | (.ok _, s4) => (.ok none, s4.adjustDifficulty)

/-- The method `commitMining(minerAddress)`: the outcome (`some false` for `return false`,
`none` for a return without value) and the ledger afterwards. The tip block is mutated in
place, which here replaces the last element of the chain. -/
def Blockchain.commitMining (c : Crypto) (minerAddress : String) (now : Nat) (s : Blockchain) :
    Except String (Option Bool) × Blockchain :=
  match s.getLatestBlock with
  | none => (.error "TypeError: latest block is undefined", s)
  | some last =>
    if last.mined = true ∨ last.prevHash = "" then
      match s.commitTransactions c now with
      | (.error e, s1) => (.error e, s1)
      | (.ok _, s1) => (.ok none, s1)
    else
      let s1 : Blockchain :=
        { s with chain := s.chain.dropLast ++ [(last.mineBlock c s.difficulty).2] }
      if (last.mineBlock c s.difficulty).1 = false then (.ok (some false), s1)
      else Blockchain.payReward c minerAddress now s1

/-- The loop of `isValid()` from index `i` on, `prev` being the block at index `i - 1`. -/
def isValidFrom (c : Crypto) : Block → List Block → Bool
  | _, [] => true
  | prev, b :: rest =>
    if b.hash ≠ b.calcHash c then false
    else if b.prevHash ≠ prev.hash then false
    else isValidFrom c b rest

/-- The method `isValid()` of the ledger. -/
def Blockchain.isValid (c : Crypto) (s : Blockchain) : Bool :=
  match s.chain with
  | [] => true
  | genesis :: rest => isValidFrom c genesis rest

/-- One call of the public interface of the ledger. -/
inductive Call where
  | addTransaction (transaction : Transaction)
  | commitTransactions (now : Nat)
  | commitMining (minerAddress : String) (now : Nat)

/-- The ledger after one call, whether the call returned or threw. -/
def Blockchain.step (c : Crypto) (s : Blockchain) : Call → Blockchain
  | .addTransaction transaction => (s.addTransaction c transaction).2
  | .commitTransactions now => (s.commitTransactions c now).2
  | .commitMining minerAddress now => (s.commitMining c minerAddress now).2

/-- The ledger after a sequence of calls. -/
def Blockchain.run (c : Crypto) (s : Blockchain) (calls : List Call) : Blockchain :=
  calls.foldl (Blockchain.step c) s

/-- The ledger states reachable from a freshly constructed ledger. -/
def Reachable (c : Crypto) (s : Blockchain) : Prop :=
  ∃ (now : Nat) (calls : List Call), s = (Blockchain.new c now).run c calls

/-! ## generate-keys.js: mnemonic seed -/

/-- The function `privateKeyToBits(privateKeyHex)`; `none` when `BigInt` throws. -/
def privateKeyToBits (privateKeyHex : List Char) : Option (List Char) :=
  let hex := if privateKeyHex.take 2 = ['0', 'x'] then privateKeyHex.drop 2 else privateKeyHex
  (bigIntOfHex hex).map (fun n => padStart 256 (toStringRadix 2 n))

/-- The JavaScript `fullBits.match(/.{11}/g)`: the successive groups of eleven characters,
a shorter remainder being left out. -/
def groupsOfEleven : List Char → List (List Char)
  | a0 :: a1 :: a2 :: a3 :: a4 :: a5 :: a6 :: a7 :: a8 :: a9 :: a10 :: rest =>
    [a0, a1, a2, a3, a4, a5, a6, a7, a8, a9, a10] :: groupsOfEleven rest
  | _ => []

/-- The cell `hash[0]` of a digest buffer (a byte). -/
def firstByte (digest : List Nat) : Nat := digest.headD 0 % 256

/-- The function `generateMnemonicSeed(privateKey)` over the word list `dictionary` read from
`bip39.txt`. A word is `none` (`undefined`) when its index lies outside the list. -/
def generateMnemonicSeed (c : Crypto) (dictionary : List String) (privateKey : String) :
    Except String (List (Option String)) :=
  match privateKeyToBits privateKey.data with
  | none => .error "SyntaxError: Cannot convert to a BigInt"
  | some bits =>
    let hash := c.sha256 (hexToBytes privateKey.data)
    let checksumBits := padStart 8 (toStringRadix 2 (firstByte hash))
    let fullBits := bits ++ checksumBits
    match groupsOfEleven fullBits with
    | [] => .error "TypeError: arr is null"
    | arr =>
      .ok (arr.map (fun bin =>
        match parseIntBin bin none with
        | none => none
        | some i => dictionary.get? i))

/-- The JavaScript `dictionary.indexOf(word)`, counted from `i`; `none` is -1. -/
def indexOfWord : List String → String → Nat → Option Nat
  | [], _, _ => none
  | w :: rest, word, i => if w = word then some i else indexOfWord rest word (i + 1)

/-- The `map` of `privateKeyFromMnemonicSeed`: eleven bits per word, a throw on an unknown
word (`undefined` is never in the list). -/
def wordsToBits (dictionary : List String) : List (Option String) → Except String (List Char)
  | [] => .ok []
  | word :: rest =>
    match word.bind (fun w => indexOfWord dictionary w 0) with
    | none => .error "Word not found in dictionary"
    | some idx =>
      match wordsToBits dictionary rest with
      | .error e => .error e
      | .ok bits => .ok (padStart 11 (toStringRadix 2 idx) ++ bits)

/-- The function `privateKeyFromMnemonicSeed(mnemonicSeed)` over the word list `dictionary`. -/
def privateKeyFromMnemonicSeed (dictionary : List String) (mnemonicSeed : List (Option String)) :
    Except String String :=
  match wordsToBits dictionary mnemonicSeed with
  | .error e => .error e
  | .ok bits =>
    let entropyBits := bits.take 256
    match bigIntOfBin entropyBits with
    | none => .error "SyntaxError: Cannot convert to a BigInt"
    | some n => .ok (String.mk (padStart 64 (toStringRadix 16 n)))

/-! ## A small provider used to evaluate the program on concrete inputs -/

/-- A provider whose digests are all zero bytes, that accepts every key and verifies a
signature exactly when it is the string "sig" appended to the digest. -/
def demoCrypto : Crypto where
  sha256 := fun _ => List.replicate 32 0
  ripemd160 := fun _ => List.replicate 20 0
  keyFromPublic := fun _ => true
  verify := fun _ digest sig => some (decide (sig = digest ++ "sig"))
  showNumber := fun q => toString q.num ++ "/" ++ toString q.den
  sha256_length := fun _ => rfl
  ripemd160_length := fun _ => rfl

/-! ## Concrete inputs used by the evaluations below -/

/-- A raw public key: "04" followed by 128 digits. -/
def demoKeyA : String := String.mk ('0' :: '4' :: List.replicate 128 'a')

/-- A second raw public key. -/
def demoKeyB : String := String.mk ('0' :: '4' :: List.replicate 128 'b')

/-- The digest every hash of `demoCrypto` evaluates to: 64 zero digits. -/
def demoDigest : String := String.mk (List.replicate 64 '0')

/-- A transfer of `amount` from `demoKeyA` to `demoKeyB`, signed for `demoCrypto`, as
`signTransaction` leaves it (`publicKey` is the signer). -/
def demoTransfer (amount : ℚ) (nonce : Int) : Transaction :=
  { fromAddress := some demoKeyA, toAddress := demoKeyB, pair := 0, amount := amount,
    timestamp := 5, hash := demoDigest, nonce := some nonce,
    signature := some (demoDigest ++ "sig"), publicKey := some demoKeyA }

/-- Three calls of `commitMining` that leave the first reward of 10 for `demoKeyA` in block 2:
the first assembles block 1, the second mines it and queues the reward, the third assembles
block 2. -/
def demoMineCalls : List Call :=
  [.commitMining demoKeyA 1, .commitMining demoKeyA 2, .commitMining demoKeyA 3]

/-- The ledger after `demoMineCalls`. -/
def demoFunded : Blockchain := (Blockchain.new demoCrypto 0).run demoCrypto demoMineCalls

/-- A block that is already mined. -/
def demoMinedBlock : Block :=
  { timestamp := 1, transactions := [], prevHash := "ab", nonce := 7, hash := "0f",
    mined := true }

/-- A block that is not mined and whose hash starts with a digit other than 0. -/
def demoUnminedBlock : Block :=
  { timestamp := 1, transactions := [], prevHash := "ab", nonce := 7, hash := "f0",
    mined := false }

/-- The reward-shaped transaction `new Transaction(null, demoKeyA, 50)` built by a client. -/
def demoMint : Transaction :=
  { fromAddress := none, toAddress := demoKeyA, pair := 2, amount := 50, timestamp := 7,
    hash := demoDigest, nonce := none, signature := none, publicKey := none }

/-- The calls of the double-spend scenario: fund `demoKeyA` with one reward of 10, submit
two signed transfers of 10 with the nonces 0 and 1, commit them. -/
def demoDoubleSpendCalls : List Call :=
  demoMineCalls
    ++ [.addTransaction (demoTransfer 10 0), .addTransaction (demoTransfer 10 1),
        .commitTransactions 4]

/-- Sum of the amounts of the mint transactions (`fromAddress === null`) of a list. -/
def mintTotal (txs : List Transaction) : ℚ :=
  ((txs.filter (fun t => decide (t.fromAddress = none))).map (fun t => t.amount)).sum

/-- Sum of the amounts of all mint transactions in the chain and in the pending queue. -/
def Blockchain.mintedAmount (s : Blockchain) : ℚ :=
  (s.chain.map (fun b => mintTotal b.transactions)).sum + mintTotal s.pendingTransactions

/-! ## Tampering with a stored transaction -/

/-- Overwrite the `amount` of the transaction at index `j`, recomputing nothing. -/
def tamperTransactions : List Transaction → Nat → ℚ → List Transaction
  | [], _, _ => []
  | t :: rest, 0, amount => { t with amount := amount } :: rest
  | t :: rest, j + 1, amount => t :: tamperTransactions rest j amount

/-- Overwrite the `amount` of transaction `j` of block `i`, leaving the block header
(`timestamp`, `prevHash`, `nonce`, `hash`, `mined`) as it is. -/
def tamperChain : List Block → Nat → Nat → ℚ → List Block
  | [], _, _, _ => []
  | b :: rest, 0, j, amount =>
    { b with transactions := tamperTransactions b.transactions j amount } :: rest
  | b :: rest, i + 1, j, amount => b :: tamperChain rest i j amount

/-- The ledger after `chain[i].transactions[j].amount = amount`. -/
def Blockchain.tamperAmount (s : Blockchain) (i j : Nat) (amount : ℚ) : Blockchain :=
  { s with chain := tamperChain s.chain i j amount }

/-! ## Definitions used by the statements -/

/-- The wording of the specification: the hash has at least `d` digits and each of its
first `d` digits is the character 0. -/
def leadingZeroDigits (hash : String) (d : Nat) : Prop :=
  d ≤ hash.data.length ∧ ∀ i, i < d → hash.data.get? i = some '0'

/-- The ledger that `addTransaction` leaves when it accepts `tx`. -/
def Blockchain.accepted (c : Crypto) (tx : Transaction) (s : Blockchain) : Blockchain :=
  { s with
    pendingTransactions :=
      s.pendingTransactions ++ [{ tx with amount := toFixedNumber s.maxSymbolsAfterPeriod tx.amount }],
    nonces :=
      match tx.fromAddress with
      | none => s.nonces
      | some f =>
        setNonce s.nonces (senderAddressOf c f) (expectedNonce s.nonces (senderAddressOf c f) + 1) }

/-- What `addTransaction` has checked when it accepts `tx`. -/
def Blockchain.Accepts (c : Crypto) (s : Blockchain) (tx : Transaction) : Prop :=
  tx.isValid c = .ok true ∧ tx.isValidAddress c = .ok true
    ∧ s.minTxAmount < tx.amount ∧ tx.amount < s.maxTxAmount
    ∧ toFixedNumber s.maxSymbolsAfterPeriod tx.amount
        ≤ s.getBalance c (keyOfPublicKey tx.publicKey)
    ∧ (∀ f, tx.fromAddress = some f →
        tx.nonce = some (expectedNonce s.nonces (senderAddressOf c f)))
    ∧ (tx.fromAddress = none →
        s.pendingTransactions.any (fun t => decide (t.fromAddress = none)) = false)

/-- The ledger that `commitBatch` leaves when it appends `block`. -/
def Blockchain.appendBlock (s : Blockchain) (block : Block) (flag : Bool) : Blockchain :=
  { s with
    chain := s.chain ++ [block],
    pendingTransactions := if flag = true then [] else s.pendingTransactions }

/-- The loop of `isValid()` on a chain given as a list. -/
def validChain (c : Crypto) : List Block → Bool
  | [] => true
  | genesis :: rest => isValidFrom c genesis rest

/-- The nonces of the accepted non-mint transactions whose canonical sender address is
`address`, in the order of acceptance, along a sequence of calls started in `s`. -/
def acceptedNonces (c : Crypto) (address : String) : Blockchain → List Call → List (Option Int)
  | _, [] => []
  | s, .addTransaction tx :: rest =>
    (match tx.fromAddress with
      | some f =>
        if (s.addTransaction c tx).1.toBool = true ∧ senderAddressOf c f = address then [tx.nonce]
        else []
      | none => [])
      ++ acceptedNonces c address (s.step c (.addTransaction tx)) rest
  | s, call :: rest => acceptedNonces c address (s.step c call) rest

/-- The change of the running balance caused by one transaction in `getBalance`. -/
def txDelta (publicKey address : Option String) (t : Transaction) : ℚ :=
  (if some t.toAddress = publicKey ∨ some t.toAddress = address then t.amount else 0)
    - (if (t.fromAddress ≠ none ∧ t.fromAddress ≠ some "")
          ∧ (t.fromAddress = publicKey ∨ t.fromAddress = address) then t.amount else 0)

/-- All transactions of a chain, block after block. -/
def chainTransactions : List Block → List Transaction
  | [] => []
  | b :: rest => b.transactions ++ chainTransactions rest

/-- The endpoint strings of one transaction: the sender unless it is `null`, and the
recipient. -/
def txEndpoints (t : Transaction) : List String :=
  match t.fromAddress with
  | none => [t.toAddress]
  | some f => [f, t.toAddress]

/-- Every endpoint identity that appears as sender or recipient in the chain, once each. -/
def chainEndpoints (chain : List Block) : List String :=
  (((chainTransactions chain).map txEndpoints).flatten).dedup

/-- The sum of `getBalance(e)` over the endpoint identities of the chain, in exact
arithmetic. -/
def Blockchain.endpointBalanceSum (c : Crypto) (s : Blockchain) : ℚ :=
  ((chainEndpoints s.chain).map (fun e => s.getBalance c (.str e))).sum

/-- The calls that pay one reward to the raw key `demoKeyA` and a second one to the address
derived from the same key. -/
def demoTwoFormsCalls : List Call :=
  demoMineCalls
    ++ [.commitMining (generateAddress demoCrypto demoKeyA) 4,
        .commitMining (generateAddress demoCrypto demoKeyA) 5]

/-- The conditions under which the endpoints of a chain name pairwise different accounts:
every endpoint has the length of a raw public key or of an address, and no raw public key
occurs together with the address derived from it. -/
def SeparateForms (c : Crypto) (chain : List Block) : Prop :=
  (∀ e ∈ chainEndpoints chain, e.length = 130 ∨ e.length = 34)
    ∧ (∀ e ∈ chainEndpoints chain, e.length = 130 →
        generateAddress c e ∉ chainEndpoints chain)

/-- The sum of a list of JavaScript numbers, added one after the other starting from 0. -/
def doubleSum (xs : List (Option ℚ)) : Option ℚ := xs.foldl doubleAdd (some 0)

/-- The sum of `getBalance(e)` over the endpoint identities of the chain, as the engine
computes it. -/
def Blockchain.endpointBalanceSumDouble (c : Crypto) (s : Blockchain) : Option ℚ :=
  doubleSum ((chainEndpoints s.chain).map (fun e => s.getBalanceDouble c (.str e)))

/-- The sum of the amounts of the mint transactions of a list, as the engine computes it. -/
def mintTotalDouble (txs : List Transaction) : Option ℚ :=
  doubleSum
    ((txs.filter (fun t => decide (t.fromAddress = none))).map (fun t => roundDouble t.amount))

/-- The number `q` is a whole multiple of `2^-k`. -/
def IsMultiple (k : Nat) (q : ℚ) : Prop := ∃ n : Int, q * 2 ^ k = n

/-- The conditions under which no sum of amounts of the chain is rounded: every amount is a
whole multiple of `2^-k`, with `k` inside the exponent range of binary64, and the absolute
amounts total less than `2^53` such units. Whole amounts that total less than `2^53` are the
case `k = 0`. -/
def ExactAmounts (k : Nat) (chain : List Block) : Prop :=
  k ≤ 1074
    ∧ (∀ t ∈ chainTransactions chain, (t.amount * 2 ^ k).den = 1)
    ∧ ((chainTransactions chain).map (fun t => |t.amount|)).sum * 2 ^ k < 2 ^ 53

/-- The net amount that a transaction brings to the endpoint identities of the list `l`. -/
def netInflow (l : List String) (t : Transaction) : ℚ :=
  (if t.toAddress ∈ l then t.amount else 0)
    - (match t.fromAddress with
        | none => 0
        | some f => if f ∈ l then t.amount else 0)

/-- The calls that fund `demoKeyA` with one reward of 10 and commit two signed transfers of
0.1 and 0.2 to `demoKeyB`. -/
def demoDriftCalls : List Call :=
  demoMineCalls
    ++ [.addTransaction (demoTransfer (1 / 10) 0), .addTransaction (demoTransfer (1 / 5) 1),
        .commitTransactions 4]

/-- The calls that fund `demoKeyA` with one reward of 10 and commit two signed transfers of
2.5 and 1.25 to `demoKeyB`. -/
def demoDyadicCalls : List Call :=
  demoMineCalls
    ++ [.addTransaction (demoTransfer (5 / 2) 0), .addTransaction (demoTransfer (5 / 4) 1),
        .commitTransactions 4]

/-- The fields of a block that `isValid` reads. -/
def sameHeader (b b' : Block) : Prop :=
  b.timestamp = b'.timestamp ∧ b.prevHash = b'.prevHash ∧ b.nonce = b'.nonce ∧ b.hash = b'.hash

/-- A digit function reads back the digits that `toString(radix)` writes in base `b`. -/
def ReadsDigits (b : Nat) (digit : Char → Option Nat) : Prop :=
  ∀ d, d < b → digit (Nat.digitChar d) = some d

/-- The character is one of the `b` digits that `toString(radix)` writes in base `b`. -/
def IsDigitOf (b : Nat) (ch : Char) : Prop := ∃ d, d < b ∧ ch = Nat.digitChar d

/-- The sixteen digits that `toString(16)` writes. -/
def lowerHexDigits : List Char := "0123456789abcdef".data

/-- The words of `generateMnemonicSeed` for a list of groups of eleven binary digits. -/
def wordsOfGroups (dictionary : List String) (groups : List (List Char)) :
    List (Option String) :=
  groups.map (fun bin =>
    match parseIntBin bin none with
    | none => none
    | some i => dictionary.get? i)

/-- The composition `privateKeyFromMnemonicSeed(generateMnemonicSeed(k))`; `none` when one of
the two throws. -/
def mnemonicRoundTrip (c : Crypto) (dictionary : List String) (k : String) : Option String :=
  match generateMnemonicSeed c dictionary k with
  | .ok words => (privateKeyFromMnemonicSeed dictionary words).toOption
  | .error _ => none

/-- A word list of 2048 distinct words: the eleven binary digits of each index. -/
def demoDictionary : List String :=
  (List.range 2048).map (fun i => String.mk (padStart 11 (toStringRadix 2 i)))

/-- A private key written with upper-case hexadecimal digits. -/
def demoUpperKey : String := String.mk (List.replicate 64 'A')

/-- The same private key written with lower-case hexadecimal digits. -/
def demoLowerKey : String := String.mk (List.replicate 64 'a')

/-! ## Further concrete inputs and definitions used by the statements -/

deriving instance DecidableEq for Except

/-- A checksum of a byte list, used by `demoHashCrypto` in place of a digest. -/
def demoChecksum (bs : List Nat) : Nat := bs.foldl (fun h b => (h * 31 + b) % 256) 7

/-- A provider whose digests depend on the hashed bytes: a zero byte followed by 31 copies of a
checksum of the input. It accepts every key and verifies a signature exactly when it is the
string "sig" appended to the digest. -/
def demoHashCrypto : Crypto where
  sha256 := fun bs => 0 :: List.replicate 31 (demoChecksum bs)
  ripemd160 := fun bs => List.replicate 20 (demoChecksum bs)
  keyFromPublic := fun _ => true
  verify := fun _ digest sig => some (decide (sig = digest ++ "sig"))
  showNumber := fun q => toString q.num ++ "/" ++ toString q.den
  sha256_length := fun _ => rfl
  ripemd160_length := fun _ => rfl

/-- An unsigned transfer from `demoKeyA` to `demoKeyB` as the constructor and the assignment
of the nonce leave it. -/
def demoUnsigned (amount : ℚ) (nonce : Int) : Transaction :=
  { fromAddress := some demoKeyA, toAddress := demoKeyB, pair := 0, amount := amount,
    timestamp := 5, hash := demoDigest, nonce := some nonce, signature := none,
    publicKey := none }

/-- The transfer `demoUnsigned amount nonce` after `signTransaction` with the key pair of
`demoKeyA`, for the provider `demoHashCrypto`: the signature is made over `calculateHash()`. -/
def demoSigned (amount : ℚ) (nonce : Int) : Transaction :=
  { demoUnsigned amount nonce with
    signature := some ((demoUnsigned amount nonce).calculateHash demoHashCrypto ++ "sig"),
    publicKey := some demoKeyA }

/-- The ledger of `demoHashCrypto` after the three calls of `demoMineCalls`. -/
def demoHashFunded : Blockchain := (Blockchain.new demoHashCrypto 0).run demoHashCrypto demoMineCalls

/-- An amount with eleven decimals: 1.00000000001. -/
def demoFineAmount : ℚ := 100000000001 / 100000000000

/-- The transfer of 1.00000000001 as `addTransaction` stores it: the amount is rounded to 1,
the signature is the one made before the rounding. -/
def demoStoredFine : Transaction := { demoSigned demoFineAmount 0 with amount := 1 }

/-- The ledger `demoHashFunded` after `addTransaction` has accepted the transfer of
1.00000000001. -/
def demoHashPending : Blockchain :=
  (demoHashFunded.addTransaction demoHashCrypto (demoSigned demoFineAmount 0)).2

/-- The ledger `demoHashPending` with the queue `queue` and the nonce table `nonces`. -/
def demoQueued (queue : List Transaction) (nonces : List (String × Int)) : Blockchain :=
  { demoHashPending with pendingTransactions := queue, nonces := nonces }

/-- The calls that submit `count` transfers of 1 with the nonces `first`, `first + 1`, ... -/
def demoTransferCalls (first count : Nat) : List Call :=
  (List.range count).map (fun i => Call.addTransaction (demoSigned 1 ((first + i : Nat) : Int)))

/-- The transfers submitted by `demoTransferCalls first count`. -/
def demoTransfers (first count : Nat) : List Transaction :=
  (List.range count).map (fun i => demoSigned 1 ((first + i : Nat) : Int))

/-- The ledger `demoHashPending` after 5000 further transfers of 1 (nonces 1 to 5000) have been
accepted: 5001 transactions are pending. -/
def demoOverfull : Blockchain :=
  demoQueued (demoHashPending.pendingTransactions ++ demoTransfers 1 5000)
    (setNonce demoHashPending.nonces (generateAddress demoHashCrypto demoKeyA) 5001)

/-- The ledger after one call of `commitMining`: the tip is block 1, not mined, with a hash
that meets the difficulty. The remaining supply is set to 8. -/
def demoTightSupply : Blockchain :=
  { (Blockchain.new demoCrypto 0).run demoCrypto [.commitMining demoKeyA 1] with
    currentMoney := 8 }

/-- A recipient of 130 characters that does not start with "04". -/
def demoBadKey : String := String.mk ('0' :: '5' :: List.replicate 128 'a')

/-- The mint transaction `new Transaction(null, demoBadKey, 1)`; its pair kind is 2. -/
def demoBadMint : Transaction :=
  { fromAddress := none, toAddress := demoBadKey, pair := 2, amount := 1, timestamp := 7,
    hash := demoDigest, nonce := none, signature := none, publicKey := none }

/-- The calls that leave a mined tip and, in the queue, the transfer whose amount was rounded
after its validation. -/
def demoStaleCalls : List Call :=
  demoMineCalls ++ [.addTransaction (demoSigned demoFineAmount 0), .commitMining demoKeyA 4]

/-- The ledger after `demoStaleCalls`. -/
def demoStale : Blockchain := (Blockchain.new demoHashCrypto 0).run demoHashCrypto demoStaleCalls

/-- The variable `actualTime` of `adjustDifficulty` for the blocks `lastBlock` and
`prevAdjustBlock`. -/
def actualTimeOf (lastBlock prevAdjustBlock : Block) : ℚ :=
  ((lastBlock.timestamp : ℚ) - (prevAdjustBlock.timestamp : ℚ)) / 1000

/-- The first `count` of the calls `commitMining(demoKeyA)` issued at the times 1, 2, ... on a
fresh ledger; they assemble and mine one block after the other. -/
def demoMiningRun (count : Nat) : Blockchain :=
  (Blockchain.new demoCrypto 0).run demoCrypto
    ((List.range count).map (fun i => Call.commitMining demoKeyA (i + 1)))

/-- The number of mint transactions (`fromAddress === null`) of a list. -/
def mintCount (txs : List Transaction) : Nat :=
  txs.countP (fun t => decide (t.fromAddress = none))

/-- At most one mint transaction is pending and every block holds at most one. -/
def OneMintEach (s : Blockchain) : Prop :=
  mintCount s.pendingTransactions ≤ 1 ∧ ∀ b ∈ s.chain, mintCount b.transactions ≤ 1

/-- The message of the rejection of a batch with more than one mint transaction. -/
def coinbaseRejection : String :=
  "Block cannot contain more than one coinbase (mining reward) transaction."

/-! ## Block.mineBlock -/

theorem take_eq_replicate_iff (l : List Char) (d : Nat) :
    l.take d = List.replicate d '0' ↔ (d ≤ l.length ∧ ∀ i, i < d → l.get? i = some '0') := by
  induction l generalizing d with
  | nil =>
    cases d with
    | zero => simp
    | succ n => simp [List.replicate_succ]
  | cons x xs ih =>
    cases d with
    | zero => simp
    | succ n =>
      simp only [List.take_succ_cons, List.replicate_succ, List.cons.injEq, ih, List.length_cons,
        Nat.succ_le_succ_iff]
      constructor
      · rintro ⟨hx, hn, hall⟩
        refine ⟨hn, fun i hi => ?_⟩
        cases i with
        | zero => simp [hx]
        | succ k => simpa using hall k (by omega)
      · rintro ⟨hn, hall⟩
        refine ⟨by simpa using hall 0 (by omega), hn, fun i hi => ?_⟩
        simpa using hall (i + 1) (by omega)

theorem meetsDifficulty_iff (b : Block) (d : Nat) :
    b.meetsDifficulty d = true ↔ leadingZeroDigits b.hash d := by
  simp only [Block.meetsDifficulty, decide_eq_true_eq, leadingZeroDigits]
  exact take_eq_replicate_iff _ _

/-- C8. A block with `mined = true` is terminal: `mineBlock(difficulty)` returns `false` and
the block (nonce, hash, mined, prevHash, timestamp, transactions) is the same afterwards, and
so it is after any number of further calls. -/
theorem mineBlock_mined_terminal (c : Crypto) (b : Block) (difficulty : Nat)
    (h : b.mined = true) :
    b.mineBlock c difficulty = (false, b)
      ∧ ∀ n : Nat, (fun x : Block => (x.mineBlock c difficulty).2)^[n] b = b := by
  have h1 : b.mineBlock c difficulty = (false, b) := by simp [Block.mineBlock, h]
  refine ⟨h1, fun n => ?_⟩
  induction n with
  | zero => rfl
  | succ k ih => rw [Function.iterate_succ_apply, h1]; exact ih

/-- A mined block, on which `mineBlock_mined_terminal` applies. -/
theorem mineBlock_mined_terminal_witness :
    demoMinedBlock.mined = true
      ∧ demoMinedBlock.mineBlock demoCrypto 3 = (false, demoMinedBlock)
      ∧ ∀ n : Nat, (fun x : Block => (x.mineBlock demoCrypto 3).2)^[n] demoMinedBlock
          = demoMinedBlock :=
  ⟨rfl, mineBlock_mined_terminal demoCrypto demoMinedBlock 3 rfl⟩

/-- C9. One proof-of-work step on an unmined block: `mineBlock(d)` returns `true` exactly
when the first `d` digits of the stored hash are all 0; then only `mined` changes (to
`true`); otherwise the nonce grows by one, the hash becomes `calcHash()` of the block with the
new nonce, `mined` stays `false`, the other fields are kept and `false` is returned. -/
theorem mineBlock_step (c : Crypto) (b : Block) (d : Nat) (h : b.mined = false) :
    ((b.mineBlock c d).1 = true ↔ leadingZeroDigits b.hash d)
      ∧ (leadingZeroDigits b.hash d →
          b.mineBlock c d = (true, { b with mined := true }))
      ∧ (¬ leadingZeroDigits b.hash d →
          b.mineBlock c d
            = (false, { b with
                nonce := b.nonce + 1,
                hash := Block.calcHash c { b with nonce := b.nonce + 1 },
                mined := false })) := by
  have hm := meetsDifficulty_iff b d
  by_cases hz : leadingZeroDigits b.hash d
  · have hz1 : b.meetsDifficulty d = true := hm.mpr hz
    simp [Block.mineBlock, h, hz, hz1]
  · have hz1 : b.meetsDifficulty d = false := by
      cases hb : b.meetsDifficulty d with
      | false => rfl
      | true => exact absurd (hm.mp hb) hz
    refine ⟨?_, fun hz2 => absurd hz2 hz, fun _ => ?_⟩
    · simp [Block.mineBlock, h, hz, hz1]
    · simp [Block.mineBlock, h, hz1]

/-- An unmined block whose hash misses difficulty 1, on which `mineBlock_step` applies. -/
theorem mineBlock_step_witness :
    demoUnminedBlock.mined = false
      ∧ ((demoUnminedBlock.mineBlock demoCrypto 1).1 = true
        ↔ leadingZeroDigits demoUnminedBlock.hash 1) :=
  ⟨rfl, (mineBlock_step demoCrypto demoUnminedBlock 1 rfl).1⟩

/-! ## Ledger: what each call does to the state -/

theorem run_induction (c : Crypto) (P : Blockchain → Prop)
    (hstep : ∀ s call, P s → P (s.step c call)) (s : Blockchain) (calls : List Call)
    (h : P s) : P (s.run c calls) := by
  induction calls generalizing s with
  | nil => exact h
  | cons call rest ih => exact ih (s.step c call) (hstep s call h)

theorem addTransaction_spec (c : Crypto) (tx : Transaction) (s : Blockchain) :
    (∃ e, s.addTransaction c tx = (.error e, s))
      ∨ (s.addTransaction c tx = (.ok (), s.accepted c tx) ∧ s.Accepts c tx) := by
  unfold Blockchain.addTransaction
  repeat' (first | split | dsimp only)
  all_goals first
    | exact Or.inl ⟨_, rfl⟩
    | (right; simp_all [Blockchain.accepted, Blockchain.Accepts, not_or])

theorem addTransaction_error (c : Crypto) (tx : Transaction) (s : Blockchain) (e : String)
    (h : (s.addTransaction c tx).1 = .error e) : (s.addTransaction c tx).2 = s := by
  rcases addTransaction_spec c tx s with ⟨e1, h1⟩ | ⟨h1, _⟩
  · rw [h1]
  · rw [h1] at h; cases h

theorem addTransaction_ok (c : Crypto) (tx : Transaction) (s : Blockchain)
    (h : (s.addTransaction c tx).1 = .ok ()) :
    (s.addTransaction c tx).2 = s.accepted c tx ∧ s.Accepts c tx := by
  rcases addTransaction_spec c tx s with ⟨e1, h1⟩ | ⟨h1, h2⟩
  · rw [h1] at h; cases h
  · rw [h1]; exact ⟨rfl, h2⟩

theorem addTransaction_chain (c : Crypto) (tx : Transaction) (s : Blockchain) :
    (s.addTransaction c tx).2.chain = s.chain := by
  rcases addTransaction_spec c tx s with ⟨e1, h1⟩ | ⟨h1, _⟩
  · rw [h1]
  · rw [h1]; rfl

theorem adjustDifficulty_chain (s : Blockchain) : s.adjustDifficulty.chain = s.chain := by
  unfold Blockchain.adjustDifficulty
  repeat' (first | split | dsimp only)

theorem blockNew_ok (c : Crypto) (now : Nat) (txs : List Transaction) (prevHash : String)
    (b : Block) (h : Block.new c now txs prevHash = .ok b) :
    ∃ arr, validTransactions c txs = .ok arr ∧ b = Block.assemble c now arr prevHash := by
  unfold Block.new at h
  split at h
  · cases h
  · rename_i arr harr
    injection h with h
    exact ⟨arr, harr, h.symm⟩

theorem commitBatch_spec (c : Crypto) (now : Nat) (txs : List Transaction) (flag : Bool)
    (s : Blockchain) :
    (∃ e, s.commitBatch c now txs flag = (.error e, s))
      ∨ ∃ latest block n, s.chain.getLast? = some latest
          ∧ countCoinbase c txs 0 = .ok n ∧ n ≤ 1
          ∧ Block.new c now txs latest.hash = .ok block
          ∧ s.commitBatch c now txs flag = (.ok (), s.appendBlock block flag) := by
  unfold Blockchain.commitBatch
  repeat' (first | split | dsimp only)
  all_goals first
    | exact Or.inl ⟨_, rfl⟩
    | (right
       exact ⟨_, _, _, ‹_›, ‹_›, by omega, ‹_›, by simp [Blockchain.appendBlock, *]⟩)

theorem commitTransactions_spec (c : Crypto) (now : Nat) (s : Blockchain) :
    (∃ e, (s.commitTransactions c now).1 = .error e
        ∧ (s.commitTransactions c now).2.chain = s.chain)
      ∨ ∃ latest block, s.chain.getLast? = some latest
          ∧ Block.new c now (s.pendingTransactions.take s.maxTransactionsPerBlock) latest.hash
              = .ok block
          ∧ (s.commitTransactions c now).1 = .ok ()
          ∧ (s.commitTransactions c now).2
              = { s with
                  chain := s.chain ++ [block],
                  pendingTransactions := s.pendingTransactions.drop s.maxTransactionsPerBlock } := by
  unfold Blockchain.commitTransactions
  split
  · rename_i hlen
    rcases commitBatch_spec c now (s.pendingTransactions.take s.maxTransactionsPerBlock) false
      { s with pendingTransactions := s.pendingTransactions.drop s.maxTransactionsPerBlock }
      with ⟨e, h⟩ | ⟨latest, block, n, h1, _, _, h4, h5⟩
    · left; exact ⟨e, by rw [h], by rw [h]⟩
    · right; exact ⟨latest, block, h1, h4, by rw [h5], by rw [h5]; rfl⟩
  · rename_i hlen
    have htake : s.pendingTransactions.take s.maxTransactionsPerBlock = s.pendingTransactions :=
      List.take_of_length_le (by omega)
    have hdrop : s.pendingTransactions.drop s.maxTransactionsPerBlock = [] :=
      List.drop_of_length_le (by omega)
    rcases commitBatch_spec c now s.pendingTransactions true s
      with ⟨e, h⟩ | ⟨latest, block, n, h1, _, _, h4, h5⟩
    · left; exact ⟨e, by rw [h], by rw [h]⟩
    · right
      refine ⟨latest, block, h1, by rw [htake]; exact h4, by rw [h5], ?_⟩
      rw [h5, hdrop]; rfl

theorem transactionNew_ok (c : Crypto) (f : Option String) (t : String) (a : ℚ) (now : Nat)
    (tx : Transaction) (h : Transaction.new c f t a now = .ok tx) :
    tx.fromAddress = f ∧ tx.toAddress = t ∧ tx.amount = a ∧ tx.timestamp = now
      ∧ checkPair f t = .ok tx.pair ∧ tx.nonce = none ∧ tx.signature = none
      ∧ tx.publicKey = none := by
  unfold Transaction.new at h
  split at h
  · cases h
  · rename_i p hp
    injection h with h
    subst h
    exact ⟨rfl, rfl, rfl, rfl, hp, rfl, rfl, rfl⟩

theorem adjustDifficulty_nonces (s : Blockchain) : s.adjustDifficulty.nonces = s.nonces := by
  unfold Blockchain.adjustDifficulty
  repeat' (first | split | dsimp only)

theorem payReward_chain (c : Crypto) (minerAddress : String) (now : Nat) (s : Blockchain) :
    (s.payReward c minerAddress now).2.chain = s.chain := by
  unfold Blockchain.payReward
  dsimp only
  repeat' (first | split | dsimp only)
  all_goals first
    | rfl
    | (rename_i h; have h1 := congrArg (fun p => p.2.chain) h
       simp only [addTransaction_chain] at h1
       first | (rw [adjustDifficulty_chain, ← h1]) | (rw [← h1]))

theorem commitMining_spec (c : Crypto) (minerAddress : String) (now : Nat) (s : Blockchain) :
    (s.chain.getLast? = none ∧ (s.commitMining c minerAddress now).2 = s)
      ∨ (∃ last, s.chain.getLast? = some last ∧ (last.mined = true ∨ last.prevHash = "")
          ∧ (s.commitMining c minerAddress now).2 = (s.commitTransactions c now).2)
      ∨ (∃ last, s.chain.getLast? = some last ∧ ¬ (last.mined = true ∨ last.prevHash = "")
          ∧ (s.commitMining c minerAddress now).2.chain
              = s.chain.dropLast ++ [(last.mineBlock c s.difficulty).2]) := by
  unfold Blockchain.commitMining
  split
  · left; rename_i h; exact ⟨h, rfl⟩
  · rename_i last hlast
    right
    split
    · left
      rename_i hcond
      refine ⟨last, hlast, hcond, ?_⟩
      split <;> simp_all
    · right
      rename_i hcond
      refine ⟨last, hlast, hcond, ?_⟩
      dsimp only
      split
      · rfl
      · rw [payReward_chain]

theorem isValid_eq_validChain (c : Crypto) (s : Blockchain) :
    s.isValid c = validChain c s.chain := by
  unfold Blockchain.isValid validChain
  split <;> simp_all

theorem isValidFrom_append (c : Crypto) (prev : Block) (l : List Block) (b : Block) :
    isValidFrom c prev (l ++ [b])
      = (isValidFrom c prev l
          && (decide (b.hash = b.calcHash c)
            && decide (b.prevHash = (l.getLast?.getD prev).hash))) := by
  induction l generalizing prev with
  | nil =>
    simp only [List.nil_append, isValidFrom, List.getLast?_nil, Option.getD_none]
    by_cases h1 : b.hash = b.calcHash c <;> by_cases h2 : b.prevHash = prev.hash <;> simp [h1, h2]
  | cons x xs ih =>
    simp only [List.cons_append, isValidFrom, ih x]
    have hlast : ((x :: xs).getLast?.getD prev) = (xs.getLast?.getD x) := by
      rw [List.getLast?_cons]; rfl
    rw [hlast]
    by_cases h1 : x.hash = x.calcHash c <;> by_cases h2 : x.prevHash = prev.hash
    · simp [h1, h2]
      exact ih x
    all_goals simp [h1, h2]

theorem validChain_append (c : Crypto) (l : List Block) (latest b : Block)
    (h : l.getLast? = some latest) :
    validChain c (l ++ [b])
      = (validChain c l
          && (decide (b.hash = b.calcHash c) && decide (b.prevHash = latest.hash))) := by
  cases l with
  | nil => simp at h
  | cons g rest =>
    simp only [List.cons_append, validChain, isValidFrom_append]
    rw [List.getLast?_cons] at h
    injection h with h
    rw [h]

theorem mineBlock_prevHash (c : Crypto) (b : Block) (d : Nat) :
    (b.mineBlock c d).2.prevHash = b.prevHash := by
  unfold Block.mineBlock
  repeat' (first | split | dsimp only)

theorem mineBlock_hash (c : Crypto) (b : Block) (d : Nat) (h : b.hash = b.calcHash c) :
    (b.mineBlock c d).2.hash = (b.mineBlock c d).2.calcHash c := by
  unfold Block.mineBlock
  repeat' (first | split | dsimp only)
  all_goals first
    | exact h
    | rfl

theorem validChain_replaceLast (c : Crypto) (l : List Block) (last b : Block)
    (hlast : l.getLast? = some last) (hp : b.prevHash = last.prevHash)
    (hh : last.hash = last.calcHash c → b.hash = b.calcHash c)
    (hv : validChain c l = true) :
    validChain c (l.dropLast ++ [b]) = true := by
  rcases List.eq_nil_or_concat l with hnil | ⟨init, x, hx⟩
  · subst hnil; simp at hlast
  · subst hx
    rw [List.concat_eq_append] at hlast hv ⊢
    have hlast : x = last := by simpa using hlast
    subst hlast
    rw [List.dropLast_concat]
    cases hinit : init.getLast? with
    | none =>
      have : init = [] := by simpa using hinit
      subst this
      rfl
    | some latest =>
      rw [validChain_append c init latest _ hinit] at hv ⊢
      simp only [Bool.and_eq_true, decide_eq_true_eq] at hv ⊢
      exact ⟨hv.1, hh hv.2.1, hp ▸ hv.2.2⟩

theorem step_validChain (c : Crypto) (s : Blockchain) (call : Call)
    (h : validChain c s.chain = true) : validChain c (s.step c call).chain = true := by
  cases call with
  | addTransaction tx =>
    simp only [Blockchain.step, addTransaction_chain]; exact h
  | commitTransactions now =>
    simp only [Blockchain.step]
    rcases commitTransactions_spec c now s with ⟨e, _, h2⟩ | ⟨latest, block, h1, h2, _, h4⟩
    · rw [h2]; exact h
    · rw [h4]
      obtain ⟨arr, _, hb⟩ := blockNew_ok c now _ _ _ h2
      simp only []
      rw [validChain_append c s.chain latest block h1, h, hb]
      simp [Block.assemble, Block.calcHash]
  | commitMining minerAddress now =>
    simp only [Blockchain.step]
    rcases commitMining_spec c minerAddress now s with ⟨_, h2⟩ | ⟨last, _, _, h3⟩
      | ⟨last, h1, _, h3⟩
    · rw [h2]; exact h
    · rw [h3]
      exact step_validChain c s (.commitTransactions now) h
    · rw [h3]
      exact validChain_replaceLast c s.chain last _ h1 (mineBlock_prevHash c last _)
        (mineBlock_hash c last _) h
termination_by (match call with | .commitMining _ _ => 1 | _ => 0 : Nat)

/-! ## Ledger: chain integrity -/

theorem isValidFrom_get (c : Crypto) (prev : Block) (l : List Block)
    (h : isValidFrom c prev l = true) (i : Nat) (b p : Block)
    (hb : (prev :: l).get? (i + 1) = some b) (hp : (prev :: l).get? i = some p) :
    b.hash = b.calcHash c ∧ b.prevHash = p.hash := by
  induction l generalizing prev i with
  | nil => simp at hb
  | cons x xs ih =>
    simp only [isValidFrom] at h
    split at h
    · cases h
    · split at h
      · cases h
      · rename_i h1 h2
        cases i with
        | zero =>
          simp only [List.get?_cons_succ, List.get?_cons_zero, Option.some.injEq] at hb hp
          subst hb hp
          exact ⟨not_not.mp h1, not_not.mp h2⟩
        | succ k =>
          exact ih x h k (by simpa using hb) (by simpa using hp)

/-- C1. Chain integrity is an invariant of the ledger: in every state reached from a fresh
ledger by calls of `addTransaction`, `commitTransactions` and `commitMining` (the state left
by a call that throws included), `isValid()` is `true`; that is, every block after genesis
stores the hash of its own header and the stored hash of the block before it. -/
theorem chain_integrity (c : Crypto) (s : Blockchain) (h : Reachable c s) :
    s.isValid c = true
      ∧ ∀ (i : Nat) (b prev : Block), s.chain.get? (i + 1) = some b → s.chain.get? i = some prev →
          b.hash = b.calcHash c ∧ b.prevHash = prev.hash := by
  obtain ⟨now, calls, rfl⟩ := h
  have hv : validChain c ((Blockchain.new c now).run c calls).chain = true :=
    run_induction c (fun s => validChain c s.chain = true) (step_validChain c) _ calls rfl
  refine ⟨by rw [isValid_eq_validChain]; exact hv, ?_⟩
  generalize ((Blockchain.new c now).run c calls).chain = chain at hv
  intro i b prev hb hp
  cases chain with
  | nil => simp at hb
  | cons g rest => exact isValidFrom_get c g rest hv i b prev hb hp

/-- The ledger after three calls of `commitMining` is reachable, and `chain_integrity`
applies to it. -/
theorem chain_integrity_witness :
    Reachable demoCrypto demoFunded ∧ demoFunded.isValid demoCrypto = true :=
  ⟨⟨0, demoMineCalls, rfl⟩, (chain_integrity demoCrypto demoFunded ⟨0, demoMineCalls, rfl⟩).1⟩

/-! ## Ledger: nonces -/

theorem lookupNonce_setNonce_self (m : List (String × Int)) (k : String) (v : Int) :
    lookupNonce (setNonce m k v) k = some v := by
  induction m with
  | nil => simp [setNonce, lookupNonce]
  | cons kv rest ih =>
    obtain ⟨k1, v1⟩ := kv
    by_cases h : k1 = k
    · simp [setNonce, lookupNonce, h]
    · simp [setNonce, lookupNonce, h, ih]

theorem lookupNonce_setNonce_other (m : List (String × Int)) (k k2 : String) (v : Int)
    (hne : k2 ≠ k) : lookupNonce (setNonce m k v) k2 = lookupNonce m k2 := by
  induction m with
  | nil => simp [setNonce, lookupNonce, Ne.symm hne]
  | cons kv rest ih =>
    obtain ⟨k1, v1⟩ := kv
    by_cases h : k1 = k
    · subst h; simp [setNonce, lookupNonce, Ne.symm hne]
    · by_cases h2 : k1 = k2
      · subst h2; simp [setNonce, lookupNonce, h]
      · simp [setNonce, lookupNonce, h, h2, ih]

theorem expectedNonce_setNonce_self (m : List (String × Int)) (k : String) (v : Int) :
    expectedNonce (setNonce m k v) k = v := by
  simp [expectedNonce, lookupNonce_setNonce_self]

theorem expectedNonce_setNonce_other (m : List (String × Int)) (k k2 : String) (v : Int)
    (hne : k2 ≠ k) : expectedNonce (setNonce m k v) k2 = expectedNonce m k2 := by
  simp [expectedNonce, lookupNonce_setNonce_other m k k2 v hne]

theorem commitBatch_nonces (c : Crypto) (now : Nat) (txs : List Transaction) (flag : Bool)
    (s : Blockchain) : (s.commitBatch c now txs flag).2.nonces = s.nonces := by
  rcases commitBatch_spec c now txs flag s with ⟨e, h⟩ | ⟨_, _, _, _, _, _, _, h⟩
  · rw [h]
  · rw [h]; rfl

theorem commitTransactions_nonces (c : Crypto) (now : Nat) (s : Blockchain) :
    (s.commitTransactions c now).2.nonces = s.nonces := by
  unfold Blockchain.commitTransactions
  split <;> rw [commitBatch_nonces]

theorem payReward_nonces (c : Crypto) (minerAddress : String) (now : Nat) (s : Blockchain) :
    (s.payReward c minerAddress now).2.nonces = s.nonces := by
  unfold Blockchain.payReward
  dsimp only
  repeat' (first | split | dsimp only)
  all_goals first
    | rfl
    | (rename_i rewardTx hnew _ _ _ h
       have hf := (transactionNew_ok c _ _ _ _ _ hnew).1
       rcases addTransaction_spec c rewardTx _ with ⟨e1, h1⟩ | ⟨h1, _⟩
       all_goals (rw [h1] at h; injection h with _ h; subst h)
       all_goals simp [adjustDifficulty_nonces, Blockchain.accepted, hf])

theorem commitMining_nonces (c : Crypto) (minerAddress : String) (now : Nat) (s : Blockchain) :
    (s.commitMining c minerAddress now).2.nonces = s.nonces := by
  unfold Blockchain.commitMining
  repeat' (first | split | dsimp only)
  all_goals first
    | rfl
    | (rw [payReward_nonces])
    | (rename_i h; have := commitTransactions_nonces c now s; rw [h] at this; exact this)

theorem step_nonces_other (c : Crypto) (s : Blockchain) (call : Call)
    (h : ∀ tx, call ≠ .addTransaction tx) : (s.step c call).nonces = s.nonces := by
  cases call with
  | addTransaction tx => exact absurd rfl (h tx)
  | commitTransactions now => exact commitTransactions_nonces c now s
  | commitMining minerAddress now => exact commitMining_nonces c minerAddress now s

theorem toBool_eq_true_iff (r : Except String Unit) : r.toBool = true ↔ r = .ok () := by
  cases r <;> simp [Except.toBool]

theorem acceptedNonces_from (c : Crypto) (address : String) (s : Blockchain) (calls : List Call) :
    acceptedNonces c address s calls
      = (List.range (acceptedNonces c address s calls).length).map
          (fun (i : Nat) => some (expectedNonce s.nonces address + (i : Int))) := by
  induction calls generalizing s with
  | nil => simp [acceptedNonces]
  | cons call rest ih =>
    cases call with
    | commitTransactions now =>
      simp only [acceptedNonces]
      rw [ih, step_nonces_other c s _ (by simp)]
      simp
    | commitMining minerAddress now =>
      simp only [acceptedNonces]
      rw [ih, step_nonces_other c s _ (by simp)]
      simp
    | addTransaction tx =>
      simp only [acceptedNonces]
      have hrest := ih (s.step c (.addTransaction tx))
      generalize acceptedNonces c address (s.step c (.addTransaction tx)) rest = tail at hrest ⊢
      rcases addTransaction_spec c tx s with ⟨e1, h1⟩ | ⟨h1, h2⟩
      · have hs : s.step c (.addTransaction tx) = s := by simp [Blockchain.step, h1]
        rw [hs] at hrest
        have : (s.addTransaction c tx).1.toBool = false := by simp [h1, Except.toBool]
        cases hf : tx.fromAddress <;> simp [this] <;> exact hrest
      · have hs : s.step c (.addTransaction tx) = s.accepted c tx := by simp [Blockchain.step, h1]
        rw [hs] at hrest
        have hb : (s.addTransaction c tx).1.toBool = true := by simp [h1, Except.toBool]
        cases hf : tx.fromAddress with
        | none =>
          simp only [List.nil_append]
          have : (s.accepted c tx).nonces = s.nonces := by simp [Blockchain.accepted, hf]
          rw [this] at hrest; exact hrest
        | some f =>
          have hn := h2.2.2.2.2.2.1 f hf
          by_cases ha : senderAddressOf c f = address
          · have : expectedNonce (s.accepted c tx).nonces address = expectedNonce s.nonces address + 1 := by
              simp [Blockchain.accepted, hf, ha, expectedNonce_setNonce_self]
            rw [this] at hrest
            simp only [hb, ha, and_self, if_true, List.singleton_append, List.length_cons]
            rw [List.range_succ_eq_map, List.map_cons, List.map_map, hn, ha]
            simp only [Nat.cast_zero, add_zero, List.cons.injEq, true_and]
            rw [hrest]
            simp only [List.length_map, List.length_range, List.map_inj_left, List.mem_range,
              Function.comp_apply, Option.some.injEq]
            intro i _
            push_cast
            ring
          · have : expectedNonce (s.accepted c tx).nonces address = expectedNonce s.nonces address := by
              simp only [Blockchain.accepted, hf]
              exact expectedNonce_setNonce_other _ _ _ _ (Ne.symm ha)
            rw [this] at hrest
            simp only [ha, and_false, if_false, List.nil_append]
            exact hrest

theorem expectedNonce_run (c : Crypto) (address : String) (s : Blockchain) (calls : List Call) :
    expectedNonce (s.run c calls).nonces address
      = expectedNonce s.nonces address + ((acceptedNonces c address s calls).length : Int) := by
  induction calls generalizing s with
  | nil => simp [acceptedNonces, Blockchain.run]
  | cons call rest ih =>
    have hrun : s.run c (call :: rest) = (s.step c call).run c rest := rfl
    rw [hrun, ih]
    cases call with
    | commitTransactions now =>
      simp only [acceptedNonces]
      rw [step_nonces_other c s _ (by simp)]
    | commitMining minerAddress now =>
      simp only [acceptedNonces]
      rw [step_nonces_other c s _ (by simp)]
    | addTransaction tx =>
      simp only [acceptedNonces]
      generalize acceptedNonces c address (s.step c (.addTransaction tx)) rest = tail
      rcases addTransaction_spec c tx s with ⟨e1, h1⟩ | ⟨h1, h2⟩
      · have hs : s.step c (.addTransaction tx) = s := by simp [Blockchain.step, h1]
        have : (s.addTransaction c tx).1.toBool = false := by simp [h1, Except.toBool]
        rw [hs]
        cases hf : tx.fromAddress <;> simp [this]
      · have hs : s.step c (.addTransaction tx) = s.accepted c tx := by simp [Blockchain.step, h1]
        have hb : (s.addTransaction c tx).1.toBool = true := by simp [h1, Except.toBool]
        rw [hs]
        cases hf : tx.fromAddress with
        | none => simp [Blockchain.accepted, hf]
        | some f =>
          by_cases ha : senderAddressOf c f = address
          · simp only [hb, ha, and_self, if_true, List.singleton_append, List.length_cons]
            simp only [Blockchain.accepted, hf, ha, expectedNonce_setNonce_self]
            push_cast
            ring
          · simp only [ha, and_false, if_false, List.nil_append]
            simp only [Blockchain.accepted, hf]
            rw [expectedNonce_setNonce_other _ _ _ _ (Ne.symm ha)]

/-- C2. Nonce monotonicity. (1) `addTransaction` accepts a non-mint transaction only if its
nonce is the next expected nonce recorded for the canonical sender address (the address derived
from a raw public key, the sender string otherwise), and then that expected nonce grows by
exactly one; (2) a transaction with any other nonce is rejected and the ledger is left as it
was; (3) an address with no recorded nonce expects 0; (4) along any sequence of calls started
on a fresh ledger, the nonces of the accepted transactions of one sender address are
0, 1, 2, ... in acceptance order, and the recorded expected nonce is their number. -/
theorem nonce_monotonicity (c : Crypto) :
    (∀ (s : Blockchain) (tx : Transaction) (f : String), tx.fromAddress = some f →
        (s.addTransaction c tx).1 = .ok () →
          tx.nonce = some (expectedNonce s.nonces (senderAddressOf c f))
            ∧ expectedNonce (s.addTransaction c tx).2.nonces (senderAddressOf c f)
                = expectedNonce s.nonces (senderAddressOf c f) + 1)
      ∧ (∀ (s : Blockchain) (tx : Transaction) (f : String), tx.fromAddress = some f →
          tx.nonce ≠ some (expectedNonce s.nonces (senderAddressOf c f)) →
            (s.addTransaction c tx).1.toBool = false ∧ (s.addTransaction c tx).2 = s)
      ∧ (∀ (s : Blockchain) (address : String), lookupNonce s.nonces address = none →
          expectedNonce s.nonces address = 0)
      ∧ (∀ (now : Nat) (calls : List Call) (address : String),
          acceptedNonces c address (Blockchain.new c now) calls
              = (List.range (acceptedNonces c address (Blockchain.new c now) calls).length).map
                  (fun (i : Nat) => some (i : Int))
            ∧ expectedNonce ((Blockchain.new c now).run c calls).nonces address
              = ((acceptedNonces c address (Blockchain.new c now) calls).length : Int)) := by
  refine ⟨?_, ?_, ?_, ?_⟩
  · intro s tx f hf hok
    obtain ⟨h1, h2⟩ := addTransaction_ok c tx s hok
    refine ⟨h2.2.2.2.2.2.1 f hf, ?_⟩
    rw [h1]
    simp [Blockchain.accepted, hf, expectedNonce_setNonce_self]
  · intro s tx f hf hne
    rcases addTransaction_spec c tx s with ⟨e1, h1⟩ | ⟨_, h2⟩
    · rw [h1]; exact ⟨rfl, rfl⟩
    · exact absurd (h2.2.2.2.2.2.1 f hf) hne
  · intro s address h
    simp [expectedNonce, h]
  · intro now calls address
    refine ⟨?_, ?_⟩
    · have h := acceptedNonces_from c address (Blockchain.new c now) calls
      have h0 : expectedNonce (Blockchain.new c now).nonces address = 0 := rfl
      rw [h0] at h
      simpa using h
    · have h := expectedNonce_run c address (Blockchain.new c now) calls
      have h0 : expectedNonce (Blockchain.new c now).nonces address = 0 := rfl
      rw [h0] at h
      simpa using h

/-- In the double-spend scenario the sender address of `demoKeyA` has the accepted nonces
0 and 1, and the recorded expected nonce is their number. -/
theorem nonce_monotonicity_witness :
    acceptedNonces demoCrypto (generateAddress demoCrypto demoKeyA) (Blockchain.new demoCrypto 0)
        demoDoubleSpendCalls = [some 0, some 1]
      ∧ expectedNonce ((Blockchain.new demoCrypto 0).run demoCrypto demoDoubleSpendCalls).nonces
          (generateAddress demoCrypto demoKeyA)
        = ((acceptedNonces demoCrypto (generateAddress demoCrypto demoKeyA)
            (Blockchain.new demoCrypto 0) demoDoubleSpendCalls).length : Int) :=
  ⟨by decide!, ((nonce_monotonicity demoCrypto).2.2.2 0 demoDoubleSpendCalls _).2⟩

/-! ## Ledger: balances -/

theorem bytesToHex_length (bs : List Nat) : (bytesToHex bs).length = 2 * bs.length := by
  induction bs with
  | nil => rfl
  | cons b rest ih => simp [bytesToHex, byteToHex, ih]; omega

theorem rawAddress_length (c : Crypto) (publicKey : String) :
    (rawAddress c publicKey).length = 50 := by
  simp [rawAddress, bytesToHex_length, c.sha256_length, c.ripemd160_length]

theorem hexDigitVal_lt (ch : Char) (d : Nat) (h : hexDigitVal ch = some d) : d < 16 := by
  unfold hexDigitVal at h
  split_ifs at h <;> simp at h <;> omega

theorem parseDigits_hex_lt (s : List Char) (acc n : Nat)
    (h : parseDigits 16 hexDigitVal s acc = some n) : n < (acc + 1) * 16 ^ s.length := by
  induction s generalizing acc with
  | nil => simp [parseDigits] at h; subst h; simp
  | cons ch rest ih =>
    simp only [parseDigits] at h
    split at h
    · rename_i d hd
      have hlt := hexDigitVal_lt ch d hd
      have := ih _ h
      calc n < (acc * 16 + d + 1) * 16 ^ rest.length := this
        _ ≤ ((acc + 1) * 16) * 16 ^ rest.length := by
            apply Nat.mul_le_mul_right; omega
        _ = (acc + 1) * 16 ^ (ch :: rest).length := by
            rw [List.length_cons, pow_succ]; ring
    · cases h

theorem to62baseLoop_length (fuel n k : Nat) (acc : List Char) (h : n < 62 ^ k) :
    (to62baseLoop fuel n acc).length ≤ k + acc.length := by
  induction fuel generalizing n k acc with
  | zero => simp [to62baseLoop]
  | succ f ih =>
    simp only [to62baseLoop]
    split
    · rename_i hpos
      cases k with
      | zero => simp at h; omega
      | succ k1 =>
        have hdiv : n / 62 < 62 ^ k1 := by
          rw [Nat.div_lt_iff_lt_mul (by decide)]
          rw [pow_succ] at h; exact h
        have := ih (n / 62) k1 (base62dictionary.getD (n % 62) '0' :: acc) hdiv
        simp only [List.length_cons] at this
        omega
    · omega

/-- The loop of `to62base` does not depend on the bound once the bound is at least the
number: `bigint` iterations are enough for the `while` loop to end. -/
theorem to62baseLoop_fuel (fuel1 fuel2 n : Nat) (acc : List Char) (h1 : n ≤ fuel1)
    (h2 : n ≤ fuel2) : to62baseLoop fuel1 n acc = to62baseLoop fuel2 n acc := by
  induction fuel1 generalizing fuel2 n acc with
  | zero =>
    have hn : n = 0 := by omega
    subst hn
    cases fuel2 <;> simp [to62baseLoop]
  | succ f1 ih =>
    by_cases hn : n = 0
    · subst hn
      cases fuel2 <;> simp [to62baseLoop]
    · cases fuel2 with
      | zero => omega
      | succ f2 =>
        have hpos : n > 0 := by omega
        have hdiv : n / 62 < n := Nat.div_lt_self hpos (by decide)
        simp only [to62baseLoop, hpos, if_true]
        exact ih f2 (n / 62) _ (by omega) (by omega)

theorem generateAddress_length_le (c : Crypto) (publicKey : String) :
    (generateAddress c publicKey).length ≤ 34 := by
  unfold generateAddress
  rw [String.length_mk]
  have hsome := to62base_rawAddress_isSome c publicKey
  obtain ⟨chars, hchars⟩ := Option.isSome_iff_exists.mp hsome
  simp only [hchars, Option.get_some]
  unfold to62base at hchars
  have hne : rawAddress c publicKey ≠ [] := by
    intro h; have := rawAddress_length c publicKey; rw [h] at this; simp at this
  simp only [bigIntOfHex, hne, if_false, Option.map_eq_some'] at hchars
  obtain ⟨n, hn, hc⟩ := hchars
  have hlt := parseDigits_hex_lt _ _ _ hn
  rw [rawAddress_length] at hlt
  have hlt2 : n < 62 ^ 34 := lt_of_lt_of_le hlt (by norm_num)
  rw [← hc]
  have := to62baseLoop_length n n 34 [] hlt2
  simpa [to62baseNat] using this

theorem balanceStep_eq (publicKey address : Option String) (balance : ℚ) (t : Transaction) :
    balanceStep publicKey address balance t = balance + txDelta publicKey address t := by
  unfold balanceStep txDelta
  dsimp only
  split_ifs <;> ring

theorem foldl_balanceStep (publicKey address : Option String) (txs : List Transaction)
    (balance : ℚ) :
    txs.foldl (balanceStep publicKey address) balance
      = balance + (txs.map (txDelta publicKey address)).sum := by
  induction txs generalizing balance with
  | nil => simp
  | cons t rest ih =>
    simp only [List.foldl_cons, ih, balanceStep_eq, List.map_cons, List.sum_cons]
    ring

theorem foldl_blocks (publicKey address : Option String) (chain : List Block) (balance : ℚ) :
    chain.foldl
        (fun bal block => block.transactions.foldl (balanceStep publicKey address) bal) balance
      = balance
        + (chain.map (fun b => (b.transactions.map (txDelta publicKey address)).sum)).sum := by
  induction chain generalizing balance with
  | nil => simp
  | cons b rest ih =>
    rw [List.foldl_cons, ih, foldl_balanceStep, List.map_cons, List.sum_cons]
    ring

theorem scanBalance_eq_sum (publicKey address : Option String) (chain : List Block) :
    scanBalance publicKey address chain
      = (chain.map (fun b => (b.transactions.map (txDelta publicKey address)).sum)).sum := by
  unfold scanBalance
  rw [foldl_blocks]
  simp

theorem scanBalance_append (publicKey address : Option String) (chain : List Block) (b : Block) :
    scanBalance publicKey address (chain ++ [b])
      = scanBalance publicKey address chain
        + (b.transactions.map (txDelta publicKey address)).sum := by
  simp [scanBalance_eq_sum]

theorem countCoinbase_ok (c : Crypto) (txs : List Transaction) (k n : Nat)
    (h : countCoinbase c txs k = .ok n) : ∀ t ∈ txs, t.isValid c = .ok true := by
  induction txs generalizing k with
  | nil => intro t ht; simp at ht
  | cons x rest ih =>
    unfold countCoinbase at h
    split at h
    · cases h
    · cases h
    · rename_i hx
      intro t ht
      rcases List.mem_cons.mp ht with h1 | h1
      · rw [h1]; exact hx
      · exact ih _ h t h1

theorem validTransactions_of_valid (c : Crypto) (txs : List Transaction)
    (h : ∀ t ∈ txs, t.isValid c = .ok true) : validTransactions c txs = .ok txs := by
  induction txs with
  | nil => rfl
  | cons x rest ih =>
    unfold validTransactions
    rw [h x (List.mem_cons_self _ _), ih (fun t ht => h t (List.mem_cons_of_mem _ ht))]
    rfl

/-- The ledger after a successful `commitTransactions()`: the batch is the first
`maxTransactionsPerBlock` pending transactions, all of them valid, and the new block holds
exactly the batch. -/
theorem commitTransactions_ok (c : Crypto) (now : Nat) (s : Blockchain)
    (h : (s.commitTransactions c now).1 = .ok ()) :
    ∃ latest n, s.chain.getLast? = some latest
      ∧ countCoinbase c (s.pendingTransactions.take s.maxTransactionsPerBlock) 0 = .ok n ∧ n ≤ 1
      ∧ (s.commitTransactions c now).2
          = { s with
              chain := s.chain ++ [Block.assemble c now
                (s.pendingTransactions.take s.maxTransactionsPerBlock) latest.hash],
              pendingTransactions := s.pendingTransactions.drop s.maxTransactionsPerBlock } := by
  unfold Blockchain.commitTransactions at h ⊢
  split at h
  · rename_i hlen
    rw [if_pos hlen]
    rcases commitBatch_spec c now (s.pendingTransactions.take s.maxTransactionsPerBlock) false
      { s with pendingTransactions := s.pendingTransactions.drop s.maxTransactionsPerBlock }
      with ⟨e, h1⟩ | ⟨latest, block, n, h1, h2, h3, h4, h5⟩
    · rw [h1] at h; cases h
    · refine ⟨latest, n, h1, h2, h3, ?_⟩
      obtain ⟨arr, harr, hb⟩ := blockNew_ok c now _ _ _ h4
      rw [validTransactions_of_valid c _ (countCoinbase_ok c _ _ _ h2)] at harr
      injection harr with harr
      rw [h5, hb, ← harr]
      rfl
  · rename_i hlen
    rw [if_neg hlen]
    have htake : s.pendingTransactions.take s.maxTransactionsPerBlock = s.pendingTransactions :=
      List.take_of_length_le (by omega)
    have hdrop : s.pendingTransactions.drop s.maxTransactionsPerBlock = [] :=
      List.drop_of_length_le (by omega)
    rcases commitBatch_spec c now s.pendingTransactions true s
      with ⟨e, h1⟩ | ⟨latest, block, n, h1, h2, h3, h4, h5⟩
    · rw [h1] at h; cases h
    · refine ⟨latest, n, h1, by rw [htake]; exact h2, h3, ?_⟩
      obtain ⟨arr, harr, hb⟩ := blockNew_ok c now _ _ _ h4
      rw [validTransactions_of_valid c _ (countCoinbase_ok c _ _ _ h2)] at harr
      injection harr with harr
      rw [h5, hb, ← harr, htake, hdrop]
      rfl

theorem isValidAddress_sender (c : Crypto) (t : Transaction) (a : String)
    (hf : t.fromAddress = some a) (h : t.isValidAddress c = .ok true) :
    (a.length = 130 ∧ t.toAddress.length = 130) ∨ (a.length = 34 ∧ t.toAddress.length = 34) := by
  unfold Transaction.isValidAddress at h
  rw [hf] at h
  repeat' (first | split at h | dsimp only at h)
  all_goals first
    | cases h
    | (injection h with h; cases h)
    | skip
  all_goals simp_all [isAddressShape]

theorem getBalance_str (c : Crypto) (s : Blockchain) (key : String) (h : key ≠ "") :
    s.getBalance c (.str key)
      = scanBalance (resolveKey c (.str key)).1 (resolveKey c (.str key)).2 s.chain := by
  unfold Blockchain.getBalance
  simp [h]

theorem length_ne_of_generateAddress (c : Crypto) (x y : String) (h : x.length = 130) :
    x ≠ generateAddress c y := by
  intro heq
  have := generateAddress_length_le c y
  rw [← heq, h] at this
  omega

theorem string_ne_empty_of_length (x : String) (n : Nat) (h : x.length = n) (hn : 0 < n) :
    x ≠ "" := by
  intro heq
  rw [heq] at h
  simp at h
  omega

/-- The balances of the two endpoints of a committed non-mint transaction `t` move by
its amount: the recipient gains it, the sender loses it. -/
theorem txDelta_endpoints (c : Crypto) (t : Transaction) (a : String)
    (hf : t.fromAddress = some a) (hne : a ≠ t.toAddress)
    (hshape : (a.length = 130 ∧ t.toAddress.length = 130)
      ∨ (a.length = 34 ∧ t.toAddress.length = 34)) :
    txDelta (resolveKey c (.str t.toAddress)).1 (resolveKey c (.str t.toAddress)).2 t = t.amount
      ∧ txDelta (resolveKey c (.str a)).1 (resolveKey c (.str a)).2 t = -t.amount := by
  rcases hshape with ⟨ha, hb⟩ | ⟨ha, hb⟩
  · have h1 : a ≠ generateAddress c t.toAddress := length_ne_of_generateAddress c _ _ ha
    have h2 : t.toAddress ≠ generateAddress c a := length_ne_of_generateAddress c _ _ hb
    have h3 : a ≠ "" := string_ne_empty_of_length a 130 ha (by decide)
    simp [txDelta, resolveKey, ha, hb, hf, hne, h1, h2, h3, Ne.symm hne]
  · have h3 : a ≠ "" := string_ne_empty_of_length a 34 ha (by decide)
    simp [txDelta, resolveKey, ha, hb, hf, hne, h3, Ne.symm hne]

/-- C5. Transfer effect. On a ledger with an empty pending queue (and room for at least one
transaction per block), if `addTransaction(tx)` accepts a non-mint transaction `tx` from `a`
to a different endpoint, with an amount that the rounding to the amount precision leaves
unchanged, and `commitTransactions()` then succeeds, the balance of the recipient is its
previous value plus the amount and the balance of the sender its previous value minus the
amount. -/
theorem transfer_effect (c : Crypto) (s : Blockchain) (tx : Transaction) (a : String) (now : Nat)
    (hpend : s.pendingTransactions = [])
    (hcap : 0 < s.maxTransactionsPerBlock)
    (hfrom : tx.fromAddress = some a) (hne : a ≠ tx.toAddress)
    (hprec : toFixedNumber s.maxSymbolsAfterPeriod tx.amount = tx.amount)
    (hadd : (s.addTransaction c tx).1 = .ok ())
    (hcommit : ((s.addTransaction c tx).2.commitTransactions c now).1 = .ok ()) :
    ((s.addTransaction c tx).2.commitTransactions c now).2.getBalance c (.str tx.toAddress)
        = s.getBalance c (.str tx.toAddress) + tx.amount
      ∧ ((s.addTransaction c tx).2.commitTransactions c now).2.getBalance c (.str a)
        = s.getBalance c (.str a) - tx.amount := by
  obtain ⟨h1, hadm⟩ := addTransaction_ok c tx s hadd
  have hshape := isValidAddress_sender c tx a hfrom hadm.2.1
  have hstored : ({ tx with amount := toFixedNumber s.maxSymbolsAfterPeriod tx.amount }
      : Transaction) = tx := by
    rw [hprec]
  have hq : (s.accepted c tx).pendingTransactions = [tx] := by
    simp only [Blockchain.accepted, hpend, List.nil_append, hstored]
  rw [h1] at hcommit ⊢
  obtain ⟨latest, n, _, _, _, h5⟩ := commitTransactions_ok c now (s.accepted c tx) hcommit
  have hmax : (s.accepted c tx).maxTransactionsPerBlock = s.maxTransactionsPerBlock := rfl
  have htake : List.take s.maxTransactionsPerBlock [tx] = [tx] :=
    List.take_of_length_le (by simpa using hcap)
  rw [h5, hq, hmax, htake]
  have hchain : (s.accepted c tx).chain = s.chain := rfl
  have ha0 : a ≠ "" := by
    rcases hshape with ⟨h, _⟩ | ⟨h, _⟩
    · exact string_ne_empty_of_length a 130 h (by decide)
    · exact string_ne_empty_of_length a 34 h (by decide)
  have hb0 : tx.toAddress ≠ "" := by
    rcases hshape with ⟨_, h⟩ | ⟨_, h⟩
    · exact string_ne_empty_of_length _ 130 h (by decide)
    · exact string_ne_empty_of_length _ 34 h (by decide)
  obtain ⟨hd1, hd2⟩ := txDelta_endpoints c tx a hfrom hne hshape
  rw [getBalance_str c _ _ hb0, getBalance_str c _ _ hb0, getBalance_str c _ _ ha0,
    getBalance_str c _ _ ha0]
  simp only [hchain, scanBalance_append, Block.assemble, List.map_cons, List.map_nil,
    List.sum_cons, List.sum_nil, add_zero, hd1, hd2]
  constructor <;> ring_nf

/-- On the funded demo ledger the signed transfer of 10 from `demoKeyA` to `demoKeyB` is
accepted and committed; `transfer_effect` gives the two balances. -/
theorem transfer_effect_witness :
    demoFunded.pendingTransactions = []
      ∧ ((demoFunded.addTransaction demoCrypto (demoTransfer 10 0)).2.commitTransactions
            demoCrypto 4).2.getBalance demoCrypto (.str (demoTransfer 10 0).toAddress)
          = demoFunded.getBalance demoCrypto (.str (demoTransfer 10 0).toAddress)
            + (demoTransfer 10 0).amount
      ∧ ((demoFunded.addTransaction demoCrypto (demoTransfer 10 0)).2.commitTransactions
            demoCrypto 4).2.getBalance demoCrypto (.str demoKeyA)
          = demoFunded.getBalance demoCrypto (.str demoKeyA) - (demoTransfer 10 0).amount :=
  ⟨by decide!,
    transfer_effect demoCrypto demoFunded (demoTransfer 10 0) demoKeyA 4 (by decide!)
      (by decide!) rfl (by decide!) (by decide!)
      ((toBool_eq_true_iff _).mp (by decide!)) ((toBool_eq_true_iff _).mp (by decide!))⟩

/-! ## Ledger: conservation of balances -/

/-- C6 fails as stated. After one reward paid to the raw key `demoKeyA` and one paid to
the address derived from it, the endpoint identities of the chain are that key and that
address; `getBalance` of the key counts both rewards and `getBalance` of the address counts the
second again, so the balances sum to 30 while 20 were minted. All sums here are whole numbers,
which binary64 adds without rounding. -/
theorem balance_sum_double_counts :
    chainEndpoints ((Blockchain.new demoCrypto 0).run demoCrypto demoTwoFormsCalls).chain
        = [demoKeyA, generateAddress demoCrypto demoKeyA]
      ∧ ((Blockchain.new demoCrypto 0).run demoCrypto demoTwoFormsCalls).endpointBalanceSumDouble
          demoCrypto = some 30
      ∧ mintTotalDouble (chainTransactions
          ((Blockchain.new demoCrypto 0).run demoCrypto demoTwoFormsCalls).chain) = some 20 := by
  decide!

theorem scanBalance_eq_chainTransactions (publicKey address : Option String)
    (chain : List Block) :
    scanBalance publicKey address chain
      = ((chainTransactions chain).map (txDelta publicKey address)).sum := by
  rw [scanBalance_eq_sum]
  induction chain with
  | nil => rfl
  | cons b rest ih => simp [chainTransactions, ih]

theorem sum_map_sum_comm {α β : Type} (l : List α) (m : List β) (f : α → β → ℚ) :
    (l.map (fun x => (m.map (fun y => f x y)).sum)).sum
      = (m.map (fun y => (l.map (fun x => f x y)).sum)).sum := by
  induction l with
  | nil => simp
  | cons x xs ih =>
    simp only [List.map_cons, List.sum_cons, ih]
    rw [List.sum_map_add]

theorem sum_map_sub_rat {α : Type} (l : List α) (f g : α → ℚ) :
    (l.map (fun x => f x - g x)).sum = (l.map f).sum - (l.map g).sum := by
  induction l with
  | nil => simp
  | cons x xs ih =>
    simp only [List.map_cons, List.sum_cons, ih]
    ring

theorem sum_map_ite_eq_of_mem (l : List String) (x : String) (a : ℚ) (hnd : l.Nodup)
    (hx : x ∈ l) : (l.map (fun e => if x = e then a else 0)).sum = a := by
  induction l with
  | nil => simp at hx
  | cons y ys ih =>
    rw [List.nodup_cons] at hnd
    simp only [List.map_cons, List.sum_cons]
    rcases List.mem_cons.mp hx with h | h
    · subst h
      have : (ys.map (fun e => if x = e then a else 0)).sum = 0 := by
        apply List.sum_eq_zero
        intro v hv
        obtain ⟨e, he, rfl⟩ := List.mem_map.mp hv
        have : x ≠ e := fun h => hnd.1 (h ▸ he)
        simp [this]
      simp [this]
    · have hne : x ≠ y := fun heq => hnd.1 (heq ▸ h)
      simp [hne, ih hnd.2 h]

theorem mem_chainEndpoints_to (chain : List Block) (t : Transaction)
    (ht : t ∈ chainTransactions chain) : t.toAddress ∈ chainEndpoints chain := by
  unfold chainEndpoints
  rw [List.mem_dedup, List.mem_flatten]
  refine ⟨txEndpoints t, List.mem_map.mpr ⟨t, ht, rfl⟩, ?_⟩
  unfold txEndpoints
  split <;> simp

theorem mem_chainEndpoints_from (chain : List Block) (t : Transaction) (f : String)
    (ht : t ∈ chainTransactions chain) (hf : t.fromAddress = some f) :
    f ∈ chainEndpoints chain := by
  unfold chainEndpoints
  rw [List.mem_dedup, List.mem_flatten]
  refine ⟨txEndpoints t, List.mem_map.mpr ⟨t, ht, rfl⟩, ?_⟩
  unfold txEndpoints
  rw [hf]
  simp

theorem txDelta_resolve (c : Crypto) (chain : List Block) (hsep : SeparateForms c chain)
    (t : Transaction) (ht : t ∈ chainTransactions chain) (e : String)
    (he : e ∈ chainEndpoints chain) :
    txDelta (resolveKey c (.str e)).1 (resolveKey c (.str e)).2 t
      = (if t.toAddress = e then t.amount else 0)
        - (match t.fromAddress with
            | none => 0
            | some f => if f = e then t.amount else 0) := by
  have hto := mem_chainEndpoints_to chain t ht
  have hto_ne : e.length = 130 → t.toAddress ≠ generateAddress c e :=
    fun h heq => hsep.2 e he h (heq ▸ hto)
  unfold txDelta
  congr 1
  · rcases hsep.1 e he with h | h
    · simp [resolveKey, h, hto_ne h]
    · simp [resolveKey, h]
  · cases hf : t.fromAddress with
    | none => simp
    | some f =>
      have hfm := mem_chainEndpoints_from chain t f ht hf
      have hf_ne : e.length = 130 → f ≠ generateAddress c e :=
        fun h heq => hsep.2 e he h (heq ▸ hfm)
      have hf0 : f ≠ "" := by
        rcases hsep.1 f hfm with h | h
        · exact string_ne_empty_of_length f 130 h (by decide)
        · exact string_ne_empty_of_length f 34 h (by decide)
      rcases hsep.1 e he with h | h
      · simp [resolveKey, h, hf_ne h, hf0]
      · simp [resolveKey, h, hf0]

/-- In exact arithmetic the balances of the endpoint identities add up to the minted amounts,
on every chain whose endpoints have the length of a raw public key (130) or of an address
(34) and in which no raw public key occurs together with the address derived from it. -/
theorem endpointBalanceSum_exact (c : Crypto) (s : Blockchain) (hsep : SeparateForms c s.chain) :
    s.endpointBalanceSum c = mintTotal (chainTransactions s.chain) := by
  unfold Blockchain.endpointBalanceSum
  have hnd : (chainEndpoints s.chain).Nodup := List.nodup_dedup _
  have h1 : (chainEndpoints s.chain).map (fun e => s.getBalance c (.str e))
      = (chainEndpoints s.chain).map (fun e =>
          ((chainTransactions s.chain).map (fun t =>
            (if t.toAddress = e then t.amount else 0)
              - (match t.fromAddress with
                  | none => 0
                  | some f => if f = e then t.amount else 0))).sum) := by
    apply List.map_congr_left
    intro e he
    have he0 : e ≠ "" := by
      rcases hsep.1 e he with h | h
      · exact string_ne_empty_of_length e 130 h (by decide)
      · exact string_ne_empty_of_length e 34 h (by decide)
    rw [getBalance_str c s e he0, scanBalance_eq_chainTransactions]
    congr 1
    apply List.map_congr_left
    intro t ht
    exact txDelta_resolve c s.chain hsep t ht e he
  rw [h1, sum_map_sum_comm]
  unfold mintTotal
  generalize hT : chainTransactions s.chain = txs
  have hmem : ∀ t ∈ txs, t ∈ chainTransactions s.chain := fun t ht => hT ▸ ht
  clear hT h1
  induction txs with
  | nil => simp
  | cons t rest ih =>
    have hrest := ih (fun x hx => hmem x (List.mem_cons_of_mem _ hx))
    have ht := hmem t (List.mem_cons_self _ _)
    rw [List.map_cons, List.sum_cons, hrest]
    have hsplit : ((chainEndpoints s.chain).map (fun e =>
          (if t.toAddress = e then t.amount else 0)
            - (match t.fromAddress with
                | none => 0
                | some f => if f = e then t.amount else 0))).sum
        = ((chainEndpoints s.chain).map (fun e => if t.toAddress = e then t.amount else 0)).sum
          - ((chainEndpoints s.chain).map (fun e =>
              match t.fromAddress with
              | none => 0
              | some f => if f = e then t.amount else 0)).sum := by
      exact sum_map_sub_rat _ _ _
    rw [hsplit, sum_map_ite_eq_of_mem _ _ _ hnd (mem_chainEndpoints_to _ t ht)]
    cases hf : t.fromAddress with
    | none => simp [List.filter_cons, hf]
    | some f =>
      simp only []
      rw [sum_map_ite_eq_of_mem _ _ _ hnd (mem_chainEndpoints_from _ t f ht hf)]
      simp [List.filter_cons, hf]

/-! ### Binary64 rounding leaves the numbers of a fine enough grid alone -/

theorem pow2_eq_zpow (e : Int) : pow2 e = (2 : ℚ) ^ e := by
  unfold pow2
  split
  · rename_i h
    have he : e = (e.toNat : Int) := (Int.toNat_of_nonneg h).symm
    conv_rhs => rw [he]
    rw [zpow_natCast]
    push_cast
    rfl
  · rename_i h
    have h2 : 0 ≤ -e := by omega
    have he : e = -((-e).toNat : Int) := by rw [Int.toNat_of_nonneg h2]; ring
    conv_rhs => rw [he]
    rw [zpow_neg, zpow_natCast]
    push_cast
    simp [one_div]

theorem pow2_pos (e : Int) : 0 < pow2 e := by
  rw [pow2_eq_zpow]; positivity

theorem floorLog2Loop_spec (fuel n : Nat) (hn : 0 < n) (hf : n ≤ fuel) :
    2 ^ floorLog2Loop fuel n ≤ n ∧ n < 2 ^ (floorLog2Loop fuel n + 1) := by
  induction fuel generalizing n with
  | zero => omega
  | succ f ih =>
    unfold floorLog2Loop
    split
    · rename_i h2
      obtain ⟨h3, h4⟩ := ih (n / 2) (Nat.div_pos h2 (by decide)) (by omega)
      constructor
      · rw [pow_succ]; omega
      · rw [pow_succ]; omega
    · omega

theorem floorLog2_le (n : Nat) (hn : 0 < n) : 2 ^ floorLog2 n ≤ n :=
  (floorLog2Loop_spec n n hn le_rfl).1

theorem lt_floorLog2 (n : Nat) (hn : 0 < n) : n < 2 ^ (floorLog2 n + 1) :=
  (floorLog2Loop_spec n n hn le_rfl).2

theorem log2_bounds (n d : Nat) (hn : 0 < n) (hd : 0 < d) :
    (2 : ℚ) ^ (((floorLog2 n : Int) - (floorLog2 d : Int) - 53) + 52) < (n : ℚ) / d
      ∧ (n : ℚ) / d < (2 : ℚ) ^ (((floorLog2 n : Int) - (floorLog2 d : Int) - 53) + 54) := by
  have h1 : 2 ^ floorLog2 n ≤ n := floorLog2_le n hn
  have h2 : n < 2 ^ (floorLog2 n + 1) := lt_floorLog2 n hn
  have h3 : 2 ^ floorLog2 d ≤ d := floorLog2_le d hd
  have h4 : d < 2 ^ (floorLog2 d + 1) := lt_floorLog2 d hd
  have h1q : (2 : ℚ) ^ floorLog2 n ≤ n := by exact_mod_cast h1
  have h2q : (n : ℚ) < 2 ^ (floorLog2 n + 1) := by exact_mod_cast h2
  have h3q : (2 : ℚ) ^ floorLog2 d ≤ d := by exact_mod_cast h3
  have h4q : (d : ℚ) < 2 ^ (floorLog2 d + 1) := by exact_mod_cast h4
  have hdq : (0 : ℚ) < d := by exact_mod_cast hd
  have e1 : (2 : ℚ) ^ (((floorLog2 n : Int) - (floorLog2 d : Int) - 53) + 52)
      = 2 ^ floorLog2 n / 2 ^ (floorLog2 d + 1) := by
    rw [show ((floorLog2 n : Int) - (floorLog2 d : Int) - 53) + 52
        = (floorLog2 n : Int) - ((floorLog2 d + 1 : Nat) : Int) by push_cast; ring]
    rw [zpow_sub₀ (by norm_num), zpow_natCast, zpow_natCast]
  have e2 : (2 : ℚ) ^ (((floorLog2 n : Int) - (floorLog2 d : Int) - 53) + 54)
      = 2 ^ (floorLog2 n + 1) / 2 ^ floorLog2 d := by
    rw [show ((floorLog2 n : Int) - (floorLog2 d : Int) - 53) + 54
        = ((floorLog2 n + 1 : Nat) : Int) - (floorLog2 d : Int) by push_cast; ring]
    rw [zpow_sub₀ (by norm_num), zpow_natCast, zpow_natCast]
  rw [e1, e2]
  constructor
  · rw [div_lt_div_iff₀ (by positivity) hdq]
    calc (2 : ℚ) ^ floorLog2 n * d < 2 ^ floorLog2 n * 2 ^ (floorLog2 d + 1) := by
          apply mul_lt_mul_of_pos_left h4q (by positivity)
      _ ≤ n * 2 ^ (floorLog2 d + 1) := by
          apply mul_le_mul_of_nonneg_right h1q (by positivity)
  · rw [div_lt_div_iff₀ hdq (by positivity)]
    calc (n : ℚ) * 2 ^ floorLog2 d < 2 ^ (floorLog2 n + 1) * 2 ^ floorLog2 d := by
          apply mul_lt_mul_of_pos_right h2q (by positivity)
      _ ≤ 2 ^ (floorLog2 n + 1) * d := by
          apply mul_le_mul_of_nonneg_left h3q (by positivity)


theorem zpow_two_lt_iff (m n : Int) : (2 : ℚ) ^ m < 2 ^ n ↔ m < n :=
  zpow_lt_zpow_iff_right₀ (by norm_num)

theorem zpow_two_le_iff (m n : Int) : (2 : ℚ) ^ m ≤ 2 ^ n ↔ m ≤ n :=
  zpow_le_zpow_iff_right₀ (by norm_num)

theorem two_pow_53 : (9007199254740992 : ℚ) = 2 ^ (53 : Int) := by norm_num

/-- The exponent found for a positive magnitude is the one of its binade, or the least one. -/
theorem ulpExponent_spec (a : ℚ) (ha : 0 < a) :
    -1074 ≤ ulpExponent a
      ∧ a < 2 ^ (53 : Int) * 2 ^ ulpExponent a
      ∧ (ulpExponent a = -1074 ∨ 2 ^ (52 : Int) * 2 ^ ulpExponent a ≤ a) := by
  have hnum : 0 < a.num := Rat.num_pos.mpr ha
  have hn : 0 < a.num.toNat := by omega
  have hcast : ((a.num.toNat : Nat) : ℚ) = (a.num : ℚ) := by
    have : ((a.num.toNat : Nat) : Int) = a.num := Int.toNat_of_nonneg hnum.le
    exact_mod_cast congrArg (fun z : Int => (z : ℚ)) this
  have hq : ((a.num.toNat : Nat) : ℚ) / (a.den : ℚ) = a := by
    rw [hcast]; exact Rat.num_div_den a
  obtain ⟨hlo, hhi⟩ := log2_bounds a.num.toNat a.den hn a.den_pos
  rw [hq] at hlo hhi
  unfold ulpExponent
  simp only [pow2_eq_zpow, two_pow_53]
  generalize (floorLog2 a.num.toNat : Int) - (floorLog2 a.den : Int) - 53 = e at hlo hhi
  rw [zpow_add₀ (by norm_num)] at hlo hhi
  have key : ∀ e1 : Int, a < 2 ^ (53 : Int) * 2 ^ e1 → 2 ^ (52 : Int) * 2 ^ e1 ≤ a →
      -1074 ≤ max e1 (-1074)
        ∧ a < 2 ^ (53 : Int) * 2 ^ max e1 (-1074)
        ∧ (max e1 (-1074) = -1074 ∨ 2 ^ (52 : Int) * 2 ^ max e1 (-1074) ≤ a) := by
    intro e1 h1 h2
    refine ⟨le_max_right _ _, ?_, ?_⟩
    · refine lt_of_lt_of_le h1 ?_
      apply mul_le_mul_of_nonneg_left _ (by positivity)
      exact (zpow_two_le_iff _ _).mpr (le_max_left _ _)
    · rcases le_total e1 (-1074) with h | h
      · left; exact max_eq_right h
      · right; rw [max_eq_left h]; exact h2
  split
  · rename_i h
    exact key e h (by rw [mul_comm]; exact hlo.le)
  · rename_i h
    have h' : 2 ^ (53 : Int) * 2 ^ e ≤ a := not_lt.mp h
    refine key (e + 1) ?_ ?_
    · rw [zpow_add₀ (by norm_num)]
      calc a < 2 ^ e * 2 ^ (54 : Int) := hhi
        _ = 2 ^ (53 : Int) * (2 ^ e * 2 ^ (1 : Int)) := by norm_num; ring
    · rw [zpow_add₀ (by norm_num)]
      calc (2 : ℚ) ^ (52 : Int) * (2 ^ e * 2 ^ (1 : Int)) = 2 ^ (53 : Int) * 2 ^ e := by
            norm_num; ring
        _ ≤ a := h'

theorem roundHalfEven_intCast (z : Int) : roundHalfEven (z : ℚ) = z := by
  have hf : Rat.floor (z : ℚ) = z := by
    show ⌊(z : ℚ)⌋ = z
    exact Int.floor_intCast z
  unfold roundHalfEven
  rw [hf]
  simp

/-- A nonnegative whole multiple of `2^-k` below `2^(53-k)` is a binary64 number. -/
theorem roundMagnitude_exact (a : ℚ) (k : Nat) (n : Int) (ha : 0 ≤ a) (hk : k ≤ 1074)
    (hn : a * 2 ^ k = n) (hlt : a * 2 ^ k < 2 ^ 53) : roundMagnitude a = some a := by
  have h2k : (0 : ℚ) < 2 ^ k := by positivity
  have ha1 : a < 2 ^ (53 : Int) * 2 ^ (-(k : Int)) := by
    rw [zpow_neg, zpow_natCast, ← div_eq_mul_inv, lt_div_iff₀ h2k]
    exact_mod_cast hlt
  have hsmall : a < 2 ^ (1024 : Int) := by
    refine lt_of_lt_of_le ha1 ?_
    rw [← zpow_add₀ (by norm_num)]
    exact (zpow_two_le_iff _ _).mpr (by omega)
  rcases eq_or_lt_of_le ha with h0 | hpos
  · subst h0
    decide!
  · obtain ⟨h1, h2, h3⟩ := ulpExponent_spec a hpos
    have hle : ulpExponent a ≤ -(k : Int) := by
      rcases h3 with h3 | h3
      · omega
      · have : (2 : ℚ) ^ (52 : Int) * 2 ^ ulpExponent a < 2 ^ (53 : Int) * 2 ^ (-(k : Int)) :=
          lt_of_le_of_lt h3 ha1
        rw [← zpow_add₀ (by norm_num), ← zpow_add₀ (by norm_num), zpow_two_lt_iff] at this
        omega
    unfold roundMagnitude
    simp only [pow2_eq_zpow]
    generalize ulpExponent a = e at hle
    obtain ⟨j, hj⟩ : ∃ j : Nat, (j : Int) = -e - k := ⟨(-e - k).toNat, by omega⟩
    have he : e = -((k : Int) + j) := by omega
    have hdiv : a / 2 ^ e = ((n * 2 ^ j : Int) : ℚ) := by
      rw [he, zpow_neg, div_inv_eq_mul, zpow_add₀ (by norm_num), zpow_natCast, zpow_natCast,
        ← mul_assoc, hn]
      push_cast
      ring
    rw [hdiv, roundHalfEven_intCast, ← hdiv]
    have hback : a / 2 ^ e * 2 ^ e = a := by
      rw [div_mul_cancel₀]; positivity
    rw [hback, if_pos hsmall]


theorem isMultiple_of_den (k : Nat) (q : ℚ) (h : (q * 2 ^ k).den = 1) : IsMultiple k q :=
  ⟨(q * 2 ^ k).num, (Rat.den_eq_one_iff _).mp h |>.symm⟩

theorem isMultiple_zero (k : Nat) : IsMultiple k 0 := ⟨0, by simp⟩

theorem isMultiple_add {k : Nat} {p q : ℚ} (hp : IsMultiple k p) (hq : IsMultiple k q) :
    IsMultiple k (p + q) := by
  obtain ⟨m, hm⟩ := hp
  obtain ⟨n, hn⟩ := hq
  exact ⟨m + n, by rw [add_mul, hm, hn]; push_cast; rfl⟩

theorem isMultiple_neg {k : Nat} {p : ℚ} (hp : IsMultiple k p) : IsMultiple k (-p) := by
  obtain ⟨m, hm⟩ := hp
  exact ⟨-m, by rw [neg_mul, hm]; push_cast; rfl⟩

theorem isMultiple_sub {k : Nat} {p q : ℚ} (hp : IsMultiple k p) (hq : IsMultiple k q) :
    IsMultiple k (p - q) := by
  rw [sub_eq_add_neg]; exact isMultiple_add hp (isMultiple_neg hq)

theorem isMultiple_sum (k : Nat) (qs : List ℚ) (h : ∀ q ∈ qs, IsMultiple k q) :
    IsMultiple k qs.sum := by
  induction qs with
  | nil => exact isMultiple_zero k
  | cons q rest ih =>
    rw [List.sum_cons]
    exact isMultiple_add (h q (List.mem_cons_self _ _))
      (ih (fun x hx => h x (List.mem_cons_of_mem _ hx)))

/-- A whole multiple of `2^-k` of magnitude below `2^(53-k)` is a binary64 number. -/
theorem roundDouble_exact (q : ℚ) (k : Nat) (hk : k ≤ 1074) (hq : IsMultiple k q)
    (hlt : |q| * 2 ^ k < 2 ^ 53) : roundDouble q = some q := by
  obtain ⟨n, hn⟩ := hq
  unfold roundDouble
  split
  · rename_i h
    rw [abs_of_nonneg h] at hlt
    exact roundMagnitude_exact q k n h hk hn hlt
  · rename_i h
    have h' : q < 0 := not_le.mp h
    rw [abs_of_neg h'] at hlt
    rw [roundMagnitude_exact (-q) k (-n) (by linarith) hk (by rw [neg_mul, hn]; push_cast; rfl)
      hlt]
    simp

theorem bound_mono (k : Nat) (x y : ℚ) (hxy : x ≤ y) (hy : y * 2 ^ k < 2 ^ 53) :
    x * 2 ^ k < 2 ^ 53 :=
  lt_of_le_of_lt (mul_le_mul_of_nonneg_right hxy (by positivity)) hy

theorem balanceStepDouble_exact (publicKey address : Option String) (k : Nat) (hk : k ≤ 1074)
    (acc : ℚ) (t : Transaction) (hacc : IsMultiple k acc) (ht : IsMultiple k t.amount)
    (hb : (|acc| + |t.amount|) * 2 ^ k < 2 ^ 53) :
    balanceStepDouble publicKey address (some acc) t
        = some (balanceStep publicKey address acc t)
      ∧ IsMultiple k (balanceStep publicKey address acc t)
      ∧ |balanceStep publicKey address acc t| ≤ |acc| + |t.amount| := by
  have hamt : roundDouble t.amount = some t.amount :=
    roundDouble_exact _ k hk ht (bound_mono k _ _ (by linarith [abs_nonneg acc]) hb)
  have hsub : roundDouble (acc - t.amount) = some (acc - t.amount) :=
    roundDouble_exact _ k hk (isMultiple_sub hacc ht) (bound_mono k _ _ (abs_sub acc t.amount) hb)
  have hadd : roundDouble (acc + t.amount) = some (acc + t.amount) :=
    roundDouble_exact _ k hk (isMultiple_add hacc ht) (bound_mono k _ _ (abs_add acc t.amount) hb)
  have hboth : roundDouble (acc - t.amount + t.amount) = some (acc - t.amount + t.amount) := by
    apply roundDouble_exact _ k hk (isMultiple_add (isMultiple_sub hacc ht) ht)
    rw [sub_add_cancel]
    exact bound_mono k _ _ (by linarith [abs_nonneg t.amount]) hb
  unfold balanceStepDouble balanceStep
  dsimp only
  split_ifs
  · refine ⟨?_, isMultiple_add (isMultiple_sub hacc ht) ht, ?_⟩
    · rw [hamt]; simp only [doubleSub, doubleAdd, hsub, hboth]
    · rw [sub_add_cancel]; linarith [abs_nonneg t.amount]
  · refine ⟨?_, isMultiple_add hacc ht, abs_add acc t.amount⟩
    rw [hamt]; simp only [doubleAdd, hadd]
  · refine ⟨?_, isMultiple_sub hacc ht, abs_sub acc t.amount⟩
    rw [hamt]; simp only [doubleSub, hsub]
  · exact ⟨rfl, hacc, by linarith [abs_nonneg t.amount]⟩

theorem foldl_balanceStepDouble_exact (publicKey address : Option String) (k : Nat)
    (hk : k ≤ 1074) (txs : List Transaction) (acc : ℚ) (hacc : IsMultiple k acc)
    (ht : ∀ t ∈ txs, IsMultiple k t.amount)
    (hb : (|acc| + (txs.map (fun t => |t.amount|)).sum) * 2 ^ k < 2 ^ 53) :
    txs.foldl (balanceStepDouble publicKey address) (some acc)
      = some (txs.foldl (balanceStep publicKey address) acc) := by
  induction txs generalizing acc with
  | nil => rfl
  | cons t rest ih =>
    rw [List.map_cons, List.sum_cons] at hb
    have hrest : 0 ≤ (rest.map (fun t => |t.amount|)).sum :=
      List.sum_nonneg (by
        intro x hx
        obtain ⟨u, _, rfl⟩ := List.mem_map.mp hx
        exact abs_nonneg _)
    obtain ⟨h1, h2, h3⟩ := balanceStepDouble_exact publicKey address k hk acc t hacc
      (ht t (List.mem_cons_self _ _)) (bound_mono k _ _ (by linarith) hb)
    rw [List.foldl_cons, List.foldl_cons, h1]
    exact ih _ h2 (fun x hx => ht x (List.mem_cons_of_mem _ hx))
      (bound_mono k _ _ (by linarith) hb)

theorem scanBalanceDouble_eq_foldl (publicKey address : Option String) (chain : List Block) :
    scanBalanceDouble publicKey address chain
      = (chainTransactions chain).foldl (balanceStepDouble publicKey address) (some 0) := by
  unfold scanBalanceDouble
  generalize (some 0 : Option ℚ) = acc
  induction chain generalizing acc with
  | nil => rfl
  | cons b rest ih => rw [List.foldl_cons, ih, chainTransactions, List.foldl_append]

theorem scanBalance_eq_foldl (publicKey address : Option String) (chain : List Block) :
    scanBalance publicKey address chain
      = (chainTransactions chain).foldl (balanceStep publicKey address) 0 := by
  unfold scanBalance
  generalize (0 : ℚ) = acc
  induction chain generalizing acc with
  | nil => rfl
  | cons b rest ih => rw [List.foldl_cons, ih, chainTransactions, List.foldl_append]

theorem exactAmounts_isMultiple {k : Nat} {chain : List Block} (h : ExactAmounts k chain)
    (t : Transaction) (ht : t ∈ chainTransactions chain) : IsMultiple k t.amount :=
  isMultiple_of_den k _ (h.2.1 t ht)

/-- On a chain with exact amounts the binary64 scan returns the exact balance. -/
theorem scanBalanceDouble_exact (publicKey address : Option String) (k : Nat)
    (chain : List Block) (h : ExactAmounts k chain) :
    scanBalanceDouble publicKey address chain = some (scanBalance publicKey address chain) := by
  rw [scanBalanceDouble_eq_foldl, scanBalance_eq_foldl]
  apply foldl_balanceStepDouble_exact publicKey address k h.1 _ 0 (isMultiple_zero k)
    (fun t ht => exactAmounts_isMultiple h t ht)
  simpa using h.2.2

theorem getBalanceDouble_str (c : Crypto) (s : Blockchain) (e : String) (he : e ≠ "") :
    s.getBalanceDouble c (.str e)
      = scanBalanceDouble (resolveKey c (.str e)).1 (resolveKey c (.str e)).2 s.chain := by
  unfold Blockchain.getBalanceDouble
  simp [he]


/-- On a chain with exact amounts the engine returns the exact balance of a string key. -/
theorem getBalanceDouble_exact (c : Crypto) (s : Blockchain) (k : Nat) (e : String)
    (hexact : ExactAmounts k s.chain) :
    s.getBalanceDouble c (.str e) = some (s.getBalance c (.str e)) := by
  by_cases he : e = ""
  · subst he
    simp [Blockchain.getBalanceDouble, Blockchain.getBalance]
  · rw [getBalanceDouble_str c s e he, getBalance_str c s e he]
    exact scanBalanceDouble_exact _ _ k s.chain hexact

theorem sum_map_ite_mem (l : List String) (x : String) (a : ℚ) (hnd : l.Nodup) :
    (l.map (fun e => if x = e then a else 0)).sum = if x ∈ l then a else 0 := by
  by_cases hx : x ∈ l
  · rw [if_pos hx]; exact sum_map_ite_eq_of_mem l x a hnd hx
  · rw [if_neg hx]
    apply List.sum_eq_zero
    intro v hv
    obtain ⟨e, he, rfl⟩ := List.mem_map.mp hv
    have : x ≠ e := fun h => hx (h ▸ he)
    simp [this]

theorem abs_sum_map_le {α : Type} (l : List α) (f g : α → ℚ) (h : ∀ x ∈ l, |f x| ≤ g x) :
    |(l.map f).sum| ≤ (l.map g).sum := by
  induction l with
  | nil => simp
  | cons x xs ih =>
    simp only [List.map_cons, List.sum_cons]
    calc |f x + (xs.map f).sum| ≤ |f x| + |(xs.map f).sum| := abs_add _ _
      _ ≤ g x + (xs.map g).sum :=
        add_le_add (h x (List.mem_cons_self _ _))
          (ih (fun y hy => h y (List.mem_cons_of_mem _ hy)))

theorem balance_sum_over (c : Crypto) (s : Blockchain) (hsep : SeparateForms c s.chain)
    (l : List String) (hnd : l.Nodup) (hl : ∀ e ∈ l, e ∈ chainEndpoints s.chain) :
    (l.map (fun e => s.getBalance c (.str e))).sum
      = ((chainTransactions s.chain).map (netInflow l)).sum := by
  have h1 : l.map (fun e => s.getBalance c (.str e))
      = l.map (fun e =>
          ((chainTransactions s.chain).map (fun t =>
            (if t.toAddress = e then t.amount else 0)
              - (match t.fromAddress with
                  | none => 0
                  | some f => if f = e then t.amount else 0))).sum) := by
    apply List.map_congr_left
    intro e he
    have he0 : e ≠ "" := by
      rcases hsep.1 e (hl e he) with h | h
      · exact string_ne_empty_of_length e 130 h (by decide)
      · exact string_ne_empty_of_length e 34 h (by decide)
    rw [getBalance_str c s e he0, scanBalance_eq_chainTransactions]
    congr 1
    apply List.map_congr_left
    intro t ht
    exact txDelta_resolve c s.chain hsep t ht e (hl e he)
  rw [h1, sum_map_sum_comm]
  congr 1
  apply List.map_congr_left
  intro t _
  unfold netInflow
  rw [sum_map_sub_rat, sum_map_ite_mem _ _ _ hnd]
  congr 1
  cases hf : t.fromAddress with
  | none => simp
  | some f => exact sum_map_ite_mem _ _ _ hnd

theorem netInflow_isMultiple (k : Nat) (l : List String) (t : Transaction)
    (hm : IsMultiple k t.amount) : IsMultiple k (netInflow l t) := by
  unfold netInflow
  apply isMultiple_sub
  · split
    · exact hm
    · exact isMultiple_zero k
  · split
    · exact isMultiple_zero k
    · split
      · exact hm
      · exact isMultiple_zero k

theorem abs_netInflow_le (l : List String) (t : Transaction) :
    |netInflow l t| ≤ |t.amount| := by
  have h0 := abs_nonneg t.amount
  unfold netInflow
  cases hf : t.fromAddress with
  | none =>
    simp only []
    split_ifs <;> simp
  | some f =>
    simp only []
    split_ifs <;> simp

theorem balance_sum_over_bounds (c : Crypto) (s : Blockchain) (k : Nat)
    (hsep : SeparateForms c s.chain) (hexact : ExactAmounts k s.chain)
    (l : List String) (hnd : l.Nodup) (hl : ∀ e ∈ l, e ∈ chainEndpoints s.chain) :
    IsMultiple k (l.map (fun e => s.getBalance c (.str e))).sum
      ∧ |(l.map (fun e => s.getBalance c (.str e))).sum| * 2 ^ k < 2 ^ 53 := by
  rw [balance_sum_over c s hsep l hnd hl]
  constructor
  · apply isMultiple_sum
    intro q hq
    obtain ⟨t, ht, rfl⟩ := List.mem_map.mp hq
    exact netInflow_isMultiple k l t (exactAmounts_isMultiple hexact t ht)
  · have hle : |((chainTransactions s.chain).map (netInflow l)).sum|
        ≤ ((chainTransactions s.chain).map (fun t => |t.amount|)).sum :=
      abs_sum_map_le (chainTransactions s.chain) (netInflow l) (fun t => |t.amount|)
        (fun t _ => abs_netInflow_le l t)
    exact bound_mono k _ _ hle hexact.2.2

theorem foldl_doubleAdd_balances (c : Crypto) (s : Blockchain) (k : Nat)
    (hsep : SeparateForms c s.chain) (hexact : ExactAmounts k s.chain)
    (rest done : List String) (hnd : (done ++ rest).Nodup)
    (hl : ∀ e ∈ done ++ rest, e ∈ chainEndpoints s.chain) :
    (rest.map (fun e => s.getBalanceDouble c (.str e))).foldl doubleAdd
        (some (done.map (fun e => s.getBalance c (.str e))).sum)
      = some ((done ++ rest).map (fun e => s.getBalance c (.str e))).sum := by
  induction rest generalizing done with
  | nil => simp
  | cons e r ih =>
    have hsplit : done ++ e :: r = (done ++ [e]) ++ r := by simp
    rw [hsplit] at hnd hl ⊢
    have hbal : s.getBalanceDouble c (.str e) = some (s.getBalance c (.str e)) :=
      getBalanceDouble_exact c s k e hexact
    obtain ⟨hm, hb⟩ := balance_sum_over_bounds c s k hsep hexact (done ++ [e])
      (List.Nodup.sublist (List.sublist_append_left _ _) hnd)
      (fun x hx => hl x (List.mem_append_left _ hx))
    have hsum : ((done ++ [e]).map (fun e => s.getBalance c (.str e))).sum
        = (done.map (fun e => s.getBalance c (.str e))).sum + s.getBalance c (.str e) := by
      simp
    rw [List.map_cons, List.foldl_cons, hbal]
    have hstep : doubleAdd (some (done.map (fun e => s.getBalance c (.str e))).sum)
        (some (s.getBalance c (.str e)))
        = some ((done ++ [e]).map (fun e => s.getBalance c (.str e))).sum := by
      simp only [doubleAdd]
      rw [← hsum]
      exact roundDouble_exact _ k hexact.1 hm hb
    rw [hstep]
    exact ih (done ++ [e]) hnd hl

theorem foldl_doubleAdd_exact (k : Nat) (hk : k ≤ 1074) (qs : List ℚ) (acc : ℚ)
    (hacc : IsMultiple k acc) (hq : ∀ q ∈ qs, IsMultiple k q)
    (hb : (|acc| + (qs.map (fun q => |q|)).sum) * 2 ^ k < 2 ^ 53) :
    (qs.map roundDouble).foldl doubleAdd (some acc) = some (acc + qs.sum) := by
  induction qs generalizing acc with
  | nil => simp
  | cons q rest ih =>
    rw [List.map_cons, List.sum_cons] at hb
    have hrest : 0 ≤ (rest.map (fun q => |q|)).sum :=
      List.sum_nonneg (by
        intro x hx
        obtain ⟨u, _, rfl⟩ := List.mem_map.mp hx
        exact abs_nonneg _)
    have hq0 := hq q (List.mem_cons_self _ _)
    have h1 : roundDouble q = some q :=
      roundDouble_exact _ k hk hq0 (bound_mono k _ _ (by linarith [abs_nonneg acc]) hb)
    have h2 : roundDouble (acc + q) = some (acc + q) :=
      roundDouble_exact _ k hk (isMultiple_add hacc hq0)
        (bound_mono k _ _ (by linarith [abs_add acc q]) hb)
    rw [List.map_cons, List.foldl_cons, h1]
    simp only [doubleAdd, h2]
    rw [ih (acc + q) (isMultiple_add hacc hq0) (fun x hx => hq x (List.mem_cons_of_mem _ hx))
      (bound_mono k _ _ (by linarith [abs_add acc q]) hb), List.sum_cons, add_assoc]

theorem sum_abs_filter_le (txs : List Transaction) (p : Transaction → Bool) :
    ((txs.filter p).map (fun t => |t.amount|)).sum ≤ (txs.map (fun t => |t.amount|)).sum := by
  induction txs with
  | nil => simp
  | cons t rest ih =>
    by_cases h : p t = true
    · simp only [List.filter_cons, h, if_true, List.map_cons, List.sum_cons]
      linarith
    · simp only [List.filter_cons, h, List.map_cons, List.sum_cons]
      simp only [Bool.false_eq_true, if_false]
      linarith [abs_nonneg t.amount]

/-- On a chain with exact amounts the binary64 sum of the mint amounts is their exact sum. -/
theorem mintTotalDouble_exact (k : Nat) (chain : List Block) (hexact : ExactAmounts k chain) :
    mintTotalDouble (chainTransactions chain) = some (mintTotal (chainTransactions chain)) := by
  unfold mintTotalDouble mintTotal doubleSum
  have h := foldl_doubleAdd_exact k hexact.1
    (((chainTransactions chain).filter (fun t => decide (t.fromAddress = none))).map
      (fun t => t.amount)) 0 (isMultiple_zero k)
    (by
      intro q hq
      obtain ⟨t, ht, rfl⟩ := List.mem_map.mp hq
      exact exactAmounts_isMultiple hexact t (List.mem_filter.mp ht).1)
    (by
      rw [abs_zero, zero_add, List.map_map]
      exact bound_mono k _ _ (sum_abs_filter_le _ _) hexact.2.2)
  rw [List.map_map, zero_add] at h
  exact h

/-- C6, as the program behaves. Take a chain whose endpoints have the length of a raw
public key (130) or of an address (34), in which no raw public key occurs together with the
address derived from it, and whose amounts are whole multiples of `2^-k` that total, in
absolute value, less than `2^53` such units. Then the sum of `getBalance(e)` over the endpoint
identities `e` of the chain, added in binary64 in any order, equals the binary64 sum of the
amounts of the mint transactions of the chain, and that sum is the exact one. -/
theorem balance_conservation (c : Crypto) (s : Blockchain) (k : Nat) (es : List String)
    (hsep : SeparateForms c s.chain) (hexact : ExactAmounts k s.chain)
    (hes : es.Perm (chainEndpoints s.chain)) :
    doubleSum (es.map (fun e => s.getBalanceDouble c (.str e)))
        = mintTotalDouble (chainTransactions s.chain)
      ∧ mintTotalDouble (chainTransactions s.chain)
        = some (mintTotal (chainTransactions s.chain)) := by
  refine ⟨?_, mintTotalDouble_exact k s.chain hexact⟩
  rw [mintTotalDouble_exact k s.chain hexact]
  have hnd : es.Nodup := hes.nodup_iff.mpr (List.nodup_dedup _)
  have h := foldl_doubleAdd_balances c s k hsep hexact es [] (by simpa using hnd)
    (fun e he => hes.mem_iff.mp (by simpa using he))
  simp only [List.map_nil, List.sum_nil, List.nil_append] at h
  unfold doubleSum
  rw [h]
  congr 1
  have hperm := (hes.map (fun e => s.getBalance c (.str e))).sum_eq
  rw [hperm]
  exact endpointBalanceSum_exact c s hsep

/-- The chain with one reward of 10 and two transfers of 2.5 and 1.25 between two raw keys
has amounts that are multiples of a quarter; `balance_conservation` applies to it. -/
theorem balance_conservation_witness :
    SeparateForms demoCrypto
        ((Blockchain.new demoCrypto 0).run demoCrypto demoDyadicCalls).chain
      ∧ ExactAmounts 2 ((Blockchain.new demoCrypto 0).run demoCrypto demoDyadicCalls).chain
      ∧ doubleSum ((chainEndpoints
            ((Blockchain.new demoCrypto 0).run demoCrypto demoDyadicCalls).chain).map
          (fun e => ((Blockchain.new demoCrypto 0).run demoCrypto
            demoDyadicCalls).getBalanceDouble demoCrypto (.str e)))
        = mintTotalDouble (chainTransactions
            ((Blockchain.new demoCrypto 0).run demoCrypto demoDyadicCalls).chain)
      ∧ mintTotalDouble (chainTransactions
            ((Blockchain.new demoCrypto 0).run demoCrypto demoDyadicCalls).chain)
        = some (mintTotal (chainTransactions
            ((Blockchain.new demoCrypto 0).run demoCrypto demoDyadicCalls).chain)) :=
  ⟨by unfold SeparateForms; decide!, by unfold ExactAmounts; decide!,
    balance_conservation demoCrypto _ 2 _ (by unfold SeparateForms; decide!)
      (by unfold ExactAmounts; decide!) (List.Perm.refl _)⟩

/-- The condition on the amounts cannot be dropped. After one reward of 10 to `demoKeyA` and
two transfers of 0.1 and 0.2 to `demoKeyB` the endpoints are two raw keys, `getBalance` gives
9.700000000000001 and 0.30000000000000004, and their sum is 10.000000000000002, one unit of
the last place above the 10 that were minted. -/
theorem balance_sum_rounding_drift :
    SeparateForms demoCrypto
        ((Blockchain.new demoCrypto 0).run demoCrypto demoDriftCalls).chain
      ∧ ((Blockchain.new demoCrypto 0).run demoCrypto demoDriftCalls).getBalanceDouble
          demoCrypto (.str demoKeyA) = some (5460614548186727 / 562949953421312)
      ∧ ((Blockchain.new demoCrypto 0).run demoCrypto demoDriftCalls).getBalanceDouble
          demoCrypto (.str demoKeyB) = some (1351079888211149 / 4503599627370496)
      ∧ ((Blockchain.new demoCrypto 0).run demoCrypto demoDriftCalls).endpointBalanceSumDouble
          demoCrypto = some (10 + 1 / 2 ^ 49)
      ∧ mintTotalDouble (chainTransactions
          ((Blockchain.new demoCrypto 0).run demoCrypto demoDriftCalls).chain) = some 10 :=
  ⟨by unfold SeparateForms; decide!, by decide!, by decide!, by decide!, by decide!⟩

/-- Roundings at the edges of binary64: a tie goes to the even significand, the largest
finite number stays, half a unit more is `Infinity`, the least positive number stays, half
of it is 0, and one and a half of it is twice it. -/
theorem roundDouble_samples :
    roundDouble 9007199254740993 = some 9007199254740992
      ∧ roundDouble 9007199254740995 = some 9007199254740996
      ∧ roundDouble (-(1 / 10)) = some (-(3602879701896397 / 36028797018963968))
      ∧ roundDouble (pow2 1024 - pow2 971) = some (pow2 1024 - pow2 971)
      ∧ roundDouble (pow2 1024 - pow2 970) = none
      ∧ roundDouble (pow2 (-1074)) = some (pow2 (-1074))
      ∧ roundDouble (pow2 (-1075)) = some 0
      ∧ roundDouble (3 * pow2 (-1075)) = some (pow2 (-1073)) := by
  decide!

/-- The JavaScript numbers nearest to 0.1 and 0.2, and their sum as the engine rounds it. -/
theorem roundDouble_tenth :
    roundDouble (1 / 10) = some (3602879701896397 / 36028797018963968)
      ∧ roundDouble (1 / 5) = some (3602879701896397 / 18014398509481984)
      ∧ doubleAdd (roundDouble (1 / 10)) (roundDouble (1 / 5))
        = some (1351079888211149 / 4503599627370496) := by
  decide!

/-! ## Ledger: evaluations of the balance and supply checks -/

/-- C3. Double spend through the pending queue. With one reward of 10 in the chain, two
signed transfers of 10 from the same sender (nonces 0 and 1) are both admitted, because
the balance check of `addTransaction` reads the chain only; once committed the sender
holds -10. -/
theorem double_spend_negative_balance :
    demoFunded.getBalance demoCrypto (.str demoKeyA) = 10
      ∧ (demoFunded.addTransaction demoCrypto (demoTransfer 10 0)).1.toBool = true
      ∧ ((demoFunded.addTransaction demoCrypto (demoTransfer 10 0)).2.addTransaction demoCrypto
          (demoTransfer 10 1)).1.toBool = true
      ∧ ((Blockchain.new demoCrypto 0).run demoCrypto demoDoubleSpendCalls).getBalance
          demoCrypto (.str demoKeyA) = -10 := by
  decide!

/-- C4. A mint transaction submitted by a client. `new Transaction(null, demoKeyA, 50)` is
admitted by `addTransaction` on a fresh ledger without any debit of `currentMoney`, so the
minted amount plus the remaining supply is 1000050, above the initial supply. -/
theorem client_mint_exceeds_supply :
    (Transaction.new demoCrypto none demoKeyA 50 7).toOption = some demoMint
      ∧ ((Blockchain.new demoCrypto 0).addTransaction demoCrypto demoMint).1.toBool = true
      ∧ (((Blockchain.new demoCrypto 0).run demoCrypto [.addTransaction demoMint]).mintedAmount
          + ((Blockchain.new demoCrypto 0).run demoCrypto [.addTransaction demoMint]).currentMoney)
          = 1000050
      ∧ ((Blockchain.new demoCrypto 0).run demoCrypto [.addTransaction demoMint]).maxSupply
          = 1000000 := by
  decide!

/-! ## Ledger: isValid looks at block headers only -/

theorem calcHash_sameHeader (c : Crypto) (b b' : Block) (h : sameHeader b b') :
    b.calcHash c = b'.calcHash c := by
  obtain ⟨h1, h2, h3, _⟩ := h
  simp [Block.calcHash, h1, h2, h3]

theorem isValidFrom_sameHeader (c : Crypto) (l l' : List Block) (prev prev' : Block)
    (hp : prev.hash = prev'.hash) (h : List.Forall₂ sameHeader l l') :
    isValidFrom c prev l = isValidFrom c prev' l' := by
  induction h generalizing prev prev' with
  | nil => rfl
  | @cons b b' rest rest' hb _ ih =>
    have hc := calcHash_sameHeader c b b' hb
    obtain ⟨_, h2, _, h4⟩ := hb
    simp only [isValidFrom, hc, h2, h4, hp]
    rw [ih b b' h4]

theorem forall₂_sameHeader_refl (l : List Block) : List.Forall₂ sameHeader l l := by
  induction l with
  | nil => exact List.Forall₂.nil
  | cons b rest ih => exact List.Forall₂.cons ⟨rfl, rfl, rfl, rfl⟩ ih

theorem tamperChain_sameHeader (l : List Block) (i j : Nat) (amount : ℚ) :
    List.Forall₂ sameHeader l (tamperChain l i j amount) := by
  induction l generalizing i with
  | nil => exact List.Forall₂.nil
  | cons b rest ih =>
    cases i with
    | zero => exact List.Forall₂.cons ⟨rfl, rfl, rfl, rfl⟩ (forall₂_sameHeader_refl rest)
    | succ k => exact List.Forall₂.cons ⟨rfl, rfl, rfl, rfl⟩ (ih k)

/-- C10, as the program behaves. Overwriting the amount of any transaction of any block,
without recomputing the block hash, leaves the result of `isValid()` as it was: the block
hash covers `timestamp`, `prevHash` and `nonce` only, so a valid chain stays valid. -/
theorem isValid_tamperAmount (c : Crypto) (s : Blockchain) (i j : Nat) (amount : ℚ) :
    (s.tamperAmount i j amount).isValid c = s.isValid c := by
  have h := tamperChain_sameHeader s.chain i j amount
  simp only [Blockchain.isValid, Blockchain.tamperAmount]
  generalize tamperChain s.chain i j amount = l' at h
  generalize s.chain = l at h
  cases h with
  | nil => rfl
  | cons hb hrest => exact (isValidFrom_sameHeader c _ _ _ _ hb.2.2.2 hrest).symm

/-- C10 fails as stated. In the chain of `demoFunded`, valid for `isValid()`, the reward of 10
stored in block 2 is overwritten with 1000; the transaction did change and `isValid()` still
returns `true`. -/
theorem tamper_amount_not_detected :
    demoFunded.isValid demoCrypto = true
      ∧ (demoFunded.chain.map (fun b => b.transactions.map (fun t => t.amount)))
          = [[], [], [10]]
      ∧ ((demoFunded.tamperAmount 2 0 1000).chain.map
          (fun b => b.transactions.map (fun t => t.amount))) = [[], [], [1000]]
      ∧ (demoFunded.tamperAmount 2 0 1000).isValid demoCrypto = true := by
  decide!

/-! ## Mnemonic seed: digit strings -/

theorem readsDigits_hex : ReadsDigits 16 hexDigitVal := fun d h => hexDigitVal_digitChar d h

theorem readsDigits_bin : ReadsDigits 2 binDigitVal := by
  intro d h
  interval_cases d <;> rfl

theorem parseDigits_toDigitsCore (b : Nat) (digit : Char → Option Nat) (hb : 2 ≤ b)
    (hd : ReadsDigits b digit) (fuel n : Nat) (ds : List Char) (hf : n < fuel) :
    parseDigits b digit (Nat.toDigitsCore b fuel n ds) 0 = parseDigits b digit ds n := by
  induction fuel generalizing n ds with
  | zero => omega
  | succ f ih =>
    simp only [Nat.toDigitsCore]
    have hmod : n % b < b := Nat.mod_lt _ (by omega)
    split
    · rename_i h0
      have hn : n < b := by
        by_contra hge
        have : 0 < n / b := Nat.div_pos (by omega) (by omega)
        omega
      have hdn := hd n hn
      simp only [parseDigits, Nat.mod_eq_of_lt hn, hdn, Nat.zero_mul, Nat.zero_add]
    · rename_i h0
      have hlt : n / b < f := by
        have : n / b < n := Nat.div_lt_self (by
          by_contra h; have : n = 0 := by omega
          subst this; simp at h0) (by omega)
        omega
      rw [ih (n / b) _ hlt]
      simp only [parseDigits, hd _ hmod, Nat.div_add_mod']

theorem parseDigits_toDigits (b : Nat) (digit : Char → Option Nat) (hb : 2 ≤ b)
    (hd : ReadsDigits b digit) (n : Nat) :
    parseDigits b digit (Nat.toDigits b n) 0 = some n := by
  unfold Nat.toDigits
  rw [parseDigits_toDigitsCore b digit hb hd (n + 1) n [] (by omega)]
  rfl

theorem parseDigits_padStart (b : Nat) (digit : Char → Option Nat) (hb : 2 ≤ b)
    (hd : ReadsDigits b digit) (w : Nat) (s : List Char) :
    parseDigits b digit (padStart w s) 0 = parseDigits b digit s 0 := by
  unfold padStart
  generalize w - s.length = k
  induction k with
  | zero => simp
  | succ j ih =>
    have h0 : digit '0' = some 0 := hd 0 (by omega)
    simp only [List.replicate_succ, List.cons_append, parseDigits, h0, Nat.zero_mul,
      Nat.zero_add]
    exact ih

theorem padStart_toDigits_length (b w n : Nat) (hb : 2 ≤ b) (hw : 0 < w) (hn : n < b ^ w) :
    (padStart w (Nat.toDigits b n)).length = w := by
  have := Nat.toDigitsCore_length b hb (n + 1) n w hn hw
  unfold padStart Nat.toDigits
  simp only [List.length_append, List.length_replicate]
  omega

theorem toDigitsCore_isDigit (b : Nat) (hb : 2 ≤ b) (fuel n : Nat) (ds : List Char)
    (hds : ∀ ch ∈ ds, IsDigitOf b ch) :
    ∀ ch ∈ Nat.toDigitsCore b fuel n ds, IsDigitOf b ch := by
  induction fuel generalizing n ds with
  | zero => simpa [Nat.toDigitsCore] using hds
  | succ f ih =>
    have hmod : n % b < b := Nat.mod_lt _ (by omega)
    have hcons : ∀ ch ∈ Nat.digitChar (n % b) :: ds, IsDigitOf b ch := by
      intro ch hch
      rcases List.mem_cons.mp hch with h | h
      · exact ⟨n % b, hmod, h⟩
      · exact hds ch h
    simp only [Nat.toDigitsCore]
    split
    · exact hcons
    · exact ih _ _ hcons

theorem padStart_toDigits_isDigit (b w n : Nat) (hb : 2 ≤ b) :
    ∀ ch ∈ padStart w (Nat.toDigits b n), IsDigitOf b ch := by
  intro ch hch
  unfold padStart at hch
  rcases List.mem_append.mp hch with h | h
  · have : ch = '0' := (List.mem_replicate.mp h).2
    exact ⟨0, by omega, this⟩
  · exact toDigitsCore_isDigit b hb _ _ [] (by simp) ch h

theorem parseDigits_acc (b : Nat) (digit : Char → Option Nat) (s : List Char) (acc : Nat) :
    parseDigits b digit s acc
      = (parseDigits b digit s 0).map (fun v => acc * b ^ s.length + v) := by
  induction s generalizing acc with
  | nil => simp [parseDigits]
  | cons ch rest ih =>
    simp only [parseDigits]
    cases hdig : digit ch with
    | none => simp
    | some d =>
      simp only []
      rw [ih (acc * b + d), ih (0 * b + d)]
      cases parseDigits b digit rest 0 with
      | none => simp
      | some v =>
        simp only [Option.map_some', Option.some.injEq, List.length_cons]
        ring

theorem parseDigits_lt (b : Nat) (digit : Char → Option Nat) (hd : ReadsDigits b digit)
    (s : List Char) (hs : ∀ ch ∈ s, IsDigitOf b ch) (n : Nat)
    (h : parseDigits b digit s 0 = some n) : n < b ^ s.length := by
  induction s generalizing n with
  | nil => simp [parseDigits] at h; subst h; simp
  | cons ch rest ih =>
    obtain ⟨d, hdlt, hch⟩ := hs ch (List.mem_cons_self _ _)
    simp only [parseDigits, hch, hd d hdlt] at h
    rw [parseDigits_acc] at h
    cases hrest : parseDigits b digit rest 0 with
    | none => simp [hrest] at h
    | some v =>
      simp only [hrest, Option.map_some', Option.some.injEq] at h
      have hv := ih (fun x hx => hs x (List.mem_cons_of_mem _ hx)) v hrest
      subst h
      rw [List.length_cons, pow_succ]
      have : (0 * b + d) * b ^ rest.length + v < (d + 1) * b ^ rest.length := by
        rw [Nat.zero_mul, Nat.zero_add, Nat.add_mul, Nat.one_mul]; omega
      calc (0 * b + d) * b ^ rest.length + v < (d + 1) * b ^ rest.length := this
        _ ≤ b * b ^ rest.length := Nat.mul_le_mul_right _ (by omega)
        _ = b ^ rest.length * b := Nat.mul_comm _ _

theorem parseDigits_injective (b : Nat) (digit : Char → Option Nat) (hd : ReadsDigits b digit)
    (s t : List Char) (hlen : s.length = t.length)
    (hs : ∀ ch ∈ s, IsDigitOf b ch) (ht : ∀ ch ∈ t, IsDigitOf b ch) (n : Nat)
    (h1 : parseDigits b digit s 0 = some n) (h2 : parseDigits b digit t 0 = some n) :
    s = t := by
  induction s generalizing t n with
  | nil =>
    cases t with
    | nil => rfl
    | cons _ _ => simp at hlen
  | cons ch rest ih =>
    cases t with
    | nil => simp at hlen
    | cons ch2 rest2 =>
      obtain ⟨d, hdlt, hch⟩ := hs ch (List.mem_cons_self _ _)
      obtain ⟨d2, hdlt2, hch2⟩ := ht ch2 (List.mem_cons_self _ _)
      have hlen2 : rest.length = rest2.length := by simpa using hlen
      simp only [parseDigits, hch, hd d hdlt] at h1
      simp only [parseDigits, hch2, hd d2 hdlt2] at h2
      rw [parseDigits_acc] at h1 h2
      cases hr1 : parseDigits b digit rest 0 with
      | none => simp [hr1] at h1
      | some v1 =>
        cases hr2 : parseDigits b digit rest2 0 with
        | none => simp [hr2] at h2
        | some v2 =>
          simp only [hr1, hr2, Option.map_some', Option.some.injEq, Nat.zero_mul,
            Nat.zero_add] at h1 h2
          have hv1 := parseDigits_lt b digit hd rest
            (fun x hx => hs x (List.mem_cons_of_mem _ hx)) v1 hr1
          have hv2 := parseDigits_lt b digit hd rest2
            (fun x hx => ht x (List.mem_cons_of_mem _ hx)) v2 hr2
          rw [← hlen2] at h2 hv2
          have hpos : 0 < b ^ rest.length := Nat.pos_of_ne_zero (by
            intro h0; rw [h0] at hv1; omega)
          have heq : d * b ^ rest.length + v1 = d2 * b ^ rest.length + v2 := by omega
          have hdd : d = d2 := by
            have e1 : (d * b ^ rest.length + v1) / b ^ rest.length = d := by
              rw [Nat.mul_comm, Nat.mul_add_div hpos, Nat.div_eq_of_lt hv1]; rfl
            have e2 : (d2 * b ^ rest.length + v2) / b ^ rest.length = d2 := by
              rw [Nat.mul_comm, Nat.mul_add_div hpos, Nat.div_eq_of_lt hv2]; rfl
            rw [← e1, ← e2, heq]
          subst hdd
          have hvv : v1 = v2 := by omega
          subst hvv
          rw [hch, hch2]
          congr 1
          exact ih rest2 hlen2 (fun x hx => hs x (List.mem_cons_of_mem _ hx))
            (fun x hx => ht x (List.mem_cons_of_mem _ hx)) v1 hr1 hr2

/-- Writing the value of a fixed-width digit string again gives the string. -/
theorem padStart_toDigits_parseDigits (b : Nat) (digit : Char → Option Nat) (hb : 2 ≤ b)
    (hd : ReadsDigits b digit) (s : List Char) (hpos : 0 < s.length)
    (hs : ∀ ch ∈ s, IsDigitOf b ch) (n : Nat) (h : parseDigits b digit s 0 = some n) :
    padStart s.length (Nat.toDigits b n) = s := by
  have hn := parseDigits_lt b digit hd s hs n h
  apply parseDigits_injective b digit hd _ _ (padStart_toDigits_length b _ n hb hpos hn)
    (padStart_toDigits_isDigit b _ n hb) hs n
  · rw [parseDigits_padStart b digit hb hd, parseDigits_toDigits b digit hb hd]
  · exact h

/-! ### The mnemonic seed codec -/

theorem isDigitOf_lowerHex (ch : Char) (h : ch ∈ lowerHexDigits) : IsDigitOf 16 ch := by
  simp only [lowerHexDigits, List.mem_cons, List.mem_singleton] at h
  have hnil : ch ∉ ([] : List Char) := List.not_mem_nil ch
  rcases h with h | h | h | h | h | h | h | h | h | h | h | h | h | h | h | h | h
  · exact ⟨0, by omega, h⟩
  · exact ⟨1, by omega, h⟩
  · exact ⟨2, by omega, h⟩
  · exact ⟨3, by omega, h⟩
  · exact ⟨4, by omega, h⟩
  · exact ⟨5, by omega, h⟩
  · exact ⟨6, by omega, h⟩
  · exact ⟨7, by omega, h⟩
  · exact ⟨8, by omega, h⟩
  · exact ⟨9, by omega, h⟩
  · exact ⟨10, by omega, h⟩
  · exact ⟨11, by omega, h⟩
  · exact ⟨12, by omega, h⟩
  · exact ⟨13, by omega, h⟩
  · exact ⟨14, by omega, h⟩
  · exact ⟨15, by omega, h⟩
  · exact absurd h hnil

theorem groupsOfEleven_spec (m : Nat) (l : List Char) (hlen : l.length = 11 * m) :
    (groupsOfEleven l).length = m ∧ (groupsOfEleven l).flatten = l
      ∧ ∀ g ∈ groupsOfEleven l, g.length = 11 ∧ ∀ ch ∈ g, ch ∈ l := by
  induction m generalizing l with
  | zero =>
    have : l = [] := List.length_eq_zero.mp (by simpa using hlen)
    subst this
    simp [groupsOfEleven]
  | succ k ih =>
    iterate 11
      rcases l with _ | ⟨_, l⟩
      · exfalso; simp only [List.length_cons, List.length_nil] at hlen; omega
    have hl : l.length = 11 * k := by
      simp only [List.length_cons] at hlen; omega
    obtain ⟨h1, h2, h3⟩ := ih l hl
    simp only [groupsOfEleven, List.length_cons, h1, List.flatten_cons, h2, List.cons_append,
      List.nil_append, List.mem_cons, true_and]
    intro g hg
    rcases hg with hg | hg
    · subst hg
      refine ⟨rfl, fun ch hch => ?_⟩
      simp only [List.mem_cons, List.mem_singleton, List.not_mem_nil, or_false] at hch
      tauto
    · obtain ⟨hg1, hg2⟩ := h3 g hg
      refine ⟨hg1, fun ch hch => ?_⟩
      have := hg2 ch hch
      tauto

theorem binDigitVal_of_isDigit (ch : Char) (h : IsDigitOf 2 ch) :
    ∃ d, d < 2 ∧ binDigitVal ch = some d := by
  obtain ⟨d, hd, rfl⟩ := h
  exact ⟨d, hd, readsDigits_bin d hd⟩

theorem parseIntBin_some (s : List Char) (hs : ∀ ch ∈ s, IsDigitOf 2 ch) (a : Nat) :
    parseIntBin s (some a) = parseDigits 2 binDigitVal s a := by
  induction s generalizing a with
  | nil => rfl
  | cons ch rest ih =>
    obtain ⟨d, _, hd⟩ := binDigitVal_of_isDigit ch (hs ch (List.mem_cons_self _ _))
    simp only [parseIntBin, parseDigits, hd, Option.getD_some]
    exact ih (fun x hx => hs x (List.mem_cons_of_mem _ hx)) _

theorem parseIntBin_none (s : List Char) (hs : ∀ ch ∈ s, IsDigitOf 2 ch) (hne : s ≠ []) :
    parseIntBin s none = parseDigits 2 binDigitVal s 0 := by
  cases s with
  | nil => exact absurd rfl hne
  | cons ch rest =>
    obtain ⟨d, _, hd⟩ := binDigitVal_of_isDigit ch (hs ch (List.mem_cons_self _ _))
    simp only [parseIntBin, parseDigits, hd, Option.getD_none]
    exact parseIntBin_some rest (fun x hx => hs x (List.mem_cons_of_mem _ hx)) _

theorem parseDigits_isSome (b : Nat) (digit : Char → Option Nat) (hd : ReadsDigits b digit)
    (s : List Char) (hs : ∀ ch ∈ s, IsDigitOf b ch) (acc : Nat) :
    ∃ n, parseDigits b digit s acc = some n := by
  induction s generalizing acc with
  | nil => exact ⟨acc, rfl⟩
  | cons ch rest ih =>
    obtain ⟨d, hdlt, hch⟩ := hs ch (List.mem_cons_self _ _)
    simp only [parseDigits, hch, hd d hdlt]
    exact ih (fun x hx => hs x (List.mem_cons_of_mem _ hx)) _

theorem indexOfWord_get (dictionary : List String) (hnd : dictionary.Nodup) (v : Nat)
    (w : String) (h : dictionary.get? v = some w) (i : Nat) :
    indexOfWord dictionary w i = some (i + v) := by
  induction dictionary generalizing v i with
  | nil => simp at h
  | cons x rest ih =>
    rw [List.nodup_cons] at hnd
    cases v with
    | zero =>
      simp only [List.get?_cons_zero, Option.some.injEq] at h
      simp [indexOfWord, h]
    | succ u =>
      simp only [List.get?_cons_succ] at h
      have hmem : w ∈ rest := List.get?_mem h
      have hne : x ≠ w := fun heq => hnd.1 (heq ▸ hmem)
      simp only [indexOfWord, hne, if_false]
      rw [ih hnd.2 u h (i + 1)]
      congr 1
      omega

theorem wordsToBits_wordsOfGroups (dictionary : List String) (hlen : 2048 ≤ dictionary.length)
    (hnd : dictionary.Nodup) (groups : List (List Char))
    (hg : ∀ g ∈ groups, g.length = 11 ∧ ∀ ch ∈ g, IsDigitOf 2 ch) :
    wordsToBits dictionary (wordsOfGroups dictionary groups) = .ok groups.flatten := by
  induction groups with
  | nil => rfl
  | cons g rest ih =>
    obtain ⟨hg1, hg2⟩ := hg g (List.mem_cons_self _ _)
    have hne : g ≠ [] := by
      intro h; rw [h] at hg1; simp at hg1
    obtain ⟨v, hv⟩ := parseDigits_isSome 2 binDigitVal readsDigits_bin g hg2 0
    have hvlt := parseDigits_lt 2 binDigitVal readsDigits_bin g hg2 v hv
    rw [hg1] at hvlt
    have hvd : v < dictionary.length := by
      have : (2 : Nat) ^ 11 = 2048 := by norm_num
      omega
    obtain ⟨w, hw⟩ : ∃ w, dictionary.get? v = some w :=
      ⟨dictionary.get ⟨v, hvd⟩, List.get?_eq_get hvd⟩
    have hidx := indexOfWord_get dictionary hnd v w hw 0
    have hback : padStart 11 (toStringRadix 2 v) = g := by
      have := padStart_toDigits_parseDigits 2 binDigitVal (by omega) readsDigits_bin g
        (by omega) hg2 v hv
      rw [hg1] at this
      exact this
    simp only [wordsOfGroups, List.map_cons, parseIntBin_none g hg2 hne, hv, hw]
    have ih2 := ih (fun x hx => hg x (List.mem_cons_of_mem _ hx))
    simp only [wordsOfGroups] at ih2
    simp only [wordsToBits, ih2, List.flatten_cons]
    have hb : ((some w).bind fun w => indexOfWord dictionary w 0) = some v := by
      simpa using hidx
    rw [hb]
    simp only [hback]

theorem generateMnemonicSeed_eq (c : Crypto) (dictionary : List String) (k : String)
    (bits : List Char) (hbits : privateKeyToBits k.data = some bits)
    (hne : groupsOfEleven
      (bits ++ padStart 8 (toStringRadix 2 (firstByte (c.sha256 (hexToBytes k.data))))) ≠ []) :
    generateMnemonicSeed c dictionary k
      = .ok (wordsOfGroups dictionary (groupsOfEleven
          (bits ++ padStart 8 (toStringRadix 2 (firstByte (c.sha256 (hexToBytes k.data))))))) := by
  unfold generateMnemonicSeed
  rw [hbits]
  dsimp only
  split
  · rename_i h; exact absurd h hne
  · rfl

/-- C7, as the program behaves. For every word list of at least 2048 pairwise distinct words
and every private key given as 64 lower-case hexadecimal digits, `generateMnemonicSeed` yields
exactly 24 words and `privateKeyFromMnemonicSeed` gives the key back. -/
theorem mnemonic_round_trip (c : Crypto) (dictionary : List String) (k : String)
    (hlen : 2048 ≤ dictionary.length) (hnd : dictionary.Nodup)
    (hk : k.length = 64) (hhex : ∀ ch ∈ k.data, ch ∈ lowerHexDigits) :
    ∃ words, generateMnemonicSeed c dictionary k = .ok words ∧ words.length = 24
      ∧ privateKeyFromMnemonicSeed dictionary words = .ok k := by
  have hkd : k.data.length = 64 := hk
  have hdig : ∀ ch ∈ k.data, IsDigitOf 16 ch := fun ch h => isDigitOf_lowerHex ch (hhex ch h)
  obtain ⟨v, hv⟩ := parseDigits_isSome 16 hexDigitVal readsDigits_hex k.data hdig 0
  have hvlt : v < 2 ^ 256 := by
    have := parseDigits_lt 16 hexDigitVal readsDigits_hex k.data hdig v hv
    rw [hkd] at this
    calc v < 16 ^ 64 := this
      _ = 2 ^ 256 := by norm_num
  have hne : k.data ≠ [] := by
    intro h; rw [h] at hkd; simp at hkd
  have htake : ¬ k.data.take 2 = ['0', 'x'] := by
    intro h
    have hx : 'x' ∈ k.data := by
      have : 'x' ∈ k.data.take 2 := by rw [h]; simp
      exact List.mem_of_mem_take this
    have := hhex 'x' hx
    revert this
    decide
  have hbits : privateKeyToBits k.data = some (padStart 256 (Nat.toDigits 2 v)) := by
    simp only [privateKeyToBits, htake, if_false, bigIntOfHex, hne, hv, Option.map_some',
      toStringRadix]
  have hbl : (padStart 256 (Nat.toDigits 2 v)).length = 256 :=
    padStart_toDigits_length 2 256 v (by omega) (by omega) hvlt
  have hbyte : firstByte (c.sha256 (hexToBytes k.data)) < 2 ^ 8 := by
    unfold firstByte
    exact Nat.mod_lt _ (by norm_num)
  have hcl : (padStart 8 (toStringRadix 2 (firstByte (c.sha256 (hexToBytes k.data))))).length
      = 8 := padStart_toDigits_length 2 8 _ (by omega) (by omega) hbyte
  have hfull_len : (padStart 256 (Nat.toDigits 2 v)
      ++ padStart 8 (toStringRadix 2 (firstByte (c.sha256 (hexToBytes k.data))))).length
      = 11 * 24 := by
    rw [List.length_append, hbl, hcl]
  have hfull_dig : ∀ ch ∈ padStart 256 (Nat.toDigits 2 v)
      ++ padStart 8 (toStringRadix 2 (firstByte (c.sha256 (hexToBytes k.data)))),
      IsDigitOf 2 ch := by
    intro ch hch
    rcases List.mem_append.mp hch with h | h
    · exact padStart_toDigits_isDigit 2 _ _ (by omega) ch h
    · exact padStart_toDigits_isDigit 2 _ _ (by omega) ch h
  obtain ⟨hg1, hg2, hg3⟩ := groupsOfEleven_spec 24 _ hfull_len
  have hgne : groupsOfEleven (padStart 256 (Nat.toDigits 2 v)
      ++ padStart 8 (toStringRadix 2 (firstByte (c.sha256 (hexToBytes k.data))))) ≠ [] := by
    intro h; rw [h] at hg1; simp at hg1
  refine ⟨_, generateMnemonicSeed_eq c dictionary k _ hbits hgne, ?_, ?_⟩
  · simp only [wordsOfGroups, List.length_map, hg1]
  · have hw := wordsToBits_wordsOfGroups dictionary hlen hnd _
      (fun g hg => ⟨(hg3 g hg).1, fun ch hch => hfull_dig ch ((hg3 g hg).2 ch hch)⟩)
    rw [hg2] at hw
    have htk : (padStart 256 (Nat.toDigits 2 v)
        ++ padStart 8 (toStringRadix 2 (firstByte (c.sha256 (hexToBytes k.data))))).take 256
        = padStart 256 (Nat.toDigits 2 v) := by
      exact List.take_left' hbl
    have hbne : padStart 256 (Nat.toDigits 2 v) ≠ [] := by
      intro h; rw [h] at hbl; simp at hbl
    have hparse : bigIntOfBin (padStart 256 (Nat.toDigits 2 v)) = some v := by
      simp only [bigIntOfBin, hbne, if_false]
      rw [parseDigits_padStart 2 binDigitVal (by omega) readsDigits_bin,
        parseDigits_toDigits 2 binDigitVal (by omega) readsDigits_bin]
    have hback : padStart 64 (toStringRadix 16 v) = k.data := by
      have := padStart_toDigits_parseDigits 16 hexDigitVal (by omega) readsDigits_hex k.data
        (by omega) hdig v hv
      rw [hkd] at this
      exact this
    simp only [privateKeyFromMnemonicSeed, hw, htk, hparse, hback]

theorem demoDictionary_nodup : demoDictionary.Nodup := by
  unfold demoDictionary
  apply List.Nodup.map_on _ (List.nodup_range 2048)
  intro x _ y _ hxy
  have h : padStart 11 (toStringRadix 2 x) = padStart 11 (toStringRadix 2 y) := by
    injection hxy
  have hx : parseDigits 2 binDigitVal (padStart 11 (toStringRadix 2 x)) 0 = some x := by
    rw [parseDigits_padStart 2 binDigitVal (by omega) readsDigits_bin]
    exact parseDigits_toDigits 2 binDigitVal (by omega) readsDigits_bin x
  have hy : parseDigits 2 binDigitVal (padStart 11 (toStringRadix 2 y)) 0 = some y := by
    rw [parseDigits_padStart 2 binDigitVal (by omega) readsDigits_bin]
    exact parseDigits_toDigits 2 binDigitVal (by omega) readsDigits_bin y
  rw [h, hy] at hx
  injection hx with hx
  exact hx.symm

/-- C7 fails as stated. The key `demoUpperKey` is 64 hexadecimal digits (all accepted by
`BigInt` and `Buffer.from`), the word list has 2048 distinct words, and the round trip returns
the lower-case string `demoLowerKey`, which is not the string that was encoded. -/
theorem mnemonic_upper_case_not_restored :
    2048 ≤ demoDictionary.length ∧ demoDictionary.Nodup ∧ demoUpperKey.length = 64
      ∧ (∀ ch ∈ demoUpperKey.data, (hexDigitVal ch).isSome = true)
      ∧ mnemonicRoundTrip demoCrypto demoDictionary demoUpperKey = some demoLowerKey
      ∧ demoLowerKey ≠ demoUpperKey :=
  ⟨by decide!, demoDictionary_nodup, by decide!, by decide!, by decide!, by decide!⟩

/-- The lower-case key `demoLowerKey` and the word list `demoDictionary` meet the hypotheses of
`mnemonic_round_trip`. -/
theorem mnemonic_round_trip_witness :
    ∃ words, generateMnemonicSeed demoCrypto demoDictionary demoLowerKey = .ok words
      ∧ words.length = 24
      ∧ privateKeyFromMnemonicSeed demoDictionary words = .ok demoLowerKey :=
  mnemonic_round_trip demoCrypto demoDictionary demoLowerKey (by decide!) demoDictionary_nodup
    (by decide!) (by decide!)

/-! ## Ledger: atomicity and batching -/

/-- C11. `addTransaction` is atomic on rejection: whenever it throws (a second pending mint, a
failed or throwing validation, a bad address shape, an amount outside the open interval, not
enough funds, a wrong nonce), the ledger after the call is the ledger before it: chain, pending
queue, nonce table and every parameter. -/
theorem addTransaction_atomic (c : Crypto) (s : Blockchain) (tx : Transaction) (e : String)
    (h : (s.addTransaction c tx).1 = .error e) :
    (s.addTransaction c tx).2 = s := by
  rcases addTransaction_spec c tx s with ⟨e1, h1⟩ | ⟨h1, _⟩
  · rw [h1]
  · rw [h1] at h; cases h

/-- A transfer with the nonce 5 is rejected by the funded demo ledger, which expects 0, and
`addTransaction_atomic` applies. -/
theorem addTransaction_atomic_witness :
    (demoFunded.addTransaction demoCrypto (demoTransfer 10 5)).1 = .error "Invalid nonce"
      ∧ (demoFunded.addTransaction demoCrypto (demoTransfer 10 5)).2 = demoFunded :=
  ⟨by decide!, addTransaction_atomic demoCrypto demoFunded (demoTransfer 10 5) "Invalid nonce"
    (by decide!)⟩

theorem take_min_length {α : Type} (l : List α) (m : Nat) :
    l.take (min l.length m) = l.take m := by
  rcases Nat.le_total l.length m with h | h
  · rw [Nat.min_eq_left h, List.take_of_length_le h, List.take_of_length_le (le_refl _)]
  · rw [Nat.min_eq_right h]

theorem drop_min_length {α : Type} (l : List α) (m : Nat) :
    l.drop (min l.length m) = l.drop m := by
  rcases Nat.le_total l.length m with h | h
  · rw [Nat.min_eq_left h, List.drop_of_length_le h, List.drop_of_length_le (le_refl _)]
  · rw [Nat.min_eq_right h]

/-- C13. FIFO batching. A successful `commitTransactions()` appends exactly one block to the
chain, all earlier blocks being kept; the block has the hash of the previous tip as `prevHash`,
nonce 0 and `mined = false`, and its transactions are the first `min(n, m)` pending transactions
in queue order (`n` pending, `m = maxTransactionsPerBlock`); the queue afterwards holds the
remaining `n - min(n, m)` transactions in their order. -/
theorem commitTransactions_fifo (c : Crypto) (now : Nat) (s : Blockchain)
    (h : (s.commitTransactions c now).1 = .ok ()) :
    ∃ tip block, s.chain.getLast? = some tip
      ∧ (s.commitTransactions c now).2.chain = s.chain ++ [block]
      ∧ block.prevHash = tip.hash ∧ block.nonce = 0 ∧ block.mined = false
      ∧ block.transactions
          = s.pendingTransactions.take
              (min s.pendingTransactions.length s.maxTransactionsPerBlock)
      ∧ (s.commitTransactions c now).2.pendingTransactions
          = s.pendingTransactions.drop
              (min s.pendingTransactions.length s.maxTransactionsPerBlock)
      ∧ (s.commitTransactions c now).2.pendingTransactions.length
          = s.pendingTransactions.length
            - min s.pendingTransactions.length s.maxTransactionsPerBlock := by
  obtain ⟨tip, n, h1, _, _, h4⟩ := commitTransactions_ok c now s h
  refine ⟨tip, _, h1, by rw [h4], rfl, rfl, rfl, ?_, ?_, ?_⟩
  · simp only [Block.assemble, take_min_length]
  · rw [h4, drop_min_length]
  · rw [h4, List.length_drop]
    rcases Nat.le_total s.pendingTransactions.length s.maxTransactionsPerBlock with hle | hle
    · rw [Nat.min_eq_left hle]; omega
    · rw [Nat.min_eq_right hle]

/-- The double-spend scenario before its commit: two transfers are pending, the commit
succeeds and `commitTransactions_fifo` applies. -/
theorem commitTransactions_fifo_witness :
    ((demoFunded.addTransaction demoCrypto (demoTransfer 10 0)).2.commitTransactions
        demoCrypto 4).1 = .ok ()
      ∧ ∃ tip block, (demoFunded.addTransaction demoCrypto (demoTransfer 10 0)).2.chain.getLast?
            = some tip
          ∧ ((demoFunded.addTransaction demoCrypto (demoTransfer 10 0)).2.commitTransactions
              demoCrypto 4).2.chain
            = (demoFunded.addTransaction demoCrypto (demoTransfer 10 0)).2.chain ++ [block]
          ∧ block.prevHash = tip.hash ∧ block.nonce = 0 ∧ block.mined = false :=
  ⟨by decide!,
    match commitTransactions_fifo demoCrypto 4
        (demoFunded.addTransaction demoCrypto (demoTransfer 10 0)).2 (by decide!) with
    | ⟨tip, block, h1, h2, h3, h4, h5, _⟩ => ⟨tip, block, h1, h2, h3, h4, h5⟩⟩

/-! ## Addresses are fixed-width -/

theorem to62baseLoop_length_eq (k fuel n : Nat) (acc : List Char) (hlo : 62 ^ k ≤ n)
    (hhi : n < 62 ^ (k + 1)) (hf : n ≤ fuel) :
    (to62baseLoop fuel n acc).length = k + 1 + acc.length := by
  induction k generalizing fuel n acc with
  | zero =>
    have hpos : n > 0 := by simpa using hlo
    cases fuel with
    | zero => omega
    | succ f =>
      have hdiv : n / 62 = 0 := Nat.div_eq_of_lt (by simpa using hhi)
      simp only [to62baseLoop, hpos, if_true, hdiv]
      cases f <;> simp [to62baseLoop] <;> omega
  | succ j ih =>
    have hpos : n > 0 := lt_of_lt_of_le (Nat.pow_pos (by decide)) hlo
    cases fuel with
    | zero => omega
    | succ f =>
      have h1 : 62 ^ j ≤ n / 62 := by
        rw [Nat.le_div_iff_mul_le (by decide)]
        rw [pow_succ] at hlo; exact hlo
      have h2 : n / 62 < 62 ^ (j + 1) := by
        rw [Nat.div_lt_iff_lt_mul (by decide)]
        rw [pow_succ] at hhi; exact hhi
      have h3 : n / 62 ≤ f := by
        have : n / 62 < n := Nat.div_lt_self hpos (by decide)
        omega
      simp only [to62baseLoop, hpos, if_true]
      rw [ih f (n / 62) _ h1 h2 h3]
      simp only [List.length_cons]
      omega

theorem to62baseLoop_mem (fuel n : Nat) (acc : List Char)
    (hacc : ∀ ch ∈ acc, ch ∈ base62dictionary) :
    ∀ ch ∈ to62baseLoop fuel n acc, ch ∈ base62dictionary := by
  induction fuel generalizing n acc with
  | zero => simpa [to62baseLoop] using hacc
  | succ f ih =>
    simp only [to62baseLoop]
    split
    · apply ih
      intro ch hch
      rcases List.mem_cons.mp hch with h | h
      · rw [h]
        have hlt : n % 62 < base62dictionary.length := Nat.mod_lt _ (by decide)
        rw [List.getD_eq_getElem _ _ hlt]
        exact List.getElem_mem _
      · exact hacc ch h
    · exact hacc

theorem isBase62Char_of_mem (ch : Char) (h : ch ∈ base62dictionary) : isBase62Char ch = true := by
  revert ch
  decide

theorem parseDigits_ge (b : Nat) (digit : Char → Option Nat) (s : List Char) (acc n : Nat)
    (h : parseDigits b digit s acc = some n) : acc * b ^ s.length ≤ n := by
  rw [parseDigits_acc] at h
  cases hp : parseDigits b digit s 0 with
  | none => simp [hp] at h
  | some v =>
    simp only [hp, Option.map_some', Option.some.injEq] at h
    omega

/-- The number encoded by `generateAddress`: the 25 bytes 0x38, hash160, checksum. -/
theorem rawAddress_value (c : Crypto) (publicKey : String) :
    ∃ v, bigIntOfHex (rawAddress c publicKey) = some v ∧ 62 ^ 33 ≤ v ∧ v < 62 ^ 34 := by
  have hlen := rawAddress_length c publicKey
  have hne : rawAddress c publicKey ≠ [] := by
    intro h; rw [h] at hlen; simp at hlen
  obtain ⟨tail, htail⟩ : ∃ tail, rawAddress c publicKey = '3' :: '8' :: tail := ⟨_, rfl⟩
  have htl : tail.length = 48 := by
    rw [htail] at hlen; simpa using hlen
  have hsome := parseDigits_hex_isSome _ 0 (rawAddress_hex c publicKey)
  obtain ⟨v, hv⟩ := Option.isSome_iff_exists.mp hsome
  refine ⟨v, by simp only [bigIntOfHex, hne, if_false, hv], ?_, ?_⟩
  · rw [htail] at hv
    have h38 : parseDigits 16 hexDigitVal ('3' :: '8' :: tail) 0
        = parseDigits 16 hexDigitVal tail 56 := rfl
    rw [h38] at hv
    have := parseDigits_ge 16 hexDigitVal tail 56 v hv
    rw [htl] at this
    exact le_trans (by norm_num) this
  · rw [htail] at hv
    have h38 : parseDigits 16 hexDigitVal ('3' :: '8' :: tail) 0
        = parseDigits 16 hexDigitVal tail 56 := rfl
    rw [h38] at hv
    have := parseDigits_hex_lt tail 56 v hv
    rw [htl] at this
    exact lt_of_lt_of_le this (by norm_num)

/-- C16. Addresses are fixed-width. For every public key the number that `generateAddress`
encodes (version byte 0x38, hash160, four checksum bytes: fifty hexadecimal digits) lies in
[62^33, 62^34), so the address has exactly 34 characters, each of the alphabet 0-9a-zA-Z, and
passes the length and shape tests of `checkPair`, `isValidAddress` and `getBalance`. -/
theorem generateAddress_fixed_width (c : Crypto) (publicKey : String) :
    (rawAddress c publicKey).length = 50
      ∧ (∃ v, bigIntOfHex (rawAddress c publicKey) = some v ∧ 62 ^ 33 ≤ v ∧ v < 62 ^ 34)
      ∧ (generateAddress c publicKey).length = 34
      ∧ (∀ ch ∈ (generateAddress c publicKey).data, ch ∈ base62dictionary)
      ∧ isAddressShape (generateAddress c publicKey) = true := by
  obtain ⟨v, hv, hlo, hhi⟩ := rawAddress_value c publicKey
  have hgen : generateAddress c publicKey = String.mk (to62baseNat v) := by
    unfold generateAddress
    congr 1
    have : to62base (rawAddress c publicKey) = some (to62baseNat v) := by
      simp only [to62base, hv, Option.map_some']
    simp only [this, Option.get_some]
  have hlen : (to62baseNat v).length = 34 := by
    have := to62baseLoop_length_eq 33 v v [] hlo hhi (le_refl _)
    simpa [to62baseNat] using this
  have hmem : ∀ ch ∈ to62baseNat v, ch ∈ base62dictionary :=
    to62baseLoop_mem v v [] (by simp)
  refine ⟨rawAddress_length c publicKey, ⟨v, hv, hlo, hhi⟩, ?_, ?_, ?_⟩
  · rw [hgen, String.length_mk, hlen]
  · rw [hgen]; exact hmem
  · rw [hgen]
    simp only [isAddressShape, String.length_mk, hlen, decide_True, Bool.true_and,
      List.all_eq_true]
    intro ch hch
    exact isBase62Char_of_mem ch (hmem ch hch)

/-! ## Ledger: difficulty retargeting -/

/-- C17 fails as stated. On a fresh ledger (N = 5) the state after nine calls of `commitMining`
has a chain of 6 blocks and the state after eleven calls a chain of 7 blocks; `adjustDifficulty()`
raises the difficulty on both, and so do the tenth and the twelfth call, which mine the two tips
(the difficulty goes from 1 to 2 and from 2 to 3), although two successive chain heights cannot
both be multiples of 5. -/
theorem retarget_on_successive_blocks :
    (demoMiningRun 9).adjustDifficultyAfterNBlocks = 5
      ∧ (demoMiningRun 9).chain.length = 6 ∧ (demoMiningRun 9).difficulty = 1
      ∧ (demoMiningRun 9).adjustDifficulty.difficulty = 2
      ∧ (demoMiningRun 10).chain.length = 6 ∧ (demoMiningRun 10).difficulty = 2
      ∧ (demoMiningRun 11).chain.length = 7 ∧ (demoMiningRun 11).difficulty = 2
      ∧ (demoMiningRun 11).adjustDifficulty.difficulty = 3
      ∧ (demoMiningRun 12).chain.length = 7 ∧ (demoMiningRun 12).difficulty = 3 := by
  decide!

/-- C17, as the program behaves. `adjustDifficulty()` changes nothing but `difficulty`; it leaves
the ledger as it is while the chain holds at most `N = adjustDifficultyAfterNBlocks` blocks;
on every call with a longer chain it compares the time between the tip and the block `N`
positions before it with `N * targetTimeForBlock`: below nine tenths the difficulty grows by
one, above eleven tenths with `difficulty > 1` it shrinks by one, otherwise it is kept. -/
theorem adjustDifficulty_window (s : Blockchain) :
    (s.chain.length ≤ s.adjustDifficultyAfterNBlocks → s.adjustDifficulty = s)
      ∧ ∀ tip back : Block, s.adjustDifficultyAfterNBlocks < s.chain.length →
          s.chain.getLast? = some tip →
          s.chain.get? (s.chain.length - 1 - s.adjustDifficultyAfterNBlocks) = some back →
          (actualTimeOf tip back
                < (s.adjustDifficultyAfterNBlocks : ℚ) * s.targetTimeForBlock * (9 / 10) →
              s.adjustDifficulty = { s with difficulty := s.difficulty + 1 })
            ∧ (¬ actualTimeOf tip back
                  < (s.adjustDifficultyAfterNBlocks : ℚ) * s.targetTimeForBlock * (9 / 10) →
                actualTimeOf tip back
                  > (s.adjustDifficultyAfterNBlocks : ℚ) * s.targetTimeForBlock * (11 / 10) →
                s.difficulty > 1 →
              s.adjustDifficulty = { s with difficulty := s.difficulty - 1 })
            ∧ (¬ actualTimeOf tip back
                  < (s.adjustDifficultyAfterNBlocks : ℚ) * s.targetTimeForBlock * (9 / 10) →
                ¬ (actualTimeOf tip back
                    > (s.adjustDifficultyAfterNBlocks : ℚ) * s.targetTimeForBlock * (11 / 10)
                  ∧ s.difficulty > 1) →
              s.adjustDifficulty = s) := by
  simp only [actualTimeOf, gt_iff_lt]
  refine ⟨?_, ?_⟩
  · intro h
    unfold Blockchain.adjustDifficulty
    simp only [gt_iff_lt, Nat.not_lt.mpr h, if_false]
  · intro tip back hlen htip hback
    have htip2 : s.getLatestBlock = some tip := htip
    refine ⟨?_, ?_, ?_⟩
    · intro h1
      unfold Blockchain.adjustDifficulty
      simp only [gt_iff_lt, hlen, if_true, htip2, hback]
      rw [if_pos h1]
    · intro h1 h2 h3
      unfold Blockchain.adjustDifficulty
      simp only [gt_iff_lt, hlen, if_true, htip2, hback]
      rw [if_neg h1, if_pos ⟨h2, h3⟩]
    · intro h1 h2
      unfold Blockchain.adjustDifficulty
      simp only [gt_iff_lt, hlen, if_true, htip2, hback]
      rw [if_neg h1, if_neg h2]

/-- The ledger after eleven calls of `commitMining` has seven blocks with timestamps a few
milliseconds apart; `adjustDifficulty_window` gives the increment. -/
theorem adjustDifficulty_window_witness :
    (demoMiningRun 11).adjustDifficultyAfterNBlocks < (demoMiningRun 11).chain.length
      ∧ (demoMiningRun 11).adjustDifficulty
          = { demoMiningRun 11 with difficulty := (demoMiningRun 11).difficulty + 1 } :=
  ⟨by decide!,
    ((adjustDifficulty_window (demoMiningRun 11)).2
      ((demoMiningRun 11).chain.getLast?.getD demoMinedBlock)
      (((demoMiningRun 11).chain.get? 1).getD demoMinedBlock)
      (by decide!) (by decide!) (by decide!)).1 (by decide!)⟩

/-! ## Ledger: one mining step, one mint per block -/

theorem commitBatch_error (c : Crypto) (now : Nat) (txs : List Transaction) (flag : Bool)
    (s : Blockchain) (e : String) (h : (s.commitBatch c now txs flag).1 = .error e) :
    (s.commitBatch c now txs flag).2 = s := by
  rcases commitBatch_spec c now txs flag s with ⟨e1, h1⟩ | ⟨_, _, _, _, _, _, _, h1⟩
  · rw [h1]
  · rw [h1] at h; cases h

/-- The ledger after a `commitTransactions()` that throws: unchanged when the queue fits in one
block, cut by the first `maxTransactionsPerBlock` entries when it does not. -/
theorem commitTransactions_error (c : Crypto) (now : Nat) (s : Blockchain) (e : String)
    (h : (s.commitTransactions c now).1 = .error e) :
    (s.pendingTransactions.length ≤ s.maxTransactionsPerBlock
        ∧ (s.commitTransactions c now).2 = s)
      ∨ (s.maxTransactionsPerBlock < s.pendingTransactions.length
        ∧ (s.commitTransactions c now).2
            = { s with
                pendingTransactions :=
                  s.pendingTransactions.drop s.maxTransactionsPerBlock }) := by
  unfold Blockchain.commitTransactions at h ⊢
  split
  · rename_i hlen
    rw [if_pos hlen] at h
    exact Or.inr ⟨hlen, commitBatch_error c now _ _ _ e h⟩
  · rename_i hlen
    rw [if_neg hlen] at h
    exact Or.inl ⟨by omega, commitBatch_error c now _ _ _ e h⟩

theorem mineBlock_nonce (c : Crypto) (b : Block) (d : Nat) :
    b.nonce ≤ (b.mineBlock c d).2.nonce ∧ (b.mineBlock c d).2.nonce ≤ b.nonce + 1 := by
  unfold Block.mineBlock
  repeat' (first | split | dsimp only)
  all_goals omega

theorem mineBlock_transactions (c : Crypto) (b : Block) (d : Nat) :
    (b.mineBlock c d).2.transactions = b.transactions := by
  unfold Block.mineBlock
  repeat' (first | split | dsimp only)

/-- C18, as the program behaves. With a tip that is mined or is the genesis block (empty
`prevHash`), `commitMining` does what `commitTransactions` does and nothing else: every
existing block is kept as it is, and the chain grows by exactly one block when
`commitTransactions` succeeds and is unchanged when it throws. Otherwise the chain keeps its
length, only the tip is replaced, by the result of one `mineBlock` step, and the nonce of the
tip grows by at most 1. -/
theorem commitMining_one_step (c : Crypto) (minerAddress : String) (now : Nat) (s : Blockchain)
    (tip : Block) (htip : s.chain.getLast? = some tip) :
    ((tip.mined = true ∨ tip.prevHash = "") →
        (s.commitMining c minerAddress now).2 = (s.commitTransactions c now).2
          ∧ ((s.commitTransactions c now).1 = .ok () →
              ∃ block, (s.commitMining c minerAddress now).2.chain = s.chain ++ [block])
          ∧ (∀ e, (s.commitTransactions c now).1 = .error e →
              (s.commitMining c minerAddress now).2.chain = s.chain))
      ∧ (¬ (tip.mined = true ∨ tip.prevHash = "") →
          (s.commitMining c minerAddress now).2.chain
              = s.chain.dropLast ++ [(tip.mineBlock c s.difficulty).2]
            ∧ (s.commitMining c minerAddress now).2.chain.length = s.chain.length
            ∧ tip.nonce ≤ (tip.mineBlock c s.difficulty).2.nonce
            ∧ (tip.mineBlock c s.difficulty).2.nonce ≤ tip.nonce + 1) := by
  have hne : s.chain ≠ [] := by
    intro h; rw [h] at htip; simp at htip
  rcases commitMining_spec c minerAddress now s with ⟨h1, _⟩ | ⟨last, h1, h2, h3⟩
    | ⟨last, h1, h2, h3⟩
  · rw [h1] at htip; cases htip
  · rw [h1] at htip
    injection htip with htip
    subst htip
    refine ⟨fun _ => ⟨h3, ?_, ?_⟩, fun hn => absurd h2 hn⟩
    · intro hok
      obtain ⟨_, _, _, _, _, h4⟩ := commitTransactions_ok c now s hok
      exact ⟨_, by rw [h3, h4]⟩
    · intro e he
      rw [h3]
      rcases commitTransactions_error c now s e he with ⟨_, h4⟩ | ⟨_, h4⟩ <;> rw [h4]
  · rw [h1] at htip
    injection htip with htip
    subst htip
    refine ⟨fun hy => absurd hy h2, fun _ => ⟨h3, ?_, mineBlock_nonce c last s.difficulty⟩⟩
    rw [h3, List.length_append, List.length_dropLast, List.length_singleton]
    have : 0 < s.chain.length := List.length_pos.mpr hne
    omega

theorem mintCount_eq_zero_of_any (txs : List Transaction)
    (h : txs.any (fun t => decide (t.fromAddress = none)) = false) : mintCount txs = 0 := by
  unfold mintCount
  rw [List.countP_eq_zero]
  intro a ha hp
  have : txs.any (fun t => decide (t.fromAddress = none)) = true :=
    List.any_eq_true.mpr ⟨a, ha, hp⟩
  rw [h] at this
  cases this

theorem accepted_oneMintEach (c : Crypto) (tx : Transaction) (s : Blockchain)
    (hacc : s.Accepts c tx) (h : OneMintEach s) : OneMintEach (s.accepted c tx) := by
  refine ⟨?_, h.2⟩
  simp only [Blockchain.accepted, mintCount, List.countP_append, List.countP_cons,
    List.countP_nil, Nat.zero_add]
  cases hf : tx.fromAddress with
  | none =>
    have := mintCount_eq_zero_of_any _ (hacc.2.2.2.2.2.2 hf)
    unfold mintCount at this
    simp [this]
  | some f =>
    have := h.1
    unfold mintCount at this
    simpa using this

theorem addTransaction_oneMintEach (c : Crypto) (tx : Transaction) (s : Blockchain)
    (h : OneMintEach s) : OneMintEach (s.addTransaction c tx).2 := by
  rcases addTransaction_spec c tx s with ⟨e1, h1⟩ | ⟨h1, h2⟩
  · rw [h1]; exact h
  · rw [h1]; exact accepted_oneMintEach c tx s h2 h

theorem commitTransactions_oneMintEach (c : Crypto) (now : Nat) (s : Blockchain)
    (h : OneMintEach s) : OneMintEach (s.commitTransactions c now).2 := by
  have hdrop : mintCount (s.pendingTransactions.drop s.maxTransactionsPerBlock) ≤ 1 :=
    le_trans ((List.drop_sublist _ _).countP_le _) h.1
  have htake : mintCount (s.pendingTransactions.take s.maxTransactionsPerBlock) ≤ 1 :=
    le_trans ((List.take_sublist _ _).countP_le _) h.1
  cases hres : (s.commitTransactions c now).1 with
  | error e =>
    rcases commitTransactions_error c now s e hres with ⟨_, h1⟩ | ⟨_, h1⟩
    · rw [h1]; exact h
    · rw [h1]; exact ⟨hdrop, h.2⟩
  | ok u =>
    obtain ⟨_, _, _, _, _, h4⟩ := commitTransactions_ok c now s hres
    rw [h4]
    refine ⟨hdrop, ?_⟩
    intro b hb
    rcases List.mem_append.mp hb with hb | hb
    · exact h.2 b hb
    · rw [List.mem_singleton] at hb
      rw [hb]
      exact htake

theorem adjustDifficulty_pending (s : Blockchain) :
    s.adjustDifficulty.pendingTransactions = s.pendingTransactions := by
  unfold Blockchain.adjustDifficulty
  repeat' (first | split | dsimp only)

theorem adjustDifficulty_oneMintEach (s : Blockchain) (h : OneMintEach s) :
    OneMintEach s.adjustDifficulty := by
  unfold OneMintEach
  rw [adjustDifficulty_pending, adjustDifficulty_chain]
  exact h

theorem payReward_oneMintEach (c : Crypto) (minerAddress : String) (now : Nat) (s : Blockchain)
    (h : OneMintEach s) : OneMintEach (s.payReward c minerAddress now).2 := by
  unfold Blockchain.payReward
  dsimp only
  repeat' (first | split | dsimp only)
  all_goals first
    | exact h
    | (rename_i hadd
       have e := congrArg Prod.snd hadd
       simp only at e
       subst e
       first
         | exact adjustDifficulty_oneMintEach _ (addTransaction_oneMintEach c _ _ h)
         | exact addTransaction_oneMintEach c _ _ h)

theorem mineTip_oneMintEach (c : Crypto) (s : Blockchain) (last : Block)
    (hlast : s.getLatestBlock = some last) (h : OneMintEach s) :
    OneMintEach { s with chain := s.chain.dropLast ++ [(last.mineBlock c s.difficulty).2] } := by
  refine ⟨h.1, ?_⟩
  intro b hb
  rcases List.mem_append.mp hb with hb | hb
  · exact h.2 b (List.mem_of_mem_dropLast hb)
  · rw [List.mem_singleton] at hb
    rw [hb, mineBlock_transactions]
    exact h.2 last (List.mem_of_mem_getLast? hlast)

theorem commitMining_oneMintEach (c : Crypto) (minerAddress : String) (now : Nat)
    (s : Blockchain) (h : OneMintEach s) : OneMintEach (s.commitMining c minerAddress now).2 := by
  unfold Blockchain.commitMining
  split
  · exact h
  · rename_i last hlast
    split
    · have hct := commitTransactions_oneMintEach c now s h
      split
      · rename_i heq
        have e := congrArg Prod.snd heq
        simp only at e
        rw [← e]; exact hct
      · rename_i heq
        have e := congrArg Prod.snd heq
        simp only at e
        rw [← e]; exact hct
    · dsimp only
      split
      · exact mineTip_oneMintEach c s last hlast h
      · exact payReward_oneMintEach c minerAddress now _ (mineTip_oneMintEach c s last hlast h)

theorem step_oneMintEach (c : Crypto) (s : Blockchain) (call : Call) (h : OneMintEach s) :
    OneMintEach (s.step c call) := by
  cases call with
  | addTransaction tx => exact addTransaction_oneMintEach c tx s h
  | commitTransactions now => exact commitTransactions_oneMintEach c now s h
  | commitMining minerAddress now => exact commitMining_oneMintEach c minerAddress now s h

theorem countCoinbase_eq (c : Crypto) (txs : List Transaction) (k n : Nat)
    (h : countCoinbase c txs k = .ok n) : n = k + mintCount txs := by
  induction txs generalizing k with
  | nil =>
    simp only [countCoinbase] at h
    injection h with h
    simp [mintCount, h]
  | cons x rest ih =>
    unfold countCoinbase at h
    split at h
    · cases h
    · cases h
    · have := ih _ h
      rw [this]
      by_cases hx : x.fromAddress = none
      · simp [mintCount, hx]; omega
      · simp [mintCount, hx]

theorem isValid_error_ne (c : Crypto) (t : Transaction) (e : String)
    (h : t.isValid c = .error e) : e ≠ coinbaseRejection := by
  unfold Transaction.isValid at h
  repeat' (first | split at h | dsimp only at h)
  all_goals (cases h)
  all_goals decide

theorem countCoinbase_error_ne (c : Crypto) (txs : List Transaction) (k : Nat) (e : String)
    (h : countCoinbase c txs k = .error e) : e ≠ coinbaseRejection := by
  induction txs generalizing k with
  | nil => simp [countCoinbase] at h
  | cons x rest ih =>
    unfold countCoinbase at h
    split at h
    · rename_i e1 hx
      injection h with h
      subst h
      exact isValid_error_ne c x _ hx
    · injection h with h
      subst h
      decide
    · exact ih _ h

theorem validTransactions_error_ne (c : Crypto) (txs : List Transaction) (e : String)
    (h : validTransactions c txs = .error e) : e ≠ coinbaseRejection := by
  induction txs with
  | nil => simp [validTransactions] at h
  | cons x rest ih =>
    unfold validTransactions at h
    split at h
    · rename_i e1 hx
      injection h with h
      subst h
      exact isValid_error_ne c x _ hx
    · split at h
      · rename_i e2 hr
        injection h with h
        subst h
        exact ih hr
      · cases h

theorem commitBatch_not_coinbaseRejection (c : Crypto) (now : Nat) (txs : List Transaction)
    (flag : Bool) (s : Blockchain) (h : mintCount txs ≤ 1) :
    (s.commitBatch c now txs flag).1 ≠ .error coinbaseRejection := by
  unfold Blockchain.commitBatch
  split
  · rename_i e he
    intro heq
    injection heq with heq
    exact countCoinbase_error_ne c txs 0 e he heq
  · rename_i n hn
    have hcount := countCoinbase_eq c txs 0 n hn
    split
    · omega
    · split
      · intro heq
        injection heq with heq
        revert heq
        decide
      · split
        · rename_i e he
          intro heq
          injection heq with heq
          unfold Block.new at he
          split at he
          · rename_i e2 hv
            injection he with he
            subst he
            exact validTransactions_error_ne c txs _ hv heq
          · cases he
        · intro heq
          cases heq

/-- C19. At most one mint per block. In every ledger state reached from a fresh ledger by calls
of `addTransaction`, `commitTransactions` and `commitMining`, the pending queue holds at most
one mint transaction and so does every block of the chain; hence the batch that
`commitTransactions` validates never counts more than one mint transaction and the call never
throws the rejection for more than one coinbase. -/
theorem one_mint_per_block (c : Crypto) (s : Blockchain) (h : Reachable c s) :
    mintCount s.pendingTransactions ≤ 1
      ∧ (∀ b ∈ s.chain, mintCount b.transactions ≤ 1)
      ∧ (∀ n, countCoinbase c (s.pendingTransactions.take s.maxTransactionsPerBlock) 0 = .ok n →
          n ≤ 1)
      ∧ ∀ now, (s.commitTransactions c now).1 ≠ .error coinbaseRejection := by
  obtain ⟨now0, calls, rfl⟩ := h
  have hinv : OneMintEach ((Blockchain.new c now0).run c calls) := by
    apply run_induction c OneMintEach (step_oneMintEach c)
    refine ⟨by simp [Blockchain.new, mintCount], ?_⟩
    intro b hb
    have : b = Block.assemble c now0 [] "" := by simpa [Blockchain.new] using hb
    rw [this]
    simp [Block.assemble, mintCount]
  generalize (Blockchain.new c now0).run c calls = s at hinv
  have htake : mintCount (s.pendingTransactions.take s.maxTransactionsPerBlock) ≤ 1 :=
    le_trans ((List.take_sublist _ _).countP_le _) hinv.1
  refine ⟨hinv.1, hinv.2, ?_, ?_⟩
  · intro n hn
    have := countCoinbase_eq c _ 0 n hn
    omega
  · intro now
    unfold Blockchain.commitTransactions
    split
    · exact commitBatch_not_coinbaseRejection c now _ _ _ htake
    · exact commitBatch_not_coinbaseRejection c now _ _ _ hinv.1

/-- The ledger of the double-spend scenario is reachable; `one_mint_per_block` applies. -/
theorem one_mint_per_block_witness :
    Reachable demoCrypto ((Blockchain.new demoCrypto 0).run demoCrypto demoDoubleSpendCalls)
      ∧ mintCount
          ((Blockchain.new demoCrypto 0).run demoCrypto demoDoubleSpendCalls).pendingTransactions
        ≤ 1 :=
  ⟨⟨0, demoDoubleSpendCalls, rfl⟩,
    (one_mint_per_block demoCrypto _ ⟨0, demoDoubleSpendCalls, rfl⟩).1⟩

/-- The funded demo ledger has an unmined tip that is not the genesis block;
`commitMining_one_step` gives the one mining step. -/
theorem commitMining_one_step_witness :
    demoFunded.chain.getLast? = some (demoFunded.chain.getLast?.getD demoMinedBlock)
      ∧ (demoFunded.commitMining demoCrypto demoKeyA 4).2.chain.length = demoFunded.chain.length :=
  ⟨by decide!,
    ((commitMining_one_step demoCrypto demoKeyA 4 demoFunded
      (demoFunded.chain.getLast?.getD demoMinedBlock) (by decide!)).2 (by decide!)).2.1⟩

/-! ## Rounding is idempotent -/

theorem ratFloor_eq_floor (q : ℚ) : Rat.floor q = ⌊q⌋ := rfl

theorem floor_int_add_half (n : ℤ) : Rat.floor ((n : ℚ) + 1 / 2) = n := by
  rw [ratFloor_eq_floor, Int.floor_eq_iff]
  constructor <;> norm_num

/-- Rounding to a fixed number of decimals is idempotent: an amount that `addTransaction` has
rounded once is left as it is by a second rounding. -/
theorem toFixedNumber_idempotent (digits : Nat) (x : ℚ) :
    toFixedNumber digits (toFixedNumber digits x) = toFixedNumber digits x := by
  have hp : (0 : ℚ) < 10 ^ digits := by positivity
  have hne : (10 : ℚ) ^ digits ≠ 0 := ne_of_gt hp
  by_cases hx : 0 ≤ x
  · have hn : 0 ≤ Rat.floor (x * 10 ^ digits + 1 / 2) := by
      rw [ratFloor_eq_floor]
      apply Int.floor_nonneg.mpr
      positivity
    have hy : (0 : ℚ) ≤ (Rat.floor (x * 10 ^ digits + 1 / 2) : ℚ) / 10 ^ digits := by
      apply div_nonneg _ (le_of_lt hp)
      exact_mod_cast hn
    simp only [toFixedNumber, hx, if_true, hy]
    rw [div_mul_cancel₀ _ hne, floor_int_add_half]
  · have hx' : 0 < -x := by linarith [not_le.mp hx]
    have hm : 0 ≤ Rat.floor (-x * 10 ^ digits + 1 / 2) := by
      rw [ratFloor_eq_floor]
      apply Int.floor_nonneg.mpr
      positivity
    rcases eq_or_lt_of_le hm with h0 | hpos
    · simp only [toFixedNumber, hx, if_false, ← h0]
      norm_num
      rw [ratFloor_eq_floor]
      norm_num
    · have hy : ¬ (0 : ℚ) ≤ -((Rat.floor (-x * 10 ^ digits + 1 / 2) : ℚ) / 10 ^ digits) := by
        rw [not_le, neg_lt_zero]
        apply div_pos _ hp
        exact_mod_cast hpos
      simp only [toFixedNumber, hx, if_false, hy, neg_neg]
      rw [div_mul_cancel₀ _ hne, floor_int_add_half]

/-! ## Ledger: a reachable queue longer than a block -/

theorem setNonce_setNonce (m : List (String × Int)) (k : String) (v w : Int) :
    setNonce (setNonce m k v) k w = setNonce m k w := by
  induction m with
  | nil => simp [setNonce]
  | cons kv rest ih =>
    obtain ⟨k1, v1⟩ := kv
    by_cases h : k1 = k
    · simp [setNonce, h]
    · simp [setNonce, h, ih]

theorem isValid_of_verify (c : Crypto) (t : Transaction) (f sig : String) (hp : t.pair = 0)
    (hs : t.signature = some sig) (hl : sig.length ≠ 0) (ha : ¬ t.amount ≤ 0)
    (hh : t.hash ≠ "") (hf : t.fromAddress = some f) (hk : c.keyFromPublic f = true)
    (hv : c.verify f (t.calculateHash c) sig = some true) : t.isValid c = .ok true := by
  unfold Transaction.isValid
  simp [hp, hs, hl, ha, hh, hf, hk, hv]

theorem demoSigned_isValid (n : Int) :
    (demoSigned 1 n).isValid demoHashCrypto = .ok true := by
  have hlen : ((demoUnsigned 1 n).calculateHash demoHashCrypto ++ "sig").length ≠ 0 := by
    rw [String.length_append]
    have : ("sig" : String).length = 3 := by decide
    omega
  apply isValid_of_verify demoHashCrypto (demoSigned 1 n) demoKeyA
    ((demoUnsigned 1 n).calculateHash demoHashCrypto ++ "sig") rfl rfl hlen
  · show ¬ ((1 : ℚ) ≤ 0)
    norm_num
  · show demoDigest ≠ ""
    decide
  · rfl
  · rfl
  · show some (decide ((demoUnsigned 1 n).calculateHash demoHashCrypto ++ "sig"
        = (demoSigned 1 n).calculateHash demoHashCrypto ++ "sig")) = some true
    have hdig : (demoSigned 1 n).calculateHash demoHashCrypto
        = (demoUnsigned 1 n).calculateHash demoHashCrypto := rfl
    rw [hdig]
    simp

theorem demoSigned_isValidAddress (n : Int) :
    (demoSigned 1 n).isValidAddress demoHashCrypto = .ok true := by
  have h : (demoSigned 1 n).isValidAddress demoHashCrypto
      = (demoSigned 1 0).isValidAddress demoHashCrypto := rfl
  rw [h]
  decide!

theorem demoQueued_addTransaction (queue : List Transaction) (nonces : List (String × Int))
    (n : Int) (hn : expectedNonce nonces (generateAddress demoHashCrypto demoKeyA) = n) :
    (demoQueued queue nonces).addTransaction demoHashCrypto (demoSigned 1 n)
      = (.ok (), demoQueued (queue ++ [demoSigned 1 n])
          (setNonce nonces (generateAddress demoHashCrypto demoKeyA) (n + 1))) := by
  have hmin : demoHashPending.minTxAmount = 1 / 100000 := by decide!
  have hmax : demoHashPending.maxTxAmount = 100000 := by decide!
  have hfix : toFixedNumber demoHashPending.maxSymbolsAfterPeriod 1 = 1 := by decide!
  have hbal : demoHashPending.getBalance demoHashCrypto (.str demoKeyA) = 10 := by decide!
  have hbal2 : (demoQueued queue nonces).getBalance demoHashCrypto (.str demoKeyA) = 10 := hbal
  have hsender : senderAddressOf demoHashCrypto demoKeyA
      = generateAddress demoHashCrypto demoKeyA := by
    unfold senderAddressOf
    rw [if_pos (by decide!)]
  have hstored : ({ demoSigned 1 n with
      amount := toFixedNumber (demoQueued queue nonces).maxSymbolsAfterPeriod
        (demoSigned 1 n).amount } : Transaction) = demoSigned 1 n := by
    have : toFixedNumber (demoQueued queue nonces).maxSymbolsAfterPeriod (demoSigned 1 n).amount
        = 1 := hfix
    rw [this]
    rfl
  unfold Blockchain.addTransaction
  have hfrom : (demoSigned 1 n).fromAddress = some demoKeyA := rfl
  have hpk : (demoSigned 1 n).publicKey = some demoKeyA := rfl
  have hnonce : (demoSigned 1 n).nonce = some n := rfl
  have hamount : (demoSigned 1 n).amount = 1 := rfl
  have hminq : (demoQueued queue nonces).minTxAmount = 1 / 100000 := hmin
  have hmaxq : (demoQueued queue nonces).maxTxAmount = 100000 := hmax
  have hnq : (demoQueued queue nonces).nonces = nonces := rfl
  have hpq : (demoQueued queue nonces).pendingTransactions = queue := rfl
  rw [if_neg (by rw [hfrom]; simp)]
  rw [demoSigned_isValid, demoSigned_isValidAddress]
  dsimp only
  rw [if_neg (by rw [hamount, hminq, hmaxq]; unfold maxSafeInteger; norm_num)]
  rw [hstored, hpk]
  have hkey : keyOfPublicKey (some demoKeyA) = .str demoKeyA := rfl
  have hfixq : toFixedNumber (demoQueued queue nonces).maxSymbolsAfterPeriod 1 = 1 := hfix
  rw [hkey, hbal2, if_neg (by simp only [hamount, hfixq]; norm_num), hfrom]
  dsimp only
  rw [hsender, hnq, hn, if_neg (by rw [hnonce]; simp), hpq]
  rfl

theorem run_append (c : Crypto) (s : Blockchain) (l1 l2 : List Call) :
    s.run c (l1 ++ l2) = (s.run c l1).run c l2 := by
  unfold Blockchain.run
  rw [List.foldl_append]

theorem run_cons (c : Crypto) (s : Blockchain) (call : Call) (rest : List Call) :
    s.run c (call :: rest) = (s.step c call).run c rest := rfl

theorem step_addTransaction (c : Crypto) (s : Blockchain) (tx : Transaction) :
    s.step c (.addTransaction tx) = (s.addTransaction c tx).2 := rfl

theorem run_nil (c : Crypto) (s : Blockchain) : s.run c [] = s := rfl

theorem demoTransferCalls_succ (first count : Nat) :
    demoTransferCalls first (count + 1)
      = Call.addTransaction (demoSigned 1 (first : Int)) :: demoTransferCalls (first + 1) count := by
  unfold demoTransferCalls
  rw [List.range_succ_eq_map, List.map_cons, List.map_map]
  congr 1
  apply List.map_congr_left
  intro i _
  simp only [Function.comp_apply]
  congr 3
  omega

theorem demoTransfers_succ (first count : Nat) :
    demoTransfers first (count + 1)
      = demoSigned 1 (first : Int) :: demoTransfers (first + 1) count := by
  unfold demoTransfers
  rw [List.range_succ_eq_map, List.map_cons, List.map_map]
  congr 1
  apply List.map_congr_left
  intro i _
  simp only [Function.comp_apply]
  congr 2
  omega

theorem demoQueued_run (count first : Nat) (queue : List Transaction)
    (nonces : List (String × Int))
    (hn : expectedNonce nonces (generateAddress demoHashCrypto demoKeyA) = (first : Int)) :
    (demoQueued queue nonces).run demoHashCrypto (demoTransferCalls first (count + 1))
      = demoQueued (queue ++ demoTransfers first (count + 1))
          (setNonce nonces (generateAddress demoHashCrypto demoKeyA)
            ((first + count + 1 : Nat) : Int)) := by
  induction count generalizing first queue nonces with
  | zero =>
    rw [demoTransferCalls_succ, demoTransfers_succ]
    have : demoTransferCalls (first + 1) 0 = [] := rfl
    rw [this]
    have : demoTransfers (first + 1) 0 = [] := rfl
    rw [this]
    rw [run_cons, run_nil, step_addTransaction,
      demoQueued_addTransaction queue nonces first hn]
    simp
  | succ k ih =>
    rw [demoTransferCalls_succ, demoTransfers_succ]
    rw [run_cons, step_addTransaction, demoQueued_addTransaction queue nonces first hn]
    dsimp only
    rw [ih (first + 1) _ _ (by rw [expectedNonce_setNonce_self]; push_cast; ring)]
    rw [setNonce_setNonce, List.append_assoc, List.singleton_append]
    congr 3
    omega

/-- The over-full ledger is reached from a fresh ledger: the three mining calls, the transfer
of 1.00000000001 and 5000 transfers of 1, all accepted. -/
theorem demoOverfull_reachable : Reachable demoHashCrypto demoOverfull := by
  refine ⟨0, demoMineCalls ++ [.addTransaction (demoSigned demoFineAmount 0)]
    ++ demoTransferCalls 1 5000, ?_⟩
  rw [run_append, run_append]
  have h1 : ((Blockchain.new demoHashCrypto 0).run demoHashCrypto demoMineCalls).run
      demoHashCrypto [.addTransaction (demoSigned demoFineAmount 0)]
      = demoQueued demoHashPending.pendingTransactions demoHashPending.nonces := rfl
  rw [h1]
  have hn : expectedNonce demoHashPending.nonces (generateAddress demoHashCrypto demoKeyA)
      = ((1 : Nat) : Int) := by decide!
  rw [demoQueued_run 4999 1 _ _ hn]
  rfl

/-! ## Ledger: evaluations of rejections -/

/-- C20. A transfer of 1.00000000001, validly signed, is accepted by `addTransaction`, which
stores it with the amount rounded to 1 and the signature made over the unrounded amount; the
stored transaction fails `isValid()`, and the next `commitTransactions()` throws on it. -/
theorem rounded_transfer_invalid :
    (demoSigned demoFineAmount 0).isValid demoHashCrypto = .ok true
      ∧ (demoHashFunded.addTransaction demoHashCrypto (demoSigned demoFineAmount 0)).1 = .ok ()
      ∧ demoHashPending.pendingTransactions = [demoStoredFine]
      ∧ demoStoredFine.isValid demoHashCrypto = .ok false
      ∧ (demoHashPending.commitTransactions demoHashCrypto 9).1
          = .error "Invalid transaction in pending pool" := by
  decide!

/-- C12. In a reachable ledger with 5001 pending transactions, the first of which is the stored
transfer that fails `isValid()`, `commitTransactions()` throws and leaves the chain as it was, but the queue holds
only the last transaction: the first 5000 were cut off before the validation. -/
theorem overfull_commit_loses_batch :
    Reachable demoHashCrypto demoOverfull
      ∧ demoOverfull.pendingTransactions.length = 5001
      ∧ demoOverfull.maxTransactionsPerBlock = 5000
      ∧ (demoOverfull.commitTransactions demoHashCrypto 9).1
          = .error "Invalid transaction in pending pool"
      ∧ (demoOverfull.commitTransactions demoHashCrypto 9).2.chain = demoOverfull.chain
      ∧ (demoOverfull.commitTransactions demoHashCrypto 9).2.pendingTransactions
          = [demoSigned 1 5000] :=
  ⟨demoOverfull_reachable, by decide!⟩

/-- C14. The tip is an unmined block after genesis whose hash meets the difficulty, nothing is
pending, `demoKeyA` is a well-formed recipient and the remaining supply is 8. The halving rule
gives the reward 5, which is at most 8, yet `commitMining` throws `Not enough funds`: the supply
is debited to 3 before `addTransaction` compares it with the reward, and nothing is queued. -/
theorem reward_not_paid_after_debit :
    (demoTightSupply.chain.getLast?.map (fun b => (b.mined, b.meetsDifficulty demoTightSupply.difficulty, decide (b.prevHash = ""))))
        = some (false, true, false)
      ∧ demoTightSupply.pendingTransactions = []
      ∧ demoTightSupply.miningReward = 10 ∧ demoTightSupply.nextHalving = 500000
      ∧ (demoTightSupply.commitMining demoCrypto demoKeyA 2).1 = .error "Not enough funds"
      ∧ (demoTightSupply.commitMining demoCrypto demoKeyA 2).2.miningReward = 5
      ∧ (demoTightSupply.commitMining demoCrypto demoKeyA 2).2.currentMoney = 3
      ∧ (demoTightSupply.commitMining demoCrypto demoKeyA 2).2.pendingTransactions = []
      ∧ (demoTightSupply.commitMining demoCrypto demoKeyA 2).2.chain.getLast?.map (fun b => b.mined)
          = some true := by
  decide!

/-- C15. The mint transaction `new Transaction(null, demoBadKey, 1)` is classified with pair kind
2 (its recipient has 130 characters); the recipient does not start with "04" and
`isValidAddress()` throws instead of returning `false`. -/
theorem mint_shape_check_throws :
    (Transaction.new demoCrypto none demoBadKey 1 7) = .ok demoBadMint
      ∧ demoBadMint.pair = 2
      ∧ demoBadMint.isValidAddress demoCrypto = .error "Invalid addresses pair" := by
  decide!

/-- C18 fails as stated. The tip of `demoStale` is mined and the queue holds a transaction that
fails `isValid()`; `commitMining` runs `commitTransactions`, which throws, and the chain keeps
its three blocks instead of growing by one. -/
theorem commitMining_stale_queue :
    demoStale.chain.getLast?.map (fun b => b.mined) = some true
      ∧ demoStale.chain.length = 3
      ∧ (demoStale.commitMining demoHashCrypto demoKeyA 5).1
          = .error "Invalid transaction in pending pool"
      ∧ (demoStale.commitMining demoHashCrypto demoKeyA 5).2.chain.length = 3 := by
  decide!

end JsBlockchain
